import Mathlib

/-!
Verification of the JSON tooling core of the ProductiMate repository
(src/src/components/JsonTools_new.tsx and src/src/components/JsonViewer.tsx).

The JSON value model is a shallow embedding of the parsed JavaScript values
the components operate on.  Numbers are modelled as integers (the documents
exercised by the specification use integer literals only); object entries keep
the source/insertion order, as JavaScript objects do.
-/

/-- The tagged union of parsed JSON values (the spec's Value model). -/
inductive Value where
  | null
  | bool (b : Bool)
  | num (n : Int)
  | str (s : String)
  | arr (elems : List Value)
  | obj (entries : List (String × Value))

namespace Value

/-- The JavaScript test `typeof v !== 'object' || v === null` used by the diff
engine: true exactly for the non-container values. -/
def isScalar : Value → Bool
  | .null => true
  | .bool _ => true
  | .num _ => true
  | .str _ => true
  | .arr _ => false
  | .obj _ => false

end Value

/-- Decimal digit character, as produced by JavaScript number-to-string
conversion for a single digit. -/
def digitChar (n : Nat) : Char := Char.ofNat (48 + n)

/-- Decimal rendering of a natural number as a character list, the model of
the JavaScript template interpolation of a number. -/
def natReprL (n : Nat) : List Char :=
  if _h : n < 10 then [digitChar n]
  else natReprL (n / 10) ++ [digitChar (n % 10)]
decreasing_by exact Nat.div_lt_self (by omega) (by omega)

/-- Decimal rendering of a natural number as a string. -/
def natRepr (n : Nat) : String := ⟨natReprL n⟩

/-- Decimal rendering of an integer, the model of JavaScript
number-to-string conversion restricted to integers. -/
def intRepr (i : Int) : String :=
  if i < 0 then "-" ++ natRepr i.natAbs else natRepr i.natAbs

/-- First-match association-list lookup: the model of JavaScript property
access `o[k]` on a parsed JSON object. -/
def lookupKey (k : String) : List (String × Value) → Option Value
  | [] => none
  | (k2, v) :: rest => if k2 = k then some v else lookupKey k rest

/-- Keep the first occurrence of each element, dropping later duplicates: the
model of the JavaScript `[...new Set(list)]` construction. -/
def dedupFirst : List String → List String
  | [] => []
  | x :: xs => x :: dedupFirst (xs.filter (fun y => y ≠ x))
termination_by l => l.length
decreasing_by
  simp only [List.length_cons]
  exact Nat.lt_succ_of_le (List.length_filter_le _ _)

/-- Path extension for an object key, as built by both components:
`path ? path + "." + key : key`. -/
def childPath (path k : String) : String :=
  if path = "" then k else path ++ "." ++ k

/-- Path extension for an array index, as built by both components:
`path + "[" + i + "]"`. -/
def itemPath (path : String) (i : Nat) : String :=
  path ++ "[" ++ natRepr i ++ "]"

/-- The empty accumulated path is replaced by the literal label "root" when a
record is emitted (the source's `path || 'root'`). -/
def orRoot (path : String) : String :=
  if path = "" then "root" else path

mutual

/-- Structural deep equality of two JSON values, the model of the lodash
`isEqual` used by the diff engine: arrays compare index-wise, objects compare
by key set (insertion order is irrelevant). -/
def deepEqual : Value → Value → Bool
  | .null, .null => true
  | .bool a, .bool b => a == b
  | .num a, .num b => a == b
  | .str a, .str b => a == b
  | .arr a, .arr b => a.length == b.length && deepEqualList a b
  | .obj a, .obj b => a.length == b.length && deepEqualEntries a b
  | _, _ => false
termination_by a _ => sizeOf a

/-- Pointwise deep equality of array elements (assumes equal lengths were
checked by the caller). -/
def deepEqualList : List Value → List Value → Bool
  | [], _ => true
  | _ :: _, [] => false
  | a :: as2, b :: bs => deepEqual a b && deepEqualList as2 bs
termination_by l _ => sizeOf l

/-- Every entry of the first object is looked up in the second and compared
deeply (assumes equal entry counts were checked by the caller). -/
def deepEqualEntries : List (String × Value) → List (String × Value) → Bool
  | [], _ => true
  | (k, v) :: rest, b =>
    (match lookupKey k b with
     | some w => deepEqual v w
     | none => false) && deepEqualEntries rest b
termination_by l _ => sizeOf l

end

/-- Kind label of a diff record. -/
inductive DiffType where
  | added
  | removed
  | changed
  | unchanged
deriving DecidableEq, Repr

/-- A path-addressed change record (the source's `JsonDiffResult`): the
optional `leftValue` / `rightValue` fields model the absent properties of the
JavaScript object literal. -/
structure DiffRecord where
  path : String
  type : DiffType
  leftValue : Option Value
  rightValue : Option Value

/-- A looked-up object member is smaller than the entry list it came from. -/
theorem lookupKey_sizeOf_lt {k : String} :
    ∀ {l : List (String × Value)} {v : Value},
      lookupKey k l = some v → sizeOf v < sizeOf l := by
  intro l
  induction l with
  | nil => intro v h; simp [lookupKey] at h
  | cons kv rest ih =>
    obtain ⟨k2, w⟩ := kv
    intro v h
    simp only [lookupKey] at h
    split at h
    · cases h
      simp only [List.cons.sizeOf_spec, Prod.mk.sizeOf_spec]
      omega
    · have := ih h
      simp only [List.cons.sizeOf_spec]
      omega

mutual

/-- The structural diff engine (the source's `generateSmartJsonDiff`): scalar
or null on either side is compared deeply at the current path; a container
kind mismatch is a single changed record; arrays and objects are handled by
the two loop helpers. -/
def generateSmartJsonDiff (left right : Value) (path : String) : List DiffRecord :=
  if left.isScalar || right.isScalar then
    if deepEqual left right then
      [⟨orRoot path, .unchanged, some left, some right⟩]
    else
      [⟨orRoot path, .changed, some left, some right⟩]
  else
    match left, right with
    | .arr ls, .arr rs => diffArrayItems ls rs path 0
    | .obj lkvs, .obj rkvs =>
      diffObjectKeys (dedupFirst (lkvs.map Prod.fst ++ rkvs.map Prod.fst)) lkvs rkvs path
    | left, right => [⟨orRoot path, .changed, some left, some right⟩]
termination_by (sizeOf left + sizeOf right, 0)
decreasing_by
  · apply Prod.Lex.left
    simp only [Value.arr.sizeOf_spec]
    omega
  · apply Prod.Lex.left
    simp only [Value.obj.sizeOf_spec]
    omega

/-- The source's index-aligned `for` loop over `0 .. max(len(left),
len(right)) - 1`, expressed as simultaneous recursion on the two element
lists with the running index `i`. -/
def diffArrayItems : List Value → List Value → String → Nat → List DiffRecord
  | [], [], _, _ => []
  | [], r :: rs, path, i =>
    ⟨itemPath path i, .added, none, some r⟩ :: diffArrayItems [] rs path (i + 1)
  | l :: ls, [], path, i =>
    ⟨itemPath path i, .removed, some l, none⟩ :: diffArrayItems ls [] path (i + 1)
  | l :: ls, r :: rs, path, i =>
    generateSmartJsonDiff l r (itemPath path i) ++ diffArrayItems ls rs path (i + 1)
termination_by ls rs _ _ => (sizeOf ls + sizeOf rs, 0)
decreasing_by
  · apply Prod.Lex.left
    simp only [List.cons.sizeOf_spec]
    omega
  · apply Prod.Lex.left
    simp only [List.cons.sizeOf_spec]
    omega
  · apply Prod.Lex.left
    simp only [List.cons.sizeOf_spec]
    omega
  · apply Prod.Lex.left
    simp only [List.cons.sizeOf_spec]
    omega

/-- The body of the source's `for (const key of allKeys)` loop for one key:
the key is looked up on both sides; present on both recurses, present on one
side only emits a removed/added record (the both-absent branch is
unreachable, every key coming from one of the two objects). -/
def objectDiffStep
    (lkvs rkvs : List (String × Value)) (path : String) (k : String) : List DiffRecord :=
  match h1 : lookupKey k lkvs, h2 : lookupKey k rkvs with
  | some lv, some rv => generateSmartJsonDiff lv rv (childPath path k)
  | some lv, none => [⟨childPath path k, .removed, some lv, none⟩]
  | none, some rv => [⟨childPath path k, .added, none, some rv⟩]
  | none, none => []
termination_by (sizeOf lkvs + sizeOf rkvs, 0)
decreasing_by
  apply Prod.Lex.left
  have hl := lookupKey_sizeOf_lt h1
  have hr := lookupKey_sizeOf_lt h2
  omega

/-- The source's `for (const key of allKeys)` loop over the key union. -/
def diffObjectKeys :
    List String → List (String × Value) → List (String × Value) → String → List DiffRecord
  | [], _, _, _ => []
  | k :: ks, lkvs, rkvs, path =>
    objectDiffStep lkvs rkvs path k ++ diffObjectKeys ks lkvs rkvs path
termination_by ks lkvs rkvs _ => (sizeOf lkvs + sizeOf rkvs, ks.length + 1)
decreasing_by
  · apply Prod.Lex.right
    omega
  · apply Prod.Lex.right
    simp

end

/-- Display kind of a tree row (the source's `JsonNode.type` string union). -/
inductive NodeType where
  | object
  | array
  | string
  | number
  | boolean
  | null
deriving DecidableEq, Repr

/-- One visible line of the tree view (the source's `JsonNode`). -/
structure JsonNode where
  key : String
  value : Value
  type : NodeType
  path : String
  level : Nat
  isExpanded : Bool
  hasChildren : Bool
  isVisible : Bool

mutual

/-- The tree materializer (the source's `parseJsonToNodes`): one row for the
node itself, followed, for a container whose path is in the expanded set, by
the rows of its children.  The expanded-path set is modelled as a list of
path strings queried by membership. -/
def parseJsonToNodes (E : List String) : Value → String → Nat → List JsonNode
  | .null, parentPath, level =>
    [⟨"null", .null, .null, parentPath, level, false, false, true⟩]
  | .bool b, parentPath, level =>
    [⟨if b then "true" else "false", .bool b, .boolean, parentPath, level, false, false, true⟩]
  | .num n, parentPath, level =>
    [⟨intRepr n, .num n, .number, parentPath, level, false, false, true⟩]
  | .str s, parentPath, level =>
    [⟨s, .str s, .string, parentPath, level, false, false, true⟩]
  | .arr elems, parentPath, level =>
    ⟨"Array(" ++ natRepr elems.length ++ ")", .arr elems, .array, parentPath, level,
      E.contains parentPath, decide (0 < elems.length), true⟩ ::
    (if E.contains parentPath then arrChildNodes E elems parentPath level 0 else [])
  | .obj kvs, parentPath, level =>
    ⟨"Object\x7b" ++ natRepr kvs.length ++ "\x7d", .obj kvs, .object, parentPath, level,
      E.contains parentPath, decide (0 < kvs.length), true⟩ ::
    (if E.contains parentPath then objChildNodes E kvs parentPath level else [])
termination_by v _ _ => sizeOf v

/-- The source's `obj.forEach((item, index) => ...)` over array elements. -/
def arrChildNodes (E : List String) : List Value → String → Nat → Nat → List JsonNode
  | [], _, _, _ => []
  | item :: rest, parentPath, level, i =>
    parseJsonToNodes E item (itemPath parentPath i) (level + 1) ++
    arrChildNodes E rest parentPath level (i + 1)
termination_by l _ _ _ => sizeOf l

/-- The source's `keys.forEach(key => ...)` over object entries. -/
def objChildNodes (E : List String) : List (String × Value) → String → Nat → List JsonNode
  | [], _, _ => []
  | (k, v) :: rest, parentPath, level =>
    parseJsonToNodes E v (childPath parentPath k) (level + 1) ++
    objChildNodes E rest parentPath level
termination_by l _ _ => sizeOf l

end

/-- The expanded-path set installed after a successful parse and by the
collapse-all operation: exactly the root path (the source's
`new Set([''])`). -/
def rootOnlyExpanded : List String := [""]

/-- Lexicographic code-point comparison of character lists, the order used by
the default JavaScript string sort. -/
def charListLe : List Char → List Char → Bool
  | [], _ => true
  | _ :: _, [] => false
  | a :: as2, b :: bs =>
    if a.toNat < b.toNat then true
    else if b.toNat < a.toNat then false
    else charListLe as2 bs

/-- Lexicographic code-point comparison of strings. -/
def strLe (a b : String) : Bool := charListLe a.data b.data

/-- Insert a string into an already sorted list, keeping it sorted. -/
def insertSorted (x : String) : List String → List String
  | [] => [x]
  | y :: ys => if strLe x y then x :: y :: ys else y :: insertSorted x ys

/-- Insertion sort on strings, the model of the JavaScript
`Object.keys(obj).sort()` (default lexicographic comparator). -/
def sortStrings : List String → List String
  | [] => []
  | x :: xs => insertSorted x (sortStrings xs)

mutual

/-- Recursive key sorting (the source's `sortObjectKeys`): scalars are
returned unchanged, arrays map the sort over their elements in place, and
objects are rebuilt by iterating the sorted key list. -/
def sortObjectKeys : Value → Value
  | .null => .null
  | .bool b => .bool b
  | .num n => .num n
  | .str s => .str s
  | .arr l => .arr (sortValueList l)
  | .obj kvs => .obj (sortEntryList (sortStrings (kvs.map Prod.fst)) kvs)
termination_by v => (sizeOf v, 0)
decreasing_by
  · apply Prod.Lex.left
    simp only [Value.arr.sizeOf_spec]
    omega
  · apply Prod.Lex.left
    simp only [Value.obj.sizeOf_spec]
    omega

/-- Elementwise key sorting of array elements (the source's
`obj.map(sortObjectKeys)`). -/
def sortValueList : List Value → List Value
  | [] => []
  | v :: rest => sortObjectKeys v :: sortValueList rest
termination_by l => (sizeOf l, 0)
decreasing_by
  · apply Prod.Lex.left
    simp only [List.cons.sizeOf_spec]
    omega
  · apply Prod.Lex.left
    simp only [List.cons.sizeOf_spec]
    omega

/-- Rebuild an object's entries in the order of the given (sorted) key list,
recursively sorting each looked-up member (the source's
`sortedObj[key] = sortObjectKeys(obj[key])` loop).  The none branch is
unreachable because every key comes from the object itself. -/
def sortEntryList : List String → List (String × Value) → List (String × Value)
  | [], _ => []
  | k :: ks, kvs =>
    (k, match h : lookupKey k kvs with
        | some v => sortObjectKeys v
        | none => .null) :: sortEntryList ks kvs
termination_by ks kvs => (sizeOf kvs, ks.length)
decreasing_by
  · apply Prod.Lex.left
    exact lookupKey_sizeOf_lt h
  · apply Prod.Lex.right
    simp

end

/-- Lower-case hexadecimal digit character. -/
def hexDigitChar (n : Nat) : Char :=
  if n < 10 then digitChar n else Char.ofNat (87 + n)

/-- JSON string escaping of one character, as performed by
`JSON.stringify`: quote, backslash and the named control escapes get a
two-character form, all other control characters a `\u00xx` form, and
everything else passes through unchanged. -/
def escChar (c : Char) : List Char :=
  if c = '"' then ['\\', '"']
  else if c = '\\' then ['\\', '\\']
  else if c = '\x08' then ['\\', 'b']
  else if c = '\t' then ['\\', 't']
  else if c = '\n' then ['\\', 'n']
  else if c = '\x0c' then ['\\', 'f']
  else if c = '\r' then ['\\', 'r']
  else if c.toNat < 32 then
    ['\\', 'u', '0', '0', hexDigitChar (c.toNat / 16), hexDigitChar (c.toNat % 16)]
  else [c]

/-- JSON string escaping of a character list. -/
def escChars : List Char → List Char
  | [] => []
  | c :: cs => escChar c ++ escChars cs

/-- Rendering of a non-container value, shared by the compact and the
pretty printer (both agree with `JSON.stringify` on scalars). -/
def renderAtom : Value → List Char
  | .null => "null".data
  | .bool b => if b then "true".data else "false".data
  | .num n => (intRepr n).data
  | .str s => '"' :: (escChars s.data ++ ['"'])
  | .arr _ => []
  | .obj _ => []

mutual

/-- Compact rendering, the model of `JSON.stringify(v)`: no inserted
whitespace anywhere. -/
def renderCompact : Value → List Char
  | .null => renderAtom .null
  | .bool b => renderAtom (.bool b)
  | .num n => renderAtom (.num n)
  | .str s => renderAtom (.str s)
  | .arr [] => ['[', ']']
  | .arr (v :: vs) => '[' :: (renderCompact v ++ renderItemsC vs ++ [']'])
  | .obj [] => ['\x7b', '\x7d']
  | .obj ((k, v) :: ms) =>
    '\x7b' :: '"' :: (escChars k.data ++ '"' :: ':' :: renderCompact v ++ renderMembersC ms ++ ['\x7d'])
termination_by v => sizeOf v

/-- Remaining comma-separated compact array items. -/
def renderItemsC : List Value → List Char
  | [] => []
  | v :: vs => ',' :: (renderCompact v ++ renderItemsC vs)
termination_by l => sizeOf l

/-- Remaining comma-separated compact object members. -/
def renderMembersC : List (String × Value) → List Char
  | [] => []
  | (k, v) :: ms =>
    ',' :: '"' :: (escChars k.data ++ '"' :: ':' :: renderCompact v ++ renderMembersC ms)
termination_by l => sizeOf l

end

/-- An indentation run of spaces. -/
def indentPad (n : Nat) : List Char := List.replicate n ' '

mutual

/-- Pretty rendering at nesting depth `d`, the model of
`JSON.stringify(v, null, indentWidth)`: empty containers stay on one line,
non-empty containers put each child on its own line indented one level
deeper, with a space after each colon. -/
def renderPretty (iw : Nat) : Value → Nat → List Char
  | .null, _ => renderAtom .null
  | .bool b, _ => renderAtom (.bool b)
  | .num n, _ => renderAtom (.num n)
  | .str s, _ => renderAtom (.str s)
  | .arr [], _ => ['[', ']']
  | .arr (v :: vs), d =>
    '[' :: '\n' :: (indentPad (iw * (d + 1)) ++ renderPretty iw v (d + 1) ++
      renderItemsP iw vs (d + 1) ++ '\n' :: (indentPad (iw * d) ++ [']']))
  | .obj [], _ => ['\x7b', '\x7d']
  | .obj ((k, v) :: ms), d =>
    '\x7b' :: '\n' :: (indentPad (iw * (d + 1)) ++ '"' :: (escChars k.data ++
      '"' :: ':' :: ' ' :: renderPretty iw v (d + 1)) ++
      renderMembersP iw ms (d + 1) ++ '\n' :: (indentPad (iw * d) ++ ['\x7d']))
termination_by v _ => sizeOf v

/-- Remaining pretty array items, each preceded by a comma, newline and
indentation. -/
def renderItemsP (iw : Nat) : List Value → Nat → List Char
  | [], _ => []
  | v :: vs, d =>
    ',' :: '\n' :: (indentPad (iw * d) ++ renderPretty iw v d ++ renderItemsP iw vs d)
termination_by l _ => sizeOf l

/-- Remaining pretty object members, each preceded by a comma, newline and
indentation. -/
def renderMembersP (iw : Nat) : List (String × Value) → Nat → List Char
  | [], _ => []
  | (k, v) :: ms, d =>
    ',' :: '\n' :: (indentPad (iw * d) ++ '"' :: (escChars k.data ++
      '"' :: ':' :: ' ' :: renderPretty iw v d) ++ renderMembersP iw ms d)
termination_by l _ => sizeOf l

end

/-- The formatter configuration (the spec's FormatOptions; in the source the
three pieces of component state `indentSize`, `sortKeys`, `compactMode`). -/
structure FormatOptions where
  indentWidth : Nat
  sortKeys : Bool
  compact : Bool

/-- The formatting pipeline applied to a successfully parsed value (the body
of the source's `formattedJson` memo): compact mode stringifies the parsed
value directly (ignoring the sort-keys switch); otherwise the value —
key-sorted first when the switch is on — is pretty-printed with the
configured indent width. -/
def formatValue (v : Value) (o : FormatOptions) : String :=
  if o.compact then ⟨renderCompact v⟩
  else if o.sortKeys then ⟨renderPretty o.indentWidth (sortObjectKeys v) 0⟩
  else ⟨renderPretty o.indentWidth v 0⟩

/-- JSON insignificant whitespace (also the characters relevant to the
source's emptiness test `!input.trim()` on the documents at hand). -/
def isWsChar (c : Char) : Bool := c = ' ' || c = '\t' || c = '\n' || c = '\r'

/-- Drop leading insignificant whitespace. -/
def skipWs (cs : List Char) : List Char := cs.dropWhile isWsChar

/-- Value of a hexadecimal digit character, if any. -/
def unhex (c : Char) : Option Nat :=
  if 48 ≤ c.toNat && c.toNat ≤ 57 then some (c.toNat - 48)
  else if 97 ≤ c.toNat && c.toNat ≤ 102 then some (c.toNat - 87)
  else if 65 ≤ c.toNat && c.toNat ≤ 70 then some (c.toNat - 55)
  else none

/-- Modelled from the spec: the string-literal part of the RFC 8259 grammar
used by the platform `JSON.parse` the source calls.  Reads the characters of
a string literal after its opening quote, resolving backslash escapes,
up to and including the closing quote; raw control characters and unknown
escapes are rejected. -/
def parseStringBody : List Char → Option (List Char × List Char)
  | [] => none
  | c :: rest =>
    if c = '"' then some ([], rest)
    else if c = '\\' then
      match rest with
      | [] => none
      | e :: rest2 =>
        if e = '"' then (parseStringBody rest2).map (fun p => ('"' :: p.1, p.2))
        else if e = '\\' then (parseStringBody rest2).map (fun p => ('\\' :: p.1, p.2))
        else if e = '/' then (parseStringBody rest2).map (fun p => ('/' :: p.1, p.2))
        else if e = 'b' then (parseStringBody rest2).map (fun p => ('\x08' :: p.1, p.2))
        else if e = 'f' then (parseStringBody rest2).map (fun p => ('\x0c' :: p.1, p.2))
        else if e = 'n' then (parseStringBody rest2).map (fun p => ('\n' :: p.1, p.2))
        else if e = 'r' then (parseStringBody rest2).map (fun p => ('\r' :: p.1, p.2))
        else if e = 't' then (parseStringBody rest2).map (fun p => ('\t' :: p.1, p.2))
        else if e = 'u' then
          match rest2 with
          | h1 :: h2 :: h3 :: h4 :: rest3 =>
            match unhex h1, unhex h2, unhex h3, unhex h4 with
            | some a, some b, some c2, some d =>
              (parseStringBody rest3).map
                (fun p => (Char.ofNat (((a * 16 + b) * 16 + c2) * 16 + d) :: p.1, p.2))
            | _, _, _, _ => none
          | _ => none
        else none
    else if c.toNat < 32 then none
    else (parseStringBody rest).map (fun p => (c :: p.1, p.2))

/-- Split off a leading run of decimal digits. -/
def takeDigits : List Char → List Char × List Char
  | [] => ([], [])
  | c :: rest =>
    if 48 ≤ c.toNat && c.toNat ≤ 57 then
      ((c :: (takeDigits rest).1), (takeDigits rest).2)
    else ([], c :: rest)

/-- Numeric value of a run of decimal digits. -/
def digitsToNat (ds : List Char) : Nat := ds.foldl (fun acc c => acc * 10 + (c.toNat - 48)) 0

/-- JavaScript object construction semantics for a parsed member list: a
repeated key keeps its first position but receives the later value. -/
def objAssignOne (acc : List (String × Value)) (k : String) (v : Value) : List (String × Value) :=
  if (acc.map Prod.fst).contains k then
    acc.map (fun kv => if kv.1 = k then (k, v) else kv)
  else acc ++ [(k, v)]

/-- Assemble an object from its parsed members in order. -/
def buildObj (ms : List (String × Value)) : List (String × Value) :=
  ms.foldl (fun acc kv => objAssignOne acc kv.1 kv.2) []

mutual

/-- Modelled from the spec: the platform `JSON.parse` the source calls
(RFC 8259 semantics), restricted to integer numeric literals — the only
numbers in the value model.  Parses one value after optional leading
whitespace; the fuel argument only bounds the recursion depth and is
supplied generously by `parseJson`. -/
def parseVal : Nat → List Char → Option (Value × List Char)
  | 0, _ => none
  | fuel + 1, cs =>
    match skipWs cs with
    | [] => none
    | c :: rest =>
      if c = 'n' then
        match rest with
        | 'u' :: 'l' :: 'l' :: r => some (.null, r)
        | _ => none
      else if c = 't' then
        match rest with
        | 'r' :: 'u' :: 'e' :: r => some (.bool true, r)
        | _ => none
      else if c = 'f' then
        match rest with
        | 'a' :: 'l' :: 's' :: 'e' :: r => some (.bool false, r)
        | _ => none
      else if c = '"' then
        (parseStringBody rest).map (fun p => (.str ⟨p.1⟩, p.2))
      else if c = '[' then
        match skipWs rest with
        | [] => (parseElems fuel rest).map (fun p => (.arr p.1, p.2))
        | c2 :: r2 =>
          if c2 = ']' then some (.arr [], r2)
          else (parseElems fuel rest).map (fun p => (.arr p.1, p.2))
      else if c = '\x7b' then
        match skipWs rest with
        | [] => (parseMembers fuel rest).map (fun p => (.obj (buildObj p.1), p.2))
        | c2 :: r2 =>
          if c2 = '\x7d' then some (.obj [], r2)
          else (parseMembers fuel rest).map (fun p => (.obj (buildObj p.1), p.2))
      else if c = '-' then
        match takeDigits rest with
        | ([], _) => none
        | (ds, r) => some (.num (-(digitsToNat ds : Int)), r)
      else if 48 ≤ c.toNat && c.toNat ≤ 57 then
        some (.num (digitsToNat (takeDigits (c :: rest)).1), (takeDigits (c :: rest)).2)
      else none

/-- Parse the comma-separated elements of a non-empty array, consuming the
closing bracket. -/
def parseElems : Nat → List Char → Option (List Value × List Char)
  | 0, _ => none
  | fuel + 1, cs =>
    match parseVal fuel cs with
    | none => none
    | some (v, r) =>
      match skipWs r with
      | ',' :: r2 =>
        match parseElems fuel r2 with
        | none => none
        | some (vs, r3) => some (v :: vs, r3)
      | ']' :: r2 => some ([v], r2)
      | _ => none

/-- Parse the comma-separated members of a non-empty object, consuming the
closing brace. -/
def parseMembers : Nat → List Char → Option (List (String × Value) × List Char)
  | 0, _ => none
  | fuel + 1, cs =>
    match skipWs cs with
    | '"' :: r =>
      match parseStringBody r with
      | none => none
      | some (kChars, r1) =>
        match skipWs r1 with
        | ':' :: r2 =>
          match parseVal fuel r2 with
          | none => none
          | some (v, r3) =>
            match skipWs r3 with
            | ',' :: r4 =>
              match parseMembers fuel r4 with
              | none => none
              | some (ms, r5) => some ((⟨kChars⟩, v) :: ms, r5)
            | '\x7d' :: r4 => some ([(⟨kChars⟩, v)], r4)
            | _ => none
        | _ => none
    | _ => none

end

/-- Modelled from the spec: the parser contract
`parse(text) -> Result<Value, ParseError>`, realised in the source by
`JSON.parse` inside try/catch.  The fuel given to the descent is one more
than the input length, which is always sufficient. -/
def parseJson (s : String) : Option Value :=
  match parseVal (s.data.length + 1) s.data with
  | some (v, rest) => if skipWs rest = [] then some v else none
  | none => none

/-- The source's emptiness test `!input.trim()`: every character is
whitespace. -/
def isBlank (s : String) : Bool := s.data.all isWsChar

/-- The source's `isValidJson` memo: blank input counts as valid, otherwise
validity is the success of the parse. -/
def isValidJson (s : String) : Bool :=
  if isBlank s then true else (parseJson s).isSome

/-- The source's `formattedJson` memo over the raw input text: blank input
and parse failures produce the empty string, otherwise the parsed value is
formatted under the current options. -/
def formattedJson (input : String) (o : FormatOptions) : String :=
  if isBlank input then ""
  else
    match parseJson input with
    | some v => formatValue v o
    | none => ""

/-- The source's `diffResult` memo: a blank side or a parse failure on
either side produces no records, otherwise the two parsed documents are
diffed from the empty path. -/
def diffResult (leftJson rightJson : String) : List DiffRecord :=
  if isBlank leftJson || isBlank rightJson then []
  else
    match parseJson leftJson, parseJson rightJson with
    | some l, some r => generateSmartJsonDiff l r ""
    | _, _ => []

/-- Membership in the deduplicated list is membership in the original. -/
theorem mem_dedupFirst : ∀ l (a : String), a ∈ dedupFirst l ↔ a ∈ l := by
  intro l
  induction l using dedupFirst.induct with
  | case1 => intro a; simp [dedupFirst]
  | case2 x xs ih =>
    intro a
    simp only [dedupFirst, List.mem_cons, ih, List.mem_filter]
    constructor
    · rintro (rfl | ⟨h, _⟩)
      · exact .inl rfl
      · exact .inr h
    · rintro (rfl | h)
      · exact .inl rfl
      · by_cases hx : a = x
        · exact .inl hx
        · exact .inr ⟨h, by simp [hx]⟩

/-- The deduplicated list has no duplicates. -/
theorem nodup_dedupFirst : ∀ l : List String, (dedupFirst l).Nodup := by
  intro l
  induction l using dedupFirst.induct with
  | case1 => simp [dedupFirst]
  | case2 x xs ih =>
    simp only [dedupFirst, List.nodup_cons]
    refine ⟨fun hx => ?_, ih⟩
    rw [mem_dedupFirst, List.mem_filter] at hx
    simp at hx

/-- The body of the source's index-aligned array `for` loop at index `i`:
past the left length it emits an added record carrying the right element,
past the right length a removed record carrying the left element, and
otherwise recurses on the two elements at the extended path. -/
def arrayDiffStep (ls rs : List Value) (path : String) (i : Nat) : List DiffRecord :=
  if ls.length ≤ i then [⟨itemPath path i, .added, none, rs[i]?⟩]
  else if rs.length ≤ i then [⟨itemPath path i, .removed, ls[i]?, none⟩]
  else
    match ls[i]?, rs[i]? with
    | some l, some r => generateSmartJsonDiff l r (itemPath path i)
    | _, _ => []

/-- The array loop helper on the index-`i` suffixes is the concatenation of
the loop bodies for the remaining indices. -/
theorem diffArrayItems_drop :
    ∀ (k : Nat) (ls rs : List Value) (path : String) (i : Nat),
      max ls.length rs.length - i = k →
      diffArrayItems (ls.drop i) (rs.drop i) path i =
        (List.range' i k).flatMap (arrayDiffStep ls rs path) := by
  intro k
  induction k with
  | zero =>
    intro ls rs path i hk
    have h1 : ls.length ≤ i := by omega
    have h2 : rs.length ≤ i := by omega
    rw [List.drop_eq_nil_of_le h1, List.drop_eq_nil_of_le h2]
    simp [diffArrayItems]
  | succ k ih =>
    intro ls rs path i hk
    rw [List.range'_succ]
    by_cases h1 : ls.length ≤ i
    · by_cases h2 : rs.length ≤ i
      · omega
      · have hlt : i < rs.length := by omega
        rw [List.drop_eq_nil_of_le h1, List.drop_eq_getElem_cons hlt]
        have hrec := ih ls rs path (i + 1) (by omega)
        rw [List.drop_eq_nil_of_le (by omega : ls.length ≤ i + 1)] at hrec
        simp only [diffArrayItems, hrec, arrayDiffStep, if_pos h1,
          List.getElem?_eq_getElem hlt, List.flatMap_cons, List.singleton_append]
    · by_cases h2 : rs.length ≤ i
      · have hlt : i < ls.length := by omega
        rw [List.drop_eq_nil_of_le h2, List.drop_eq_getElem_cons hlt]
        have hrec := ih ls rs path (i + 1) (by omega)
        rw [List.drop_eq_nil_of_le (by omega : rs.length ≤ i + 1)] at hrec
        simp only [diffArrayItems, hrec, arrayDiffStep, if_neg h1, if_pos h2,
          List.getElem?_eq_getElem hlt, List.flatMap_cons, List.singleton_append]
      · have hl : i < ls.length := by omega
        have hr : i < rs.length := by omega
        rw [List.drop_eq_getElem_cons hl, List.drop_eq_getElem_cons hr]
        have hrec := ih ls rs path (i + 1) (by omega)
        simp only [diffArrayItems, hrec, arrayDiffStep, if_neg h1, if_neg h2,
          List.getElem?_eq_getElem hl, List.getElem?_eq_getElem hr,
          List.flatMap_cons]

/-- On two arrays the diff engine runs the array loop from index 0. -/
theorem gen_arr_arr (ls rs : List Value) (path : String) :
    generateSmartJsonDiff (.arr ls) (.arr rs) path = diffArrayItems ls rs path 0 := by
  simp [generateSmartJsonDiff, Value.isScalar]

/-- On two objects the diff engine runs the key loop over the deduplicated
key union. -/
theorem gen_obj_obj (lkvs rkvs : List (String × Value)) (path : String) :
    generateSmartJsonDiff (.obj lkvs) (.obj rkvs) path =
      diffObjectKeys (dedupFirst (lkvs.map Prod.fst ++ rkvs.map Prod.fst)) lkvs rkvs path := by
  simp [generateSmartJsonDiff, Value.isScalar]

/-- The object-key loop helper is the concatenation of the per-key loop
bodies. -/
theorem diffObjectKeys_eq_flatMap :
    ∀ (ks : List String) (lkvs rkvs : List (String × Value)) (path : String),
      diffObjectKeys ks lkvs rkvs path = ks.flatMap (objectDiffStep lkvs rkvs path) := by
  intro ks lkvs rkvs path
  induction ks with
  | nil => simp [diffObjectKeys]
  | cons k ks ih => simp [diffObjectKeys, ih]

/-- C1: on two arrays the diff engine is index-aligned over
`0 .. max(len(left), len(right)) - 1`, appending the `[i]` path segment and
emitting added (with the right element) past the left length, removed (with
the left element) past the right length, and recursing otherwise; on two
objects it visits each key of the union of the two key sets exactly once
(keys of the left in order, then the new keys of the right), appending the
`.k` path segment, recursing when the key is on both sides, and emitting
removed (left only) or added (right only) otherwise. -/
theorem claim_C1_diff_container_rules :
    ∀ (ls rs : List Value) (lkvs rkvs : List (String × Value)) (path : String),
      generateSmartJsonDiff (.arr ls) (.arr rs) path =
        (List.range (max ls.length rs.length)).flatMap (arrayDiffStep ls rs path) ∧
      generateSmartJsonDiff (.obj lkvs) (.obj rkvs) path =
        (dedupFirst (lkvs.map Prod.fst ++ rkvs.map Prod.fst)).flatMap
          (objectDiffStep lkvs rkvs path) ∧
      (dedupFirst (lkvs.map Prod.fst ++ rkvs.map Prod.fst)).Nodup ∧
      (∀ k, k ∈ dedupFirst (lkvs.map Prod.fst ++ rkvs.map Prod.fst) ↔
        k ∈ lkvs.map Prod.fst ∨ k ∈ rkvs.map Prod.fst) := by
  intro ls rs lkvs rkvs path
  refine ⟨?_, ?_, nodup_dedupFirst _, ?_⟩
  · have h0 := diffArrayItems_drop (max ls.length rs.length) ls rs path 0 (by omega)
    simp only [List.drop_zero] at h0
    rw [gen_arr_arr, h0, List.range_eq_range']
  · rw [gen_obj_obj]
    exact diffObjectKeys_eq_flatMap _ _ _ _
  · intro k
    rw [mem_dedupFirst, List.mem_append]

/-- C2 counterexample: on the spec's scenario documents the diff engine does
not return the records in the order claimed by the spec (`b.c`, `b.d`, `a`);
the key `a` is visited first because the key union lists the left document's
keys in their own order. -/
theorem claim_C2_cex :
    generateSmartJsonDiff
      (.obj [("a", .num 1), ("b", .obj [("c", .num 2)])])
      (.obj [("a", .num 1), ("b", .obj [("c", .num 3), ("d", .num 4)])])
      "" ≠
    [⟨"b.c", .changed, some (.num 2), some (.num 3)⟩,
     ⟨"b.d", .added, none, some (.num 4)⟩,
     ⟨"a", .unchanged, some (.num 1), some (.num 1)⟩] := by
  simp [generateSmartJsonDiff, diffArrayItems, diffObjectKeys, objectDiffStep, dedupFirst,
    lookupKey, deepEqual, childPath, orRoot, Value.isScalar]

/-- C2 amended: the scenario diff returns exactly the three claimed records,
but in key-union order — `a` unchanged first, then the `b` subtree's records
`b.c` changed and `b.d` added. -/
theorem claim_C2_amended_scenario :
    generateSmartJsonDiff
      (.obj [("a", .num 1), ("b", .obj [("c", .num 2)])])
      (.obj [("a", .num 1), ("b", .obj [("c", .num 3), ("d", .num 4)])])
      "" =
    [⟨"a", .unchanged, some (.num 1), some (.num 1)⟩,
     ⟨"b.c", .changed, some (.num 2), some (.num 3)⟩,
     ⟨"b.d", .added, none, some (.num 4)⟩] := by
  simp [generateSmartJsonDiff, diffArrayItems, diffObjectKeys, objectDiffStep, dedupFirst,
    lookupKey, deepEqual, childPath, orRoot, Value.isScalar]

/-- Every row emitted by the materializer is at the level of the call or
deeper, and exactly one row — the node's own — is at the call level. -/
theorem parseJsonToNodes_levels (E : List String) :
    (∀ (v : Value) (p : String) (l : Nat),
      (parseJsonToNodes E v p l).countP (fun r => r.level == l) = 1 ∧
      ∀ r ∈ parseJsonToNodes E v p l, l ≤ r.level) ∧
    (∀ (kvs : List (String × Value)) (p : String) (l : Nat),
      ∀ r ∈ objChildNodes E kvs p l, l + 1 ≤ r.level) ∧
    (∀ (items : List Value) (p : String) (l : Nat) (i : Nat),
      ∀ r ∈ arrChildNodes E items p l i, l + 1 ≤ r.level) := by
  refine parseJsonToNodes.mutual_induct E
    (fun v p l =>
      (parseJsonToNodes E v p l).countP (fun r => r.level == l) = 1 ∧
      ∀ r ∈ parseJsonToNodes E v p l, l ≤ r.level)
    (fun kvs p l => ∀ r ∈ objChildNodes E kvs p l, l + 1 ≤ r.level)
    (fun items p l i => ∀ r ∈ arrChildNodes E items p l i, l + 1 ≤ r.level)
    ?_ ?_ ?_ ?_ ?_ ?_ ?_ ?_ ?_ ?_
  · intro p l; simp [parseJsonToNodes]
  · intro b p l; simp [parseJsonToNodes]
  · intro n p l; simp [parseJsonToNodes]
  · intro s p l; simp [parseJsonToNodes]
  · intro elems p l ih
    constructor
    · rw [parseJsonToNodes]
      simp [List.countP_cons]
      intro a _ ha
      have := ih a ha
      omega
    · intro r hr
      rw [parseJsonToNodes] at hr
      rcases List.mem_cons.mp hr with rfl | hr2
      · exact Nat.le_refl l
      · split at hr2
        · have := ih r hr2; omega
        · simp at hr2
  · intro kvs p l ih
    constructor
    · rw [parseJsonToNodes]
      simp [List.countP_cons]
      intro a _ ha
      have := ih a ha
      omega
    · intro r hr
      rw [parseJsonToNodes] at hr
      rcases List.mem_cons.mp hr with rfl | hr2
      · exact Nat.le_refl l
      · split at hr2
        · have := ih r hr2; omega
        · simp at hr2
  · intro p l r hr
    simp [objChildNodes] at hr
  · intro k v rest p l ih1 ih2 r hr
    rw [objChildNodes] at hr
    rcases List.mem_append.mp hr with h | h
    · have := ih1.2 r h; omega
    · exact ih2 r h
  · intro p l i r hr
    simp [arrChildNodes] at hr
  · intro item rest p l i ih1 ih2 r hr
    rw [arrChildNodes] at hr
    rcases List.mem_append.mp hr with h | h
    · have := ih1.2 r h; omega
    · exact ih2 r h

/-- The materializer itself, run from the root path, emits exactly one row
at nesting level 0 for every value and every expanded-path set.  (The
component's `nodes` memo guards this call behind the JavaScript truthiness
of the parsed document, so this property does not transfer to the memo for
the falsy documents; see the C4 theorem below.) -/
theorem parseJsonToNodes_single_root_row (E : List String) (v : Value) :
    (parseJsonToNodes E v "" 0).countP (fun r => r.level == 0) = 1 :=
  ((parseJsonToNodes_levels E).1 v "" 0).1

mutual

/-- Number of non-container (leaf) nodes reachable in a value. -/
def leafCount : Value → Nat
  | .null => 1
  | .bool _ => 1
  | .num _ => 1
  | .str _ => 1
  | .arr l => leafCountL l
  | .obj kvs => leafCountE kvs
termination_by v => sizeOf v

/-- Total leaf count of a list of values. -/
def leafCountL : List Value → Nat
  | [] => 0
  | v :: rest => leafCount v + leafCountL rest
termination_by l => sizeOf l

/-- Total leaf count of an entry list. -/
def leafCountE : List (String × Value) → Nat
  | [] => 0
  | (_, v) :: rest => leafCount v + leafCountE rest
termination_by l => sizeOf l

end

/-- No string occurs twice in the list (key-uniqueness check). -/
def nodupKeysB : List String → Bool
  | [] => true
  | k :: ks => !ks.contains k && nodupKeysB ks

mutual

/-- The invariant JavaScript values parsed from JSON satisfy: every object
has pairwise distinct keys, at every nesting level. -/
def wellFormed : Value → Bool
  | .null => true
  | .bool _ => true
  | .num _ => true
  | .str _ => true
  | .arr l => wfList l
  | .obj kvs => nodupKeysB (kvs.map Prod.fst) && wfEntries kvs
termination_by v => sizeOf v

/-- Well-formedness of every element. -/
def wfList : List Value → Bool
  | [] => true
  | v :: rest => wellFormed v && wfList rest
termination_by l => sizeOf l

/-- Well-formedness of every entry value. -/
def wfEntries : List (String × Value) → Bool
  | [] => true
  | (_, v) :: rest => wellFormed v && wfEntries rest
termination_by l => sizeOf l

end

/-- In an entry list with pairwise distinct keys, lookup of a member's key
returns that member's value. -/
theorem lookupKey_of_mem_nodup :
    ∀ {l : List (String × Value)} {kv : String × Value},
      nodupKeysB (l.map Prod.fst) = true → kv ∈ l → lookupKey kv.1 l = some kv.2 := by
  intro l
  induction l with
  | nil => intro kv _ h; simp at h
  | cons hd rest ih =>
    intro kv hnd hm
    obtain ⟨k2, w⟩ := hd
    simp only [List.map_cons, nodupKeysB, Bool.and_eq_true, Bool.not_eq_true] at hnd
    rcases List.mem_cons.mp hm with rfl | hm2
    · simp [lookupKey]
    · have hk : k2 ≠ kv.1 := by
        intro he
        have hmem : kv.1 ∈ rest.map Prod.fst := List.mem_map_of_mem _ hm2
        rw [← he] at hmem
        have hc := hnd.1
        simp only [List.contains_eq_any_beq, Bool.not_eq_true', List.any_eq_false,
          beq_iff_eq] at hc
        exact hc k2 hmem rfl
      rw [lookupKey, if_neg hk]
      exact ih hnd.2 hm2

/-- Every member value of a well-formed entry list is well-formed. -/
theorem wfEntries_mem :
    ∀ {l : List (String × Value)} {kv : String × Value},
      wfEntries l = true → kv ∈ l → wellFormed kv.2 = true := by
  intro l
  induction l with
  | nil => intro kv _ h; simp at h
  | cons hd rest ih =>
    intro kv hwf hm
    obtain ⟨k2, w⟩ := hd
    rw [wfEntries] at hwf
    simp only [Bool.and_eq_true] at hwf
    rcases List.mem_cons.mp hm with rfl | hm2
    · exact hwf.1
    · exact ih hwf.2 hm2

/-- A successful lookup in a well-formed entry list yields a well-formed
value. -/
theorem wfEntries_lookup :
    ∀ {l : List (String × Value)} {k : String} {v : Value},
      wfEntries l = true → lookupKey k l = some v → wellFormed v = true := by
  intro l
  induction l with
  | nil => intro k v _ h; simp [lookupKey] at h
  | cons hd rest ih =>
    intro k v hwf hl
    obtain ⟨k2, w⟩ := hd
    rw [wfEntries] at hwf
    simp only [Bool.and_eq_true] at hwf
    rw [lookupKey] at hl
    split at hl
    · cases hl; exact hwf.1
    · exact ih hwf.2 hl

/-- Joint reflexivity-style properties of deep equality on well-formed
values: a value is deeply equal to itself. -/
theorem deepEqual_props :
    (∀ a b : Value, a = b → wellFormed a = true → deepEqual a b = true) ∧
    (∀ a b : List (String × Value),
      (∀ kv ∈ a, lookupKey kv.1 b = some kv.2 ∧ wellFormed kv.2 = true) →
      deepEqualEntries a b = true) ∧
    (∀ a b : List Value, a = b → wfList a = true → deepEqualList a b = true) := by
  refine deepEqual.mutual_induct
    (fun a b => a = b → wellFormed a = true → deepEqual a b = true)
    (fun a b =>
      (∀ kv ∈ a, lookupKey kv.1 b = some kv.2 ∧ wellFormed kv.2 = true) →
      deepEqualEntries a b = true)
    (fun a b => a = b → wfList a = true → deepEqualList a b = true)
    ?_ ?_ ?_ ?_ ?_ ?_ ?_ ?_ ?_ ?_ ?_ ?_
  · intro _ _; simp [deepEqual]
  · intro a b h _; injection h with h2; subst h2; simp [deepEqual]
  · intro a b h _; injection h with h2; subst h2; simp [deepEqual]
  · intro a b h _; injection h with h2; subst h2; simp [deepEqual]
  · intro a b ih h hwf
    injection h with h2
    subst h2
    rw [wellFormed] at hwf
    rw [deepEqual]
    simp [ih rfl hwf]
  · intro a b ih h hwf
    injection h with h2
    subst h2
    rw [wellFormed] at hwf
    simp only [Bool.and_eq_true] at hwf
    rw [deepEqual]
    simp only [beq_self_eq_true, Bool.true_and]
    apply ih
    intro kv hm
    exact ⟨lookupKey_of_mem_nodup hwf.1 hm, wfEntries_mem hwf.2 hm⟩
  · intro x y hnull hbool hnum hstr harr hobj heq _
    subst heq
    cases x with
    | null => exact (hnull rfl rfl).elim
    | bool b => exact (hbool b b rfl rfl).elim
    | num n => exact (hnum n n rfl rfl).elim
    | str s => exact (hstr s s rfl rfl).elim
    | arr l => exact (harr l l rfl rfl).elim
    | obj kvs => exact (hobj kvs kvs rfl rfl).elim
  · intro b _; simp [deepEqualEntries]
  · intro k v rest b ih1 ih2 hyp
    have h1 := hyp (k, v) (List.mem_cons_self _ _)
    rw [deepEqualEntries, h1.1]
    have hv := ih1 v rfl h1.2
    have hrest := ih2 (fun kv hm => hyp kv (List.mem_cons_of_mem _ hm))
    simp [hv, hrest]
  · intro x _ _; simp [deepEqualList]
  · intro hd tl h
    exact absurd h (by simp)
  · intro a as2 b bs ih1 ih2 h hwf
    injection h with h1 h2
    subst h1
    subst h2
    rw [wfList] at hwf
    simp only [Bool.and_eq_true] at hwf
    rw [deepEqualList]
    simp [ih1 rfl hwf.1, ih2 rfl hwf.2]

/-- A well-formed value is deeply equal to itself. -/
theorem deepEqual_refl (v : Value) (h : wellFormed v = true) : deepEqual v v = true :=
  deepEqual_props.1 v v rfl h

/-- A list without duplicates is unchanged by first-occurrence
deduplication. -/
theorem dedupFirst_eq_self :
    ∀ {l : List String}, nodupKeysB l = true → dedupFirst l = l := by
  intro l
  induction l with
  | nil => intro _; simp [dedupFirst]
  | cons x xs ih =>
    intro h
    rw [nodupKeysB] at h
    simp only [Bool.and_eq_true, Bool.not_eq_true'] at h
    rw [dedupFirst]
    have hf : xs.filter (fun y => y ≠ x) = xs := by
      rw [List.filter_eq_self]
      intro a ha
      simp only [ne_eq, decide_not, Bool.not_eq_eq_eq_not, Bool.not_true, decide_eq_false_iff_not]
      intro he
      subst he
      rw [List.contains_eq_any_beq] at h
      have := h.1
      rw [List.any_eq_false] at this
      exact (by simpa using this a ha)
    rw [hf, ih h.2]

/-- Deduplicating a list appended to itself equals deduplicating the list. -/
theorem dedupFirst_append_self : ∀ l : List String, dedupFirst (l ++ l) = dedupFirst l := by
  have H : ∀ (n : Nat) (l : List String), l.length ≤ n → dedupFirst (l ++ l) = dedupFirst l := by
    intro n
    induction n with
    | zero =>
      intro l h
      match l with
      | [] => simp
    | succ n ih =>
      intro l h
      match l with
      | [] => simp
      | x :: xs =>
        have hstep : (x :: xs) ++ (x :: xs) = x :: (xs ++ x :: xs) := by simp
        rw [hstep, dedupFirst, dedupFirst]
        rw [List.filter_append]
        have hdrop : (x :: xs).filter (fun y => y ≠ x) = xs.filter (fun y => y ≠ x) := by
          rw [List.filter_cons_of_neg]
          simp
        rw [hdrop]
        have hlen : (xs.filter (fun y => y ≠ x)).length ≤ n := by
          have := List.length_filter_le (fun y => y ≠ x) xs
          simp only [List.length_cons] at h
          omega
        rw [ih _ hlen]
  exact fun l => H l.length l (Nat.le_refl _)

/-- A non-container value has exactly one leaf: itself. -/
theorem leafCount_scalar {v : Value} (h : v.isScalar = true) : leafCount v = 1 := by
  cases v <;> simp_all [Value.isScalar, leafCount]

/-- Key-loop body when the key is present on both sides. -/
theorem objectDiffStep_both {lkvs rkvs : List (String × Value)} {path k : String}
    {lv rv : Value} (hl : lookupKey k lkvs = some lv) (hr : lookupKey k rkvs = some rv) :
    objectDiffStep lkvs rkvs path k = generateSmartJsonDiff lv rv (childPath path k) := by
  rw [objectDiffStep]
  split <;> simp_all

/-- Key-loop body when the key is only on the left side. -/
theorem objectDiffStep_removed {lkvs rkvs : List (String × Value)} {path k : String}
    {lv : Value} (hl : lookupKey k lkvs = some lv) (hr : lookupKey k rkvs = none) :
    objectDiffStep lkvs rkvs path k = [⟨childPath path k, .removed, some lv, none⟩] := by
  rw [objectDiffStep]
  split <;> simp_all

/-- Key-loop body when the key is only on the right side. -/
theorem objectDiffStep_added {lkvs rkvs : List (String × Value)} {path k : String}
    {rv : Value} (hl : lookupKey k lkvs = none) (hr : lookupKey k rkvs = some rv) :
    objectDiffStep lkvs rkvs path k = [⟨childPath path k, .added, none, some rv⟩] := by
  rw [objectDiffStep]
  split <;> simp_all

/-- Key-loop body when the key is on neither side (unreachable in the
engine, where every key comes from one of the objects). -/
theorem objectDiffStep_none {lkvs rkvs : List (String × Value)} {path k : String}
    (hl : lookupKey k lkvs = none) (hr : lookupKey k rkvs = none) :
    objectDiffStep lkvs rkvs path k = [] := by
  rw [objectDiffStep]
  split <;> simp_all

/-- Total leaf count reached by looking every key of a list up in an entry
list. -/
def leafCountOfKeys (ks : List String) (kvs : List (String × Value)) : Nat :=
  (ks.map (fun k =>
    match lookupKey k kvs with
    | some v => leafCount v
    | none => 0)).sum

/-- Lookup skips an entry with a different key. -/
theorem lookupKey_cons_ne {k2 k : String} {w : Value} {rest : List (String × Value)}
    (h : k2 ≠ k) : lookupKey k ((k2, w) :: rest) = lookupKey k rest := by
  rw [lookupKey, if_neg h]

/-- Keywise leaf counting unfolds over a cons key list. -/
theorem leafCountOfKeys_cons (k : String) (ks : List String) (kvs : List (String × Value)) :
    leafCountOfKeys (k :: ks) kvs =
      (match lookupKey k kvs with
       | some v => leafCount v
       | none => 0) + leafCountOfKeys ks kvs := by
  rw [leafCountOfKeys, leafCountOfKeys, List.map_cons, List.sum_cons]

/-- Over its own (duplicate-free) key list, keywise leaf counting agrees
with entrywise leaf counting. -/
theorem leafCountOfKeys_self :
    ∀ {kvs : List (String × Value)}, nodupKeysB (kvs.map Prod.fst) = true →
      leafCountOfKeys (kvs.map Prod.fst) kvs = leafCountE kvs := by
  intro kvs
  induction kvs with
  | nil => intro _; simp [leafCountOfKeys, leafCountE]
  | cons hd rest ih =>
    intro h
    obtain ⟨k0, v0⟩ := hd
    simp only [List.map_cons, nodupKeysB, Bool.and_eq_true, Bool.not_eq_true'] at h
    have hne2 : ∀ k ∈ rest.map Prod.fst,
        lookupKey k ((k0, v0) :: rest) = lookupKey k rest := by
      intro k hk
      have hne : k0 ≠ k := by
        intro he
        have hc := h.1
        rw [List.contains_eq_any_beq] at hc
        rw [List.any_eq_false] at hc
        subst he
        exact (by simpa using hc k0 hk)
      rw [lookupKey_cons_ne hne]
    have hl : lookupKey k0 ((k0, v0) :: rest) = some v0 := by
      rw [lookupKey]
      simp
    simp only [List.map_cons]
    rw [leafCountOfKeys_cons, hl]
    have hrest := ih h.2
    rw [leafCountOfKeys] at hrest ⊢
    rw [List.map_congr_left (fun k hk => by rw [hne2 k hk])]
    rw [hrest, leafCountE]

/-- Joint statement for diff reflexivity: diffing any well-formed value (or
aligned loop state) against itself yields only unchanged records, one per
leaf. -/
theorem diff_self_props :
    (∀ (left right : Value) (path : String), left = right → wellFormed left = true →
      (∀ r ∈ generateSmartJsonDiff left right path, r.type = DiffType.unchanged) ∧
      (generateSmartJsonDiff left right path).length = leafCount left) ∧
    (∀ (ks : List String) (lkvs rkvs : List (String × Value)) (path : String),
      lkvs = rkvs → wfEntries lkvs = true →
      (∀ r ∈ diffObjectKeys ks lkvs rkvs path, r.type = DiffType.unchanged) ∧
      (diffObjectKeys ks lkvs rkvs path).length = leafCountOfKeys ks lkvs) ∧
    (∀ (lkvs rkvs : List (String × Value)) (path k : String),
      lkvs = rkvs → wfEntries lkvs = true →
      (∀ r ∈ objectDiffStep lkvs rkvs path k, r.type = DiffType.unchanged) ∧
      (objectDiffStep lkvs rkvs path k).length =
        (match lookupKey k lkvs with
         | some v => leafCount v
         | none => 0)) ∧
    (∀ (ls rs : List Value) (path : String) (i : Nat),
      ls = rs → wfList ls = true →
      (∀ r ∈ diffArrayItems ls rs path i, r.type = DiffType.unchanged) ∧
      (diffArrayItems ls rs path i).length = leafCountL ls) := by
  refine generateSmartJsonDiff.mutual_induct
    (fun left right path => left = right → wellFormed left = true →
      (∀ r ∈ generateSmartJsonDiff left right path, r.type = DiffType.unchanged) ∧
      (generateSmartJsonDiff left right path).length = leafCount left)
    (fun ks lkvs rkvs path => lkvs = rkvs → wfEntries lkvs = true →
      (∀ r ∈ diffObjectKeys ks lkvs rkvs path, r.type = DiffType.unchanged) ∧
      (diffObjectKeys ks lkvs rkvs path).length = leafCountOfKeys ks lkvs)
    (fun lkvs rkvs path k => lkvs = rkvs → wfEntries lkvs = true →
      (∀ r ∈ objectDiffStep lkvs rkvs path k, r.type = DiffType.unchanged) ∧
      (objectDiffStep lkvs rkvs path k).length =
        (match lookupKey k lkvs with
         | some v => leafCount v
         | none => 0))
    (fun ls rs path i => ls = rs → wfList ls = true →
      (∀ r ∈ diffArrayItems ls rs path i, r.type = DiffType.unchanged) ∧
      (diffArrayItems ls rs path i).length = leafCountL ls)
    ?_ ?_ ?_ ?_ ?_ ?_ ?_ ?_ ?_ ?_ ?_ ?_ ?_ ?_ ?_
  · intro left right path hsc hde heq hwf
    rw [generateSmartJsonDiff.eq_def, if_pos hsc, if_pos hde]
    subst heq
    rw [Bool.or_self] at hsc
    constructor
    · intro r hr
      rcases List.mem_singleton.mp hr with rfl
      rfl
    · simp [leafCount_scalar hsc]
  · intro left right path hsc hde heq hwf
    subst heq
    exact absurd (deepEqual_refl _ hwf) hde
  · intro path ls rs hns ih heq hwf
    injection heq with h2
    subst h2
    rw [wellFormed] at hwf
    rw [gen_arr_arr, leafCount]
    exact ih rfl hwf
  · intro path lkvs rkvs hns ih heq hwf
    injection heq with h2
    subst h2
    rw [wellFormed] at hwf
    simp only [Bool.and_eq_true] at hwf
    have hkeys : dedupFirst (lkvs.map Prod.fst ++ lkvs.map Prod.fst) = lkvs.map Prod.fst := by
      rw [dedupFirst_append_self, dedupFirst_eq_self hwf.1]
    have ih2 := ih rfl hwf.2
    rw [hkeys] at ih2
    rw [gen_obj_obj, hkeys, leafCount]
    exact ⟨ih2.1, by rw [ih2.2, leafCountOfKeys_self hwf.1]⟩
  · intro path left right harr hobj hns heq hwf
    subst heq
    cases left with
    | null => simp [Value.isScalar] at hns
    | bool b => simp [Value.isScalar] at hns
    | num n => simp [Value.isScalar] at hns
    | str s => simp [Value.isScalar] at hns
    | arr l => exact (harr l l rfl rfl).elim
    | obj kvs => exact (hobj kvs kvs rfl rfl).elim
  · intro lkvs rkvs path _ _
    simp [diffObjectKeys, leafCountOfKeys]
  · intro k ks lkvs rkvs path ih3 ih2 heq hwf
    have h3 := ih3 heq hwf
    have h2 := ih2 heq hwf
    rw [diffObjectKeys]
    constructor
    · intro r hr
      rcases List.mem_append.mp hr with h | h
      · exact h3.1 r h
      · exact h2.1 r h
    · rw [List.length_append, h3.2, h2.2, leafCountOfKeys_cons]
  · intro lkvs rkvs path k lv rv h1 h2 ih1 heq hwf
    subst heq
    rw [h1] at h2
    injection h2 with h3
    subst h3
    have hwl := wfEntries_lookup hwf h1
    rw [objectDiffStep_both h1 h1]
    have := ih1 rfl hwl
    exact ⟨this.1, by rw [this.2, h1]⟩
  · intro lkvs rkvs path k lv h1 h2 heq hwf
    subst heq
    rw [h1] at h2
    exact absurd h2 (by simp)
  · intro lkvs rkvs path k rv h1 h2 heq hwf
    subst heq
    rw [h1] at h2
    exact absurd h2 (by simp)
  · intro lkvs rkvs path k h1 h2 heq hwf
    rw [objectDiffStep_none h1 h2, h1]
    simp
  · intro path i _ _
    simp [diffArrayItems, leafCountL]
  · intro r rs path i _ih heq
    exact absurd heq (by simp)
  · intro l ls path i _ih heq
    exact absurd heq (by simp)
  · intro l ls r rs path i ih1 ih4 heq hwf
    injection heq with e1 e2
    subst e1
    subst e2
    rw [wfList] at hwf
    simp only [Bool.and_eq_true] at hwf
    have h1 := ih1 rfl hwf.1
    have h4 := ih4 rfl hwf.2
    rw [diffArrayItems]
    constructor
    · intro r hr
      rcases List.mem_append.mp hr with h | h
      · exact h1.1 r h
      · exact h4.1 r h
    · rw [List.length_append, h1.2, h4.2, leafCountL]

/-- C6: diffing a (well-formed, as every parsed document is) value against
itself yields only unchanged records, exactly one per non-container leaf
node reachable in the value — matched container pairs are traversed, never
recorded. -/
theorem claim_C6_diff_reflexivity (v : Value) (h : wellFormed v = true) :
    (∀ r ∈ generateSmartJsonDiff v v "", r.type = DiffType.unchanged) ∧
    (generateSmartJsonDiff v v "").length = leafCount v :=
  diff_self_props.1 v v "" rfl h

/-- C6 witness: the reflexivity theorem applied to a concrete document with
nested containers. -/
theorem claim_C6_witness :
    (∀ r ∈ generateSmartJsonDiff
      (.obj [("a", .num 1), ("b", .arr [.num 2, .null])])
      (.obj [("a", .num 1), ("b", .arr [.num 2, .null])]) "",
      r.type = DiffType.unchanged) ∧
    (generateSmartJsonDiff
      (.obj [("a", .num 1), ("b", .arr [.num 2, .null])])
      (.obj [("a", .num 1), ("b", .arr [.num 2, .null])]) "").length =
      leafCount (.obj [("a", .num 1), ("b", .arr [.num 2, .null])]) :=
  claim_C6_diff_reflexivity _
    (by simp [wellFormed, wfList, wfEntries, nodupKeysB])

/-- Boolean equality tests are symmetric for lawful instances. -/
theorem beqComm {α : Type} [BEq α] [LawfulBEq α] (a b : α) : (a == b) = (b == a) := by
  by_cases h : a = b
  · subst h; rfl
  · rw [beq_eq_false_iff_ne.mpr h, beq_eq_false_iff_ne.mpr (Ne.symm h)]

/-- Deep equality is symmetric whenever one side is a non-container (the
only situation in which the diff engine consults it). -/
theorem deepEqual_scalar_comm :
    ∀ a b : Value, (a.isScalar || b.isScalar) = true → deepEqual a b = deepEqual b a := by
  intro a b h
  cases a <;> cases b <;>
    simp_all [deepEqual, Value.isScalar, beqComm]

/-- Swap of added and removed, fixing changed and unchanged. -/
def mirrorType : DiffType → DiffType
  | .added => .removed
  | .removed => .added
  | .changed => .changed
  | .unchanged => .unchanged

/-- The record the mirrored diff run produces for a record of the original
run: kind mirrored, sides swapped. -/
def mirrorRecord (r : DiffRecord) : DiffRecord :=
  ⟨r.path, mirrorType r.type, r.rightValue, r.leftValue⟩

/-- Mirroring a record twice gives it back. -/
theorem mirrorRecord_involutive (r : DiffRecord) : mirrorRecord (mirrorRecord r) = r := by
  obtain ⟨p, t, lv, rv⟩ := r
  cases t <;> rfl

/-- Joint statement for diff symmetry: the swapped diff run is a
permutation of the mirrored records of the original run. -/
theorem diff_mirror_props :
    (∀ (left right : Value) (path : String),
      (generateSmartJsonDiff right left path).Perm
        ((generateSmartJsonDiff left right path).map mirrorRecord)) ∧
    (∀ (ks : List String) (lkvs rkvs : List (String × Value)) (path : String),
      (diffObjectKeys ks rkvs lkvs path).Perm
        ((diffObjectKeys ks lkvs rkvs path).map mirrorRecord)) ∧
    (∀ (lkvs rkvs : List (String × Value)) (path k : String),
      (objectDiffStep rkvs lkvs path k).Perm
        ((objectDiffStep lkvs rkvs path k).map mirrorRecord)) ∧
    (∀ (ls rs : List Value) (path : String) (i : Nat),
      (diffArrayItems rs ls path i).Perm
        ((diffArrayItems ls rs path i).map mirrorRecord)) := by
  refine generateSmartJsonDiff.mutual_induct
    (fun left right path =>
      (generateSmartJsonDiff right left path).Perm
        ((generateSmartJsonDiff left right path).map mirrorRecord))
    (fun ks lkvs rkvs path =>
      (diffObjectKeys ks rkvs lkvs path).Perm
        ((diffObjectKeys ks lkvs rkvs path).map mirrorRecord))
    (fun lkvs rkvs path k =>
      (objectDiffStep rkvs lkvs path k).Perm
        ((objectDiffStep lkvs rkvs path k).map mirrorRecord))
    (fun ls rs path i =>
      (diffArrayItems rs ls path i).Perm
        ((diffArrayItems ls rs path i).map mirrorRecord))
    ?_ ?_ ?_ ?_ ?_ ?_ ?_ ?_ ?_ ?_ ?_ ?_ ?_ ?_ ?_
  · intro left right path hsc hde
    have hsc2 : (right.isScalar || left.isScalar) = true := by
      rw [Bool.or_comm] at hsc; exact hsc
    have hde2 : deepEqual right left = true := by
      rw [deepEqual_scalar_comm right left hsc2]; exact hde
    rw [generateSmartJsonDiff.eq_def, if_pos hsc2, if_pos hde2]
    rw [generateSmartJsonDiff.eq_def, if_pos hsc, if_pos hde]
    rfl
  · intro left right path hsc hde
    have hsc2 : (right.isScalar || left.isScalar) = true := by
      rw [Bool.or_comm] at hsc; exact hsc
    have hde2 : ¬deepEqual right left = true := by
      rw [deepEqual_scalar_comm right left hsc2]; exact hde
    rw [generateSmartJsonDiff.eq_def, if_pos hsc2, if_neg hde2]
    rw [generateSmartJsonDiff.eq_def, if_pos hsc, if_neg hde]
    rfl
  · intro path ls rs _ ih
    rw [gen_arr_arr, gen_arr_arr]
    exact ih
  · intro path lkvs rkvs _ ih
    rw [gen_obj_obj, gen_obj_obj]
    have hkp : (dedupFirst (rkvs.map Prod.fst ++ lkvs.map Prod.fst)).Perm
        (dedupFirst (lkvs.map Prod.fst ++ rkvs.map Prod.fst)) := by
      rw [List.perm_ext_iff_of_nodup (nodup_dedupFirst _) (nodup_dedupFirst _)]
      intro k
      rw [mem_dedupFirst, mem_dedupFirst, List.mem_append, List.mem_append]
      exact or_comm
    rw [diffObjectKeys_eq_flatMap]
    refine (List.Perm.flatMap_right _ hkp).trans ?_
    rw [← diffObjectKeys_eq_flatMap]
    exact ih
  · intro path left right harr hobj hns
    cases left with
    | null => simp [Value.isScalar] at hns
    | bool b => simp [Value.isScalar] at hns
    | num n => simp [Value.isScalar] at hns
    | str s => simp [Value.isScalar] at hns
    | arr l =>
      cases right with
      | null => simp [Value.isScalar] at hns
      | bool b => simp [Value.isScalar] at hns
      | num n => simp [Value.isScalar] at hns
      | str s => simp [Value.isScalar] at hns
      | arr l2 => exact (harr l l2 rfl rfl).elim
      | obj kvs =>
        rw [generateSmartJsonDiff.eq_def, generateSmartJsonDiff.eq_def]
        simp [Value.isScalar, mirrorRecord, mirrorType]
    | obj kvs =>
      cases right with
      | null => simp [Value.isScalar] at hns
      | bool b => simp [Value.isScalar] at hns
      | num n => simp [Value.isScalar] at hns
      | str s => simp [Value.isScalar] at hns
      | arr l2 =>
        rw [generateSmartJsonDiff.eq_def, generateSmartJsonDiff.eq_def]
        simp [Value.isScalar, mirrorRecord, mirrorType]
      | obj kvs2 => exact (hobj kvs kvs2 rfl rfl).elim
  · intro lkvs rkvs path
    simp [diffObjectKeys]
  · intro k ks lkvs rkvs path ih3 ih2
    rw [diffObjectKeys, diffObjectKeys, List.map_append]
    exact List.Perm.append ih3 ih2
  · intro lkvs rkvs path k lv rv h1 h2 ih1
    rw [objectDiffStep_both h2 h1, objectDiffStep_both h1 h2]
    exact ih1
  · intro lkvs rkvs path k lv h1 h2
    rw [objectDiffStep_added h2 h1, objectDiffStep_removed h1 h2]
    rfl
  · intro lkvs rkvs path k rv h1 h2
    rw [objectDiffStep_removed h2 h1, objectDiffStep_added h1 h2]
    rfl
  · intro lkvs rkvs path k h1 h2
    rw [objectDiffStep_none h2 h1, objectDiffStep_none h1 h2]
    rfl
  · intro path i
    simp [diffArrayItems]
  · intro r rs path i ih
    rw [diffArrayItems, diffArrayItems, List.map_cons]
    exact List.Perm.cons _ ih
  · intro l ls path i ih
    rw [diffArrayItems, diffArrayItems, List.map_cons]
    exact List.Perm.cons _ ih
  · intro l ls r rs path i ih1 ih4
    rw [diffArrayItems, diffArrayItems, List.map_append]
    exact List.Perm.append ih1 ih4

/-- C7: the diff engine reports Added at a path with a value in one
direction exactly when it reports Removed at that path with that value in
the swapped direction, and Changed records swap their before/after values
between the two directions. -/
theorem claim_C7_diff_symmetry :
    ∀ (a b : Value) (path p : String) (x u w : Value),
      ((⟨p, .added, none, some x⟩ : DiffRecord) ∈ generateSmartJsonDiff a b path ↔
        (⟨p, .removed, some x, none⟩ : DiffRecord) ∈ generateSmartJsonDiff b a path) ∧
      ((⟨p, .changed, some u, some w⟩ : DiffRecord) ∈ generateSmartJsonDiff a b path ↔
        (⟨p, .changed, some w, some u⟩ : DiffRecord) ∈ generateSmartJsonDiff b a path) := by
  intro a b path p x u w
  have hperm := diff_mirror_props.1 a b path
  have key : ∀ r : DiffRecord,
      r ∈ generateSmartJsonDiff b a path ↔
      mirrorRecord r ∈ generateSmartJsonDiff a b path := by
    intro r
    rw [hperm.mem_iff, List.mem_map]
    constructor
    · rintro ⟨r0, hr0, he⟩
      rw [← he, mirrorRecord_involutive]
      exact hr0
    · intro hm
      exact ⟨mirrorRecord r, hm, mirrorRecord_involutive r⟩
  constructor
  · rw [key ⟨p, .removed, some x, none⟩]
    exact Iff.rfl.symm.trans Iff.rfl
  · rw [key ⟨p, .changed, some w, some u⟩]
    exact Iff.rfl.symm.trans Iff.rfl

/-- Code-point comparison is total: when one direction fails the other
holds. -/
theorem charListLe_total : ∀ a b : List Char, charListLe a b = false → charListLe b a = true := by
  intro a
  induction a with
  | nil => intro b h; simp [charListLe] at h
  | cons c cs ih =>
    intro b h
    cases b with
    | nil => simp [charListLe]
    | cons d ds =>
      rw [charListLe] at h
      by_cases h1 : c.toNat < d.toNat
      · rw [if_pos h1] at h
        exact absurd h (by simp)
      · rw [if_neg h1] at h
        by_cases h2 : d.toNat < c.toNat
        · rw [charListLe, if_pos h2]
        · rw [if_neg h2] at h
          rw [charListLe, if_neg (by omega : ¬d.toNat < c.toNat), if_neg h1]
          exact ih ds h

/-- String comparison is total. -/
theorem strLe_total (a b : String) (h : strLe a b = false) : strLe b a = true :=
  charListLe_total a.data b.data h

/-- Adjacent-pairs sortedness of a string list. -/
def chainLe : List String → Bool
  | [] => true
  | [_] => true
  | a :: b :: rest => strLe a b && chainLe (b :: rest)

/-- Two-element unfolding of adjacent sortedness. -/
theorem chainLe_cons_cons {a b : String} {l : List String} :
    chainLe (a :: b :: l) = true ↔ (strLe a b = true ∧ chainLe (b :: l) = true) := by
  rw [chainLe]
  simp

/-- Adjacent sortedness is preserved by dropping the head. -/
theorem chainLe_tail {a : String} {l : List String} (h : chainLe (a :: l) = true) :
    chainLe l = true := by
  cases l with
  | nil => rfl
  | cons b t => exact (chainLe_cons_cons.mp h).2

/-- Either the inserted element lands in front, or insertion recurses past
the head. -/
theorem insertSorted_head (x : String) (l : List String) :
    insertSorted x l = x :: l ∨
    ∃ y t, l = y :: t ∧ strLe x y = false ∧ insertSorted x l = y :: insertSorted x t := by
  cases l with
  | nil => left; rfl
  | cons y t =>
    by_cases h : strLe x y = true
    · left; rw [insertSorted, if_pos h]
    · right
      exact ⟨y, t, rfl, by simpa using h, by rw [insertSorted, if_neg h]⟩

/-- Insertion into a sorted list keeps it sorted. -/
theorem chainLe_insertSorted : ∀ (l : List String) (x : String),
    chainLe l = true → chainLe (insertSorted x l) = true := by
  intro l
  induction l with
  | nil => intro x _; rfl
  | cons y ys ih =>
    intro x h
    by_cases hxy : strLe x y = true
    · rw [insertSorted, if_pos hxy]
      exact chainLe_cons_cons.mpr ⟨hxy, h⟩
    · rw [insertSorted, if_neg hxy]
      have hyx : strLe y x = true := strLe_total x y (by simpa using hxy)
      have htail : chainLe (insertSorted x ys) = true := ih x (chainLe_tail h)
      rcases insertSorted_head x ys with he | ⟨z, t, hys, _, he⟩
      · rw [he]
        rw [he] at htail
        exact chainLe_cons_cons.mpr ⟨hyx, htail⟩
      · rw [he]
        rw [he] at htail
        refine chainLe_cons_cons.mpr ⟨?_, htail⟩
        subst hys
        exact (chainLe_cons_cons.mp h).1

/-- The key sort produces an adjacent-sorted list. -/
theorem chainLe_sortStrings : ∀ l : List String, chainLe (sortStrings l) = true := by
  intro l
  induction l with
  | nil => rfl
  | cons x xs ih => exact chainLe_insertSorted _ x ih

/-- Insertion permutes a cons. -/
theorem insertSorted_perm : ∀ (l : List String) (x : String),
    (insertSorted x l).Perm (x :: l) := by
  intro l
  induction l with
  | nil => intro x; rfl
  | cons y ys ih =>
    intro x
    by_cases h : strLe x y = true
    · rw [insertSorted, if_pos h]
    · rw [insertSorted, if_neg h]
      exact ((ih x).cons y).trans (List.Perm.swap x y ys)

/-- The key sort is a permutation of the original key list. -/
theorem sortStrings_perm : ∀ l : List String, (sortStrings l).Perm l := by
  intro l
  induction l with
  | nil => rfl
  | cons x xs ih => exact (insertSorted_perm _ x).trans (ih.cons x)

/-- Rebuilding an object over a key list uses exactly those keys, in
order. -/
theorem sortEntryList_keys :
    ∀ (ks : List String) (kvs : List (String × Value)),
      (sortEntryList ks kvs).map Prod.fst = ks := by
  intro ks kvs
  induction ks with
  | nil => simp [sortEntryList]
  | cons k ks ih => rw [sortEntryList]; simp [ih]

/-- The array branch of the key sort maps the sort over the elements. -/
theorem sortValueList_eq_map : ∀ l : List Value, sortValueList l = l.map sortObjectKeys := by
  intro l
  induction l with
  | nil => simp [sortValueList]
  | cons v rest ih => rw [sortValueList]; simp [ih]

mutual

/-- Every object key list in the value is adjacent-sorted, at every nesting
level. -/
def sortedKeysV : Value → Bool
  | .null => true
  | .bool _ => true
  | .num _ => true
  | .str _ => true
  | .arr l => sortedKeysL l
  | .obj kvs => chainLe (kvs.map Prod.fst) && sortedKeysE kvs
termination_by v => sizeOf v

/-- Sorted keys in every element. -/
def sortedKeysL : List Value → Bool
  | [] => true
  | v :: rest => sortedKeysV v && sortedKeysL rest
termination_by l => sizeOf l

/-- Sorted keys in every entry value. -/
def sortedKeysE : List (String × Value) → Bool
  | [] => true
  | (_, v) :: rest => sortedKeysV v && sortedKeysE rest
termination_by l => sizeOf l

end

/-- The recursive key sort leaves every object's key list lexicographically
sorted, at every nesting level, including objects inside arrays. -/
theorem sortedKeys_sortObjectKeys :
    (∀ v : Value, sortedKeysV (sortObjectKeys v) = true) ∧
    (∀ (ks : List String) (kvs : List (String × Value)),
      sortedKeysE (sortEntryList ks kvs) = true) ∧
    (∀ l : List Value, sortedKeysL (sortValueList l) = true) := by
  refine sortObjectKeys.mutual_induct
    (fun v => sortedKeysV (sortObjectKeys v) = true)
    (fun ks kvs => sortedKeysE (sortEntryList ks kvs) = true)
    (fun l => sortedKeysL (sortValueList l) = true)
    ?_ ?_ ?_ ?_ ?_ ?_ ?_ ?_ ?_ ?_
  · simp [sortObjectKeys, sortedKeysV]
  · intro b; simp [sortObjectKeys, sortedKeysV]
  · intro n; simp [sortObjectKeys, sortedKeysV]
  · intro s; simp [sortObjectKeys, sortedKeysV]
  · intro l ih
    rw [sortObjectKeys, sortedKeysV]
    exact ih
  · intro kvs ih
    rw [sortObjectKeys, sortedKeysV]
    rw [sortEntryList_keys]
    simp [chainLe_sortStrings, ih]
  · intro kvs; simp [sortEntryList, sortedKeysE]
  · intro k ks kvs ih1 ih2
    rw [sortEntryList, sortedKeysE]
    split
    · rename_i v hv
      simp [ih1 v hv, ih2]
    · simp [sortedKeysV, ih2]
  · simp [sortValueList, sortedKeysL]
  · intro v rest ih1 ih2
    rw [sortValueList, sortedKeysL]
    simp [ih1, ih2]

/-- C3 counterexample: with compact mode on, the formatter ignores the
sort-keys switch — on the document with keys b then a it emits the keys
unsorted, so formatting with sortKeys is not formatting of the key-sorted
value for every option combination. -/
theorem claim_C3_cex :
    formatValue (.obj [("b", .num 1), ("a", .num 2)]) ⟨2, true, true⟩ ≠
      formatValue (sortObjectKeys (.obj [("b", .num 1), ("a", .num 2)])) ⟨2, true, true⟩ := by
  simp [formatValue, sortObjectKeys, sortValueList, sortEntryList, sortStrings, insertSorted,
    strLe, charListLe, lookupKey, renderCompact, renderItemsC, renderMembersC, renderAtom,
    escChars, escChar, intRepr, natRepr, natReprL, digitChar]

/-- C3 amended: when compact mode is off, formatting with sortKeys=true
pretty-prints the recursively key-sorted value: every object key list
becomes lexicographically (code-point) sorted at every nesting level —
objects inside arrays included, arrays keeping their element order, each
element sorted in place.  (Compact mode ignores the sort-keys switch.) -/
theorem claim_C3_amended_sortKeys (v : Value) (o : FormatOptions)
    (h1 : o.compact = false) (h2 : o.sortKeys = true) :
    formatValue v o = ⟨renderPretty o.indentWidth (sortObjectKeys v) 0⟩ ∧
    sortedKeysV (sortObjectKeys v) = true ∧
    (∀ l : List Value, sortObjectKeys (.arr l) = .arr (l.map sortObjectKeys)) := by
  refine ⟨?_, sortedKeys_sortObjectKeys.1 v, ?_⟩
  · rw [formatValue, if_neg (by simp [h1]), if_pos h2]
  · intro l
    rw [sortObjectKeys, sortValueList_eq_map]

/-- C3 witness: the amended statement at the two-key document with
indent 2, sortKeys on, compact off. -/
theorem claim_C3_witness :
    formatValue (.obj [("b", .num 1), ("a", .num 2)]) ⟨2, true, false⟩ =
      ⟨renderPretty 2 (sortObjectKeys (.obj [("b", .num 1), ("a", .num 2)])) 0⟩ ∧
    sortedKeysV (sortObjectKeys (.obj [("b", .num 1), ("a", .num 2)])) = true ∧
    (∀ l : List Value, sortObjectKeys (.arr l) = .arr (l.map sortObjectKeys)) :=
  claim_C3_amended_sortKeys (.obj [("b", .num 1), ("a", .num 2)]) ⟨2, true, false⟩ rfl rfl

/-- Number of immediate children of a value. -/
def childCount : Value → Nat
  | .arr l => l.length
  | .obj kvs => kvs.length
  | _ => 0

/-- The keys of the value's top-level object, if it is one. -/
def topLevelKeys : Value → List String
  | .obj kvs => kvs.map Prod.fst
  | _ => []

/-- The one row the materializer emits for a node whose path is not in the
expanded set. -/
def collapsedRow (v : Value) (p : String) (l : Nat) : JsonNode :=
  match v with
  | .null => ⟨"null", .null, .null, p, l, false, false, true⟩
  | .bool b => ⟨if b then "true" else "false", .bool b, .boolean, p, l, false, false, true⟩
  | .num n => ⟨intRepr n, .num n, .number, p, l, false, false, true⟩
  | .str s => ⟨s, .str s, .string, p, l, false, false, true⟩
  | .arr elems =>
    ⟨"Array(" ++ natRepr elems.length ++ ")", .arr elems, .array, p, l, false,
      decide (0 < elems.length), true⟩
  | .obj kvs =>
    ⟨"Object\x7b" ++ natRepr kvs.length ++ "\x7d", .obj kvs, .object, p, l, false,
      decide (0 < kvs.length), true⟩

/-- The collapsed row sits at the call level and is not expanded. -/
theorem collapsedRow_fields (v : Value) (p : String) (l : Nat) :
    (collapsedRow v p l).level = l ∧ (collapsedRow v p l).isExpanded = false := by
  cases v <;> exact ⟨rfl, rfl⟩

/-- A node whose path is not in the expanded set produces exactly its own
collapsed row. -/
theorem parseJsonToNodes_collapsed {E : List String} (v : Value) {p : String} (l : Nat)
    (h : E.contains p = false) :
    parseJsonToNodes E v p l = [collapsedRow v p l] := by
  have h2 : p ∉ E := by simpa using h
  cases v <;> rw [parseJsonToNodes] <;> simp [collapsedRow, h, h2]

/-- An index path is never the empty string. -/
theorem itemPath_ne_empty (p : String) (i : Nat) : itemPath p i ≠ "" := by
  intro h
  have hd : (itemPath p i).data = [] := by rw [h]
  rw [itemPath] at hd
  simp [String.data_append] at hd

/-- The root path is in the root-only expanded set. -/
theorem rootOnly_contains_root : rootOnlyExpanded.contains "" = true := rfl

/-- No nonempty path is in the root-only expanded set. -/
theorem rootOnly_contains_ne {s : String} (h : s ≠ "") :
    rootOnlyExpanded.contains s = false := by
  simp only [rootOnlyExpanded, List.contains_cons, List.contains_nil, Bool.or_false]
  exact beq_eq_false_iff_ne.mpr h

/-- In the root-only expanded state, each array element of the root
contributes exactly one unexpanded row at level one. -/
theorem arrChildNodes_rootOnly :
    ∀ (items : List Value) (p : String) (l i : Nat),
      (arrChildNodes rootOnlyExpanded items p l i).length = items.length ∧
      ∀ r ∈ arrChildNodes rootOnlyExpanded items p l i,
        r.level = l + 1 ∧ r.isExpanded = false := by
  intro items
  induction items with
  | nil => intro p l i; simp [arrChildNodes]
  | cons item rest ih =>
    intro p l i
    rw [arrChildNodes]
    have hc : rootOnlyExpanded.contains (itemPath p i) = false :=
      rootOnly_contains_ne (itemPath_ne_empty p i)
    rw [parseJsonToNodes_collapsed _ _ hc]
    constructor
    · simp [(ih p l (i + 1)).1]
    · intro r hr
      rcases List.mem_append.mp hr with h | h
      · rcases List.mem_singleton.mp h with rfl
        exact collapsedRow_fields item _ (l + 1)
      · exact (ih p l (i + 1)).2 r h

/-- In the root-only expanded state, each object member of the root with a
nonempty key contributes exactly one unexpanded row at level one. -/
theorem objChildNodes_rootOnly :
    ∀ (kvs : List (String × Value)) (l : Nat),
      (∀ kv ∈ kvs, kv.1 ≠ "") →
      (objChildNodes rootOnlyExpanded kvs "" l).length = kvs.length ∧
      ∀ r ∈ objChildNodes rootOnlyExpanded kvs "" l,
        r.level = l + 1 ∧ r.isExpanded = false := by
  intro kvs
  induction kvs with
  | nil => intro l _; simp [objChildNodes]
  | cons kv rest ih =>
    intro l hk
    obtain ⟨k, v⟩ := kv
    rw [objChildNodes]
    have hpath : childPath "" k = k := by rw [childPath, if_pos rfl]
    have hc : rootOnlyExpanded.contains (childPath "" k) = false := by
      rw [hpath]
      exact rootOnly_contains_ne (hk (k, v) (List.mem_cons_self _ _))
    rw [parseJsonToNodes_collapsed _ _ hc]
    have hrest := ih l (fun kv hm => hk kv (List.mem_cons_of_mem _ hm))
    constructor
    · simp [hrest.1]
    · intro r hr
      rcases List.mem_append.mp hr with h | h
      · rcases List.mem_singleton.mp h with rfl
        exact collapsedRow_fields v _ (l + 1)
      · exact hrest.2 r h

/-- C10 counterexample: for the container document with the empty top-level
key, the default (root-only) expanded state does not produce one collapsed
row per immediate child and nothing deeper — the empty key's path collides
with the root path, so that child is expanded and a level-2 row appears. -/
theorem claim_C10_cex :
    ¬ ((parseJsonToNodes rootOnlyExpanded (.obj [("", .obj [("x", .num 1)])]) "" 0).length =
        1 + childCount (.obj [("", .obj [("x", .num 1)])]) ∧
       ∀ r ∈ parseJsonToNodes rootOnlyExpanded (.obj [("", .obj [("x", .num 1)])]) "" 0,
         r.level ≤ 1) := by
  rintro ⟨hlen, _⟩
  simp [parseJsonToNodes, objChildNodes, rootOnlyExpanded, childPath, childCount,
    natRepr, natReprL, digitChar] at hlen

/-- C10 amended: after a successful parse and after collapse-all, the
expanded set is exactly the root-only set; for a container document whose
top-level object keys are all nonempty (the empty key's path string
collides with the root path), the materializer then emits the root row
expanded, followed by exactly one collapsed row per immediate child, and
nothing deeper. -/
theorem claim_C10_default_state (v : Value)
    (hc : v.isScalar = false)
    (hk : ∀ k ∈ topLevelKeys v, k ≠ "") :
    ∃ hd tl, parseJsonToNodes rootOnlyExpanded v "" 0 = hd :: tl ∧
      hd.level = 0 ∧ hd.isExpanded = true ∧
      tl.length = childCount v ∧
      ∀ r ∈ tl, r.level = 1 ∧ r.isExpanded = false := by
  have hroot : rootOnlyExpanded.contains "" = true := rootOnly_contains_root
  cases v with
  | null => simp [Value.isScalar] at hc
  | bool b => simp [Value.isScalar] at hc
  | num n => simp [Value.isScalar] at hc
  | str s => simp [Value.isScalar] at hc
  | arr l =>
    rw [parseJsonToNodes, if_pos hroot, hroot]
    refine ⟨_, _, rfl, rfl, rfl, ?_, ?_⟩
    · rw [(arrChildNodes_rootOnly l "" 0 0).1, childCount]
    · exact (arrChildNodes_rootOnly l "" 0 0).2
  | obj kvs =>
    have hkeys : ∀ kv ∈ kvs, kv.1 ≠ "" := by
      intro kv hm
      rw [topLevelKeys] at hk
      exact hk kv.1 (List.mem_map_of_mem _ hm)
    rw [parseJsonToNodes, if_pos hroot, hroot]
    refine ⟨_, _, rfl, rfl, rfl, ?_, ?_⟩
    · rw [(objChildNodes_rootOnly kvs 0 hkeys).1, childCount]
    · exact (objChildNodes_rootOnly kvs 0 hkeys).2

/-- C10 witness: the amended statement at the document with two nonempty
top-level keys. -/
theorem claim_C10_witness :
    ∃ hd tl, parseJsonToNodes rootOnlyExpanded
        (.obj [("a", .num 1), ("b", .obj [("c", .num 2)])]) "" 0 = hd :: tl ∧
      hd.level = 0 ∧ hd.isExpanded = true ∧
      tl.length = childCount (.obj [("a", .num 1), ("b", .obj [("c", .num 2)])]) ∧
      ∀ r ∈ tl, r.level = 1 ∧ r.isExpanded = false :=
  claim_C10_default_state (.obj [("a", .num 1), ("b", .obj [("c", .num 2)])])
    rfl (by simp [topLevelKeys])

/-- C9: blank (empty or whitespace-only) input is a valid no-document
state — the validity check passes and the formatter yields the empty
string; non-blank malformed input fails the parse, fails the validity
check, and produces neither formatted output nor diff records (on either
side of the comparison). -/
theorem claim_C9_blank_and_malformed :
    (∀ (s : String) (o : FormatOptions), isBlank s = true →
      isValidJson s = true ∧ formattedJson s o = "") ∧
    (∀ (s t : String) (o : FormatOptions), isBlank s = false → parseJson s = none →
      isValidJson s = false ∧ formattedJson s o = "" ∧
      diffResult s t = [] ∧ diffResult t s = []) := by
  constructor
  · intro s o h
    rw [isValidJson, if_pos h, formattedJson, if_pos h]
    exact ⟨rfl, rfl⟩
  · intro s t o hb hp
    refine ⟨?_, ?_, ?_, ?_⟩
    · rw [isValidJson, if_neg (by simp [hb]), hp]
      rfl
    · rw [formattedJson, if_neg (by simp [hb]), hp]
    · rw [diffResult]
      split
      · rfl
      · rw [hp]
    · rw [diffResult]
      split
      · rfl
      · rw [hp]
        cases parseJson t <;> rfl

/-- C9 witness: the blank branch at a whitespace-only input and the
malformed branch at the spec's scenario input (an object with an unquoted
key). -/
theorem claim_C9_witness :
    (isValidJson "  " = true ∧ formattedJson "  " ⟨2, false, false⟩ = "") ∧
    (isValidJson "\x7ba:1\x7d" = false ∧ formattedJson "\x7ba:1\x7d" ⟨2, false, false⟩ = "" ∧
      diffResult "\x7ba:1\x7d" "1" = [] ∧ diffResult "1" "\x7ba:1\x7d" = []) :=
  ⟨claim_C9_blank_and_malformed.1 "  " ⟨2, false, false⟩ (by decide),
   claim_C9_blank_and_malformed.2 "\x7ba:1\x7d" "1" ⟨2, false, false⟩ (by decide) rfl⟩

/-- A character list of insignificant whitespace only. -/
def wsOnly (l : List Char) : Prop := ∀ c ∈ l, isWsChar c = true

/-- The continuations a rendered value can be followed by inside or after a
document: nothing, whitespace, a comma, or a closing bracket.  None of these
starts with a decimal digit, so number tokens end where they should. -/
def okAfter : List Char → Prop
  | [] => True
  | c :: _ => isWsChar c = true ∨ c = ',' ∨ c = ']' ∨ c = '\x7d'

/-- Whitespace skipping passes over a whitespace-only prefix. -/
theorem skipWs_ws : ∀ {w : List Char}, wsOnly w → ∀ cs, skipWs (w ++ cs) = skipWs cs := by
  intro w
  induction w with
  | nil => intro _ cs; rfl
  | cons c w ih =>
    intro h cs
    have hc : isWsChar c = true := h c (List.mem_cons_self _ _)
    rw [List.cons_append, skipWs, List.dropWhile_cons, if_pos hc]
    exact ih (fun c2 hc2 => h c2 (List.mem_cons_of_mem _ hc2)) cs

/-- Whitespace skipping stops at a non-whitespace head. -/
theorem skipWs_cons_not {c : Char} (h : isWsChar c = false) (cs : List Char) :
    skipWs (c :: cs) = c :: cs := by
  rw [skipWs, List.dropWhile_cons, if_neg (by simp [h])]

/-- Converting a small code point to a character and back is the
identity. -/
theorem charToNat_ofNat (n : Nat) (h : n < 55296) : (Char.ofNat n).toNat = n := by
  rw [Char.ofNat, dif_pos (Or.inl h : Nat.isValidChar n)]
  rw [Char.ofNatAux, Char.toNat]
  simp [UInt32.toNat, BitVec.toNat_ofNatLt]

/-- A decimal digit character has its expected code point. -/
theorem digitChar_toNat {n : Nat} (h : n < 10) : (digitChar n).toNat = 48 + n := by
  rw [digitChar, charToNat_ofNat _ (by omega)]

/-- Every character of a decimal rendering is a digit. -/
theorem natReprL_digits : ∀ (n : Nat), ∀ c ∈ natReprL n, 48 ≤ c.toNat ∧ c.toNat ≤ 57 := by
  intro n
  induction n using natReprL.induct with
  | case1 n h =>
    intro c hc
    rw [natReprL, dif_pos h] at hc
    rcases List.mem_singleton.mp hc with rfl
    rw [digitChar_toNat h]
    omega
  | case2 n h ih =>
    intro c hc
    rw [natReprL, dif_neg h] at hc
    rcases List.mem_append.mp hc with h2 | h2
    · exact ih c h2
    · rcases List.mem_singleton.mp h2 with rfl
      rw [digitChar_toNat (by omega)]
      omega

/-- A decimal rendering is never empty. -/
theorem natReprL_ne_nil (n : Nat) : natReprL n ≠ [] := by
  rw [natReprL]
  split <;> simp

/-- Reading back the decimal rendering of a number gives the number. -/
theorem digitsToNat_natReprL : ∀ n : Nat, digitsToNat (natReprL n) = n := by
  intro n
  induction n using natReprL.induct with
  | case1 n h =>
    rw [natReprL, dif_pos h, digitsToNat]
    simp [digitChar_toNat h]
  | case2 n h ih =>
    rw [natReprL, dif_neg h, digitsToNat, List.foldl_append]
    rw [digitsToNat] at ih
    rw [ih]
    simp only [List.foldl_cons, List.foldl_nil]
    rw [digitChar_toNat (by omega : n % 10 < 10)]
    omega

/-- The head of the continuation is not a digit. -/
def nonDigitHead : List Char → Prop
  | [] => True
  | c :: _ => c.toNat < 48 ∨ 57 < c.toNat

/-- Permitted continuations never start with a digit. -/
theorem okAfter_nonDigit : ∀ {rest : List Char}, okAfter rest → nonDigitHead rest := by
  intro rest h
  match rest with
  | [] => trivial
  | c :: cs =>
    rw [nonDigitHead]
    rcases h with h | h | h | h
    · rw [isWsChar] at h
      simp only [Bool.or_eq_true, decide_eq_true_eq] at h
      rcases h with ((rfl | rfl) | rfl) | rfl <;> (left; decide)
    · subst h; left; decide
    · subst h; right; decide
    · subst h; right; decide

/-- Splitting digits off a digit run followed by a non-digit continuation
returns exactly the run. -/
theorem takeDigits_run :
    ∀ (ds rest : List Char), (∀ c ∈ ds, 48 ≤ c.toNat ∧ c.toNat ≤ 57) → nonDigitHead rest →
      takeDigits (ds ++ rest) = (ds, rest) := by
  intro ds
  induction ds with
  | nil =>
    intro rest _ hr
    match rest with
    | [] => rfl
    | c :: cs =>
      rw [List.nil_append, takeDigits, if_neg]
      rw [nonDigitHead] at hr
      simp only [Bool.and_eq_true, decide_eq_true_eq]
      omega
  | cons d ds ih =>
    intro rest hd hr
    have h1 := hd d (List.mem_cons_self _ _)
    have hcond : (decide (48 ≤ d.toNat) && decide (d.toNat ≤ 57)) = true := by
      simp only [Bool.and_eq_true, decide_eq_true_eq]
      omega
    rw [List.cons_append, takeDigits, if_pos hcond]
    rw [ih rest (fun c hc => hd c (List.mem_cons_of_mem _ hc)) hr]

/-- A lower-case hexadecimal digit reads back to its value. -/
theorem unhex_hexDigitChar {n : Nat} (h : n < 16) : unhex (hexDigitChar n) = some n := by
  rw [hexDigitChar]
  by_cases h10 : n < 10
  · rw [if_pos h10, unhex, digitChar_toNat h10, if_pos (by simp; omega)]
    simp
  · rw [if_neg h10, unhex]
    have ht : (Char.ofNat (87 + n)).toNat = 87 + n := charToNat_ofNat _ (by omega)
    rw [ht, if_neg (by simp; omega), if_pos (by simp; omega)]
    simp only [Option.some.injEq]
    omega

/-- An ordinary string character (no quote, no backslash, no control) is
consumed verbatim by the string-literal parser. -/
theorem parseStringBody_raw {c : Char} (h1 : c ≠ '"') (h2 : c ≠ '\\')
    (h3 : ¬c.toNat < 32) (cs : List Char) :
    parseStringBody (c :: cs) = (parseStringBody cs).map (fun p => (c :: p.1, p.2)) := by
  rw [parseStringBody.eq_def]
  dsimp only
  rw [if_neg h1, if_neg h2, if_neg h3]

/-- The string-literal parser inverts JSON escaping: reading an escaped
character run followed by a closing quote returns the original characters
and the continuation. -/
theorem parseStringBody_escChars : ∀ (s rest : List Char),
    parseStringBody (escChars s ++ '"' :: rest) = some (s, rest) := by
  intro s
  induction s with
  | nil =>
    intro rest
    rw [escChars, List.nil_append, parseStringBody.eq_def]
    dsimp only
    rw [if_pos rfl]
  | cons c cs ih =>
    intro rest
    rw [escChars, List.append_assoc, escChar]
    by_cases h1 : c = '"'
    · rw [if_pos h1]
      subst h1
      rw [List.cons_append, List.cons_append, List.nil_append, parseStringBody.eq_def]
      simp [ih rest]
    · rw [if_neg h1]
      by_cases h2 : c = '\\'
      · rw [if_pos h2]
        subst h2
        rw [List.cons_append, List.cons_append, List.nil_append, parseStringBody.eq_def]
        simp [ih rest]
      · rw [if_neg h2]
        by_cases h3 : c = '\x08'
        · rw [if_pos h3]
          subst h3
          rw [List.cons_append, List.cons_append, List.nil_append, parseStringBody.eq_def]
          simp [ih rest]
        · rw [if_neg h3]
          by_cases h4 : c = '\t'
          · rw [if_pos h4]
            subst h4
            rw [List.cons_append, List.cons_append, List.nil_append, parseStringBody.eq_def]
            simp [ih rest]
          · rw [if_neg h4]
            by_cases h5 : c = '\n'
            · rw [if_pos h5]
              subst h5
              rw [List.cons_append, List.cons_append, List.nil_append, parseStringBody.eq_def]
              simp [ih rest]
            · rw [if_neg h5]
              by_cases h6 : c = '\x0c'
              · rw [if_pos h6]
                subst h6
                rw [List.cons_append, List.cons_append, List.nil_append,
                  parseStringBody.eq_def]
                simp [ih rest]
              · rw [if_neg h6]
                by_cases h7 : c = '\r'
                · rw [if_pos h7]
                  subst h7
                  rw [List.cons_append, List.cons_append, List.nil_append,
                    parseStringBody.eq_def]
                  simp [ih rest]
                · rw [if_neg h7]
                  by_cases h8 : c.toNat < 32
                  · rw [if_pos h8]
                    have hu0 : unhex '0' = some 0 := by decide
                    have hhi : unhex (hexDigitChar (c.toNat / 16)) = some (c.toNat / 16) :=
                      unhex_hexDigitChar (by omega)
                    have hlo : unhex (hexDigitChar (c.toNat % 16)) = some (c.toNat % 16) :=
                      unhex_hexDigitChar (by omega)
                    simp only [List.cons_append, List.nil_append]
                    rw [parseStringBody.eq_def]
                    simp [hu0, hhi, hlo, ih rest]
                    rw [(by omega : c.toNat / 16 * 16 + c.toNat % 16 = c.toNat),
                      Char.ofNat_toNat]
                  · rw [if_neg h8, List.cons_append, List.nil_append]
                    rw [parseStringBody_raw h1 h2 h8, ih rest]
                    rfl

/-- A decimal digit is not insignificant whitespace. -/
theorem digit_not_ws {c : Char} (h48 : 48 ≤ c.toNat) : isWsChar c = false := by
  rw [isWsChar]
  simp only [Bool.or_eq_false_iff, decide_eq_false_iff_not]
  refine ⟨⟨⟨?_, ?_⟩, ?_⟩, ?_⟩ <;> (intro he; subst he; exact absurd h48 (by decide))

/-- A character whose code point lies outside the digit range differs from
every decimal digit. -/
theorem digit_ne {c : Char} (h48 : 48 ≤ c.toNat) (h57 : c.toNat ≤ 57) :
    ∀ d : Char, (d.toNat < 48 ∨ 57 < d.toNat) → c ≠ d := by
  intro d hd he
  subst he
  omega

/-- The value parser on a null literal after leading whitespace. -/
theorem parseVal_null (f : Nat) {w : List Char} (hw : wsOnly w) (rest : List Char) :
    parseVal (f + 1) (w ++ 'n' :: 'u' :: 'l' :: 'l' :: rest) = some (.null, rest) := by
  rw [parseVal.eq_def]
  dsimp only
  rw [skipWs_ws hw, skipWs_cons_not (by decide)]
  simp

/-- The value parser on a true literal after leading whitespace. -/
theorem parseVal_true (f : Nat) {w : List Char} (hw : wsOnly w) (rest : List Char) :
    parseVal (f + 1) (w ++ 't' :: 'r' :: 'u' :: 'e' :: rest) = some (.bool true, rest) := by
  rw [parseVal.eq_def]
  dsimp only
  rw [skipWs_ws hw, skipWs_cons_not (by decide)]
  simp

/-- The value parser on a false literal after leading whitespace. -/
theorem parseVal_false (f : Nat) {w : List Char} (hw : wsOnly w) (rest : List Char) :
    parseVal (f + 1) (w ++ 'f' :: 'a' :: 'l' :: 's' :: 'e' :: rest) = some (.bool false, rest) := by
  rw [parseVal.eq_def]
  dsimp only
  rw [skipWs_ws hw, skipWs_cons_not (by decide)]
  simp

/-- The value parser on an escaped string literal after leading
whitespace. -/
theorem parseVal_str (f : Nat) {w : List Char} (hw : wsOnly w) (s rest : List Char) :
    parseVal (f + 1) (w ++ '"' :: (escChars s ++ '"' :: rest)) = some (.str ⟨s⟩, rest) := by
  rw [parseVal.eq_def]
  dsimp only
  rw [skipWs_ws hw, skipWs_cons_not (by decide)]
  simp [parseStringBody_escChars s rest]

/-- The value parser on an integer literal after leading whitespace, with a
continuation that does not extend the digit run. -/
theorem parseVal_num (f : Nat) (i : Int) {w : List Char} (hw : wsOnly w) {rest : List Char}
    (hok : okAfter rest) :
    parseVal (f + 1) (w ++ ((intRepr i).data ++ rest)) = some (.num i, rest) := by
  rw [intRepr]
  by_cases hneg : i < 0
  · rw [if_pos hneg]
    have hdata : ("-" ++ natRepr i.natAbs).data = '-' :: natReprL i.natAbs := rfl
    rw [hdata, List.cons_append, parseVal.eq_def]
    dsimp only
    rw [skipWs_ws hw, skipWs_cons_not (by decide)]
    dsimp only
    rw [if_neg (by decide : ¬('-' = 'n')), if_neg (by decide : ¬('-' = 't')),
      if_neg (by decide : ¬('-' = 'f')), if_neg (by decide : ¬('-' = '"')),
      if_neg (by decide : ¬('-' = '[')), if_neg (by decide : ¬('-' = '\x7b')),
      if_pos rfl]
    rw [takeDigits_run _ _ (natReprL_digits i.natAbs) (okAfter_nonDigit hok)]
    obtain ⟨d, ds, hds⟩ := List.exists_cons_of_ne_nil (natReprL_ne_nil i.natAbs)
    rw [hds]
    dsimp only
    rw [← hds, digitsToNat_natReprL]
    have hcast : -((i.natAbs : Nat) : Int) = i := by omega
    rw [hcast]
  · rw [if_neg hneg, natRepr]
    obtain ⟨d, ds, hds⟩ := List.exists_cons_of_ne_nil (natReprL_ne_nil i.natAbs)
    have hd : 48 ≤ d.toNat ∧ d.toNat ≤ 57 :=
      natReprL_digits i.natAbs d (by rw [hds]; exact List.mem_cons_self _ _)
    have hne := digit_ne hd.1 hd.2
    rw [(rfl : (⟨natReprL i.natAbs⟩ : String).data = natReprL i.natAbs), hds,
      List.cons_append, parseVal.eq_def]
    dsimp only
    rw [skipWs_ws hw, skipWs_cons_not (digit_not_ws hd.1)]
    dsimp only
    rw [if_neg (hne 'n' (by decide)), if_neg (hne 't' (by decide)),
      if_neg (hne 'f' (by decide)), if_neg (hne '"' (by decide)),
      if_neg (hne '[' (by decide)), if_neg (hne '\x7b' (by decide)),
      if_neg (hne '-' (by decide)),
      if_pos (by simp only [Bool.and_eq_true, decide_eq_true_eq]; omega)]
    rw [← List.cons_append, ← hds, takeDigits_run _ _ (natReprL_digits i.natAbs)
      (okAfter_nonDigit hok), digitsToNat_natReprL]
    have hcast : ((i.natAbs : Nat) : Int) = i := by omega
    rw [hcast]

/-- The value parser on an empty array literal. -/
theorem parseVal_arrNil (f : Nat) {w w0 : List Char} (hw : wsOnly w) (hw0 : wsOnly w0)
    (rest : List Char) :
    parseVal (f + 1) (w ++ '[' :: (w0 ++ ']' :: rest)) = some (.arr [], rest) := by
  rw [parseVal.eq_def]
  dsimp only
  rw [skipWs_ws hw, skipWs_cons_not (by decide)]
  dsimp only
  rw [if_neg (by decide : ¬('[' = 'n')), if_neg (by decide : ¬('[' = 't')),
    if_neg (by decide : ¬('[' = 'f')), if_neg (by decide : ¬('[' = '"')),
    if_pos rfl]
  rw [skipWs_ws hw0, skipWs_cons_not (by decide)]
  dsimp only
  rw [if_pos rfl]

/-- The value parser on a non-empty array literal hands the content to the
element parser once the head of the first element is in sight. -/
theorem parseVal_arrStep (f : Nat) {w w0 : List Char} (hw : wsOnly w) (hw0 : wsOnly w0)
    {b : Char} (hb : isWsChar b = false) (hbne : b ≠ ']') (cs : List Char) :
    parseVal (f + 1) (w ++ '[' :: (w0 ++ b :: cs)) =
      (parseElems f (w0 ++ b :: cs)).map (fun p => (.arr p.1, p.2)) := by
  rw [parseVal.eq_def]
  dsimp only
  rw [skipWs_ws hw, skipWs_cons_not (by decide)]
  dsimp only
  rw [if_neg (by decide : ¬('[' = 'n')), if_neg (by decide : ¬('[' = 't')),
    if_neg (by decide : ¬('[' = 'f')), if_neg (by decide : ¬('[' = '"')),
    if_pos rfl]
  rw [skipWs_ws hw0, skipWs_cons_not hb]
  dsimp only
  rw [if_neg hbne]

/-- The value parser on an empty object literal. -/
theorem parseVal_objNil (f : Nat) {w w0 : List Char} (hw : wsOnly w) (hw0 : wsOnly w0)
    (rest : List Char) :
    parseVal (f + 1) (w ++ '\x7b' :: (w0 ++ '\x7d' :: rest)) = some (.obj [], rest) := by
  rw [parseVal.eq_def]
  dsimp only
  rw [skipWs_ws hw, skipWs_cons_not (by decide)]
  dsimp only
  rw [if_neg (by decide : ¬('\x7b' = 'n')), if_neg (by decide : ¬('\x7b' = 't')),
    if_neg (by decide : ¬('\x7b' = 'f')), if_neg (by decide : ¬('\x7b' = '"')),
    if_neg (by decide : ¬('\x7b' = '[')), if_pos rfl]
  rw [skipWs_ws hw0, skipWs_cons_not (by decide)]
  dsimp only
  rw [if_pos rfl]

/-- The value parser on a non-empty object literal hands the content to the
member parser once the opening quote of the first key is in sight. -/
theorem parseVal_objStep (f : Nat) {w w0 : List Char} (hw : wsOnly w) (hw0 : wsOnly w0)
    (cs : List Char) :
    parseVal (f + 1) (w ++ '\x7b' :: (w0 ++ '"' :: cs)) =
      (parseMembers f (w0 ++ '"' :: cs)).map (fun p => (.obj (buildObj p.1), p.2)) := by
  rw [parseVal.eq_def]
  dsimp only
  rw [skipWs_ws hw, skipWs_cons_not (by decide)]
  dsimp only
  rw [if_neg (by decide : ¬('\x7b' = 'n')), if_neg (by decide : ¬('\x7b' = 't')),
    if_neg (by decide : ¬('\x7b' = 'f')), if_neg (by decide : ¬('\x7b' = '"')),
    if_neg (by decide : ¬('\x7b' = '[')), if_pos rfl]
  rw [skipWs_ws hw0, skipWs_cons_not (by decide)]
  dsimp only
  rw [if_neg (by decide : ¬('"' = '\x7d'))]

mutual

/-- The character sequences that spell a value as one JSON token train, with
insignificant whitespace allowed exactly where the compact and the pretty
printer may place it: after an opening bracket, after a comma, around a
colon, and before a closing bracket. -/
def Tok : Value → List Char → Prop
  | .null, cs => cs = 'n' :: 'u' :: 'l' :: 'l' :: []
  | .bool true, cs => cs = 't' :: 'r' :: 'u' :: 'e' :: []
  | .bool false, cs => cs = 'f' :: 'a' :: 'l' :: 's' :: 'e' :: []
  | .num i, cs => cs = (intRepr i).data
  | .str s, cs => cs = '"' :: (escChars s.data ++ ['"'])
  | .arr [], cs => ∃ w, wsOnly w ∧ cs = '[' :: (w ++ [']'])
  | .arr (v :: vs), cs =>
    ∃ w bs t, wsOnly w ∧ Tok v bs ∧ TokElemsTail vs t ∧ cs = '[' :: (w ++ (bs ++ t))
  | .obj [], cs => ∃ w, wsOnly w ∧ cs = '\x7b' :: (w ++ ['\x7d'])
  | .obj ((k, v) :: ms), cs =>
    ∃ w1 w2 w3 bs t, wsOnly w1 ∧ wsOnly w2 ∧ wsOnly w3 ∧ Tok v bs ∧ TokMemsTail ms t ∧
      cs = '\x7b' :: (w1 ++ '"' :: (escChars k.data ++ '"' :: (w2 ++ ':' :: (w3 ++ (bs ++ t)))))
termination_by v _ => sizeOf v

/-- Token trains of the remaining array elements after one element has been
read: either whitespace and the closing bracket, or a comma followed by the
next element and its own tail. -/
def TokElemsTail : List Value → List Char → Prop
  | [], t => ∃ w, wsOnly w ∧ t = w ++ [']']
  | v :: vs, t =>
    ∃ w bs t2, wsOnly w ∧ Tok v bs ∧ TokElemsTail vs t2 ∧ t = ',' :: (w ++ (bs ++ t2))
termination_by l _ => sizeOf l

/-- Token trains of the remaining object members after one member has been
read: either whitespace and the closing brace, or a comma followed by the
next quoted key, a colon, the member value and its own tail. -/
def TokMemsTail : List (String × Value) → List Char → Prop
  | [], t => ∃ w, wsOnly w ∧ t = w ++ ['\x7d']
  | (k, v) :: ms, t =>
    ∃ w1 w2 w3 bs t2, wsOnly w1 ∧ wsOnly w2 ∧ wsOnly w3 ∧ Tok v bs ∧ TokMemsTail ms t2 ∧
      t = ',' :: (w1 ++ '"' :: (escChars k.data ++ '"' :: (w2 ++ ':' :: (w3 ++ (bs ++ t2)))))
termination_by l _ => sizeOf l

end

mutual

/-- Recursion depth needed by the descent parser on a value. -/
def fuelV : Value → Nat
  | .arr l => 1 + fuelElems l
  | .obj l => 1 + fuelMems l
  | _ => 1
termination_by v => sizeOf v

/-- Recursion depth needed by the element parser on an element list. -/
def fuelElems : List Value → Nat
  | [] => 1
  | v :: vs => 1 + max (fuelV v) (fuelElems vs)
termination_by l => sizeOf l

/-- Recursion depth needed by the member parser on a member list. -/
def fuelMems : List (String × Value) → Nat
  | [] => 1
  | (_, v) :: ms => 1 + max (fuelV v) (fuelMems ms)
termination_by l => sizeOf l

end

/-- Every value needs at least one unit of fuel. -/
theorem one_le_fuelV (v : Value) : 1 ≤ fuelV v := by
  cases v <;> simp [fuelV]

/-- A token train starts with a non-whitespace character that closes no
bracket. -/
theorem tok_head {v : Value} {cs : List Char} (h : Tok v cs) :
    ∃ c cs2, cs = c :: cs2 ∧ isWsChar c = false ∧ c ≠ ']' ∧ c ≠ '\x7d' := by
  match v with
  | .null =>
    simp only [Tok] at h
    exact ⟨_, _, h, by decide, by decide, by decide⟩
  | .bool true =>
    simp only [Tok] at h
    exact ⟨_, _, h, by decide, by decide, by decide⟩
  | .bool false =>
    simp only [Tok] at h
    exact ⟨_, _, h, by decide, by decide, by decide⟩
  | .num i =>
    simp only [Tok] at h
    rw [intRepr] at h
    by_cases hneg : i < 0
    · rw [if_pos hneg] at h
      exact ⟨'-', _, h, by decide, by decide, by decide⟩
    · rw [if_neg hneg] at h
      obtain ⟨d, ds, hds⟩ := List.exists_cons_of_ne_nil (natReprL_ne_nil i.natAbs)
      have hd : 48 ≤ d.toNat ∧ d.toNat ≤ 57 :=
        natReprL_digits i.natAbs d (by rw [hds]; exact List.mem_cons_self _ _)
      refine ⟨d, ds, ?_, digit_not_ws hd.1, digit_ne hd.1 hd.2 ']' (by decide),
        digit_ne hd.1 hd.2 '\x7d' (by decide)⟩
      exact h.trans hds
  | .str s =>
    simp only [Tok] at h
    exact ⟨_, _, h, by decide, by decide, by decide⟩
  | .arr [] =>
    simp only [Tok] at h
    obtain ⟨w, hw, rfl⟩ := h
    exact ⟨_, _, rfl, by decide, by decide, by decide⟩
  | .arr (v2 :: vs) =>
    simp only [Tok] at h
    obtain ⟨w, bs, t, hw, hb, ht, rfl⟩ := h
    exact ⟨_, _, rfl, by decide, by decide, by decide⟩
  | .obj [] =>
    simp only [Tok] at h
    obtain ⟨w, hw, rfl⟩ := h
    exact ⟨_, _, rfl, by decide, by decide, by decide⟩
  | .obj ((k, v2) :: ms) =>
    simp only [Tok] at h
    obtain ⟨w1, w2, w3, bs, t, hw1, hw2, hw3, hb, ht, rfl⟩ := h
    exact ⟨_, _, rfl, by decide, by decide, by decide⟩

/-- After an element tail every continuation is acceptable: it starts with
whitespace, a comma or a closing bracket. -/
theorem tokElemsTail_okAfter {vs : List Value} {t : List Char}
    (h : TokElemsTail vs t) (rest : List Char) : okAfter (t ++ rest) := by
  cases vs with
  | nil =>
    simp only [TokElemsTail] at h
    obtain ⟨w, hw, rfl⟩ := h
    cases w with
    | nil => exact Or.inr (Or.inr (Or.inl rfl))
    | cons c w2 => exact Or.inl (hw c (List.mem_cons_self _ _))
  | cons v vs2 =>
    simp only [TokMemsTail, TokElemsTail] at h
    obtain ⟨w, bs, t2, hw, hb, ht, rfl⟩ := h
    exact Or.inr (Or.inl rfl)

/-- After a member tail every continuation is acceptable: it starts with
whitespace, a comma or a closing brace. -/
theorem tokMemsTail_okAfter {ms : List (String × Value)} {t : List Char}
    (h : TokMemsTail ms t) (rest : List Char) : okAfter (t ++ rest) := by
  cases ms with
  | nil =>
    simp only [TokMemsTail] at h
    obtain ⟨w, hw, rfl⟩ := h
    cases w with
    | nil => exact Or.inr (Or.inr (Or.inr rfl))
    | cons c w2 => exact Or.inl (hw c (List.mem_cons_self _ _))
  | cons kv ms2 =>
    obtain ⟨k, v⟩ := kv
    simp only [TokMemsTail] at h
    obtain ⟨w1, w2, w3, bs, t2, hw1, hw2, hw3, hb, ht, rfl⟩ := h
    exact Or.inr (Or.inl rfl)

/-- Every element list needs at least one unit of fuel. -/
theorem one_le_fuelElems (vs : List Value) : 1 ≤ fuelElems vs := by
  cases vs <;> simp [fuelElems]

/-- Every member list needs at least one unit of fuel. -/
theorem one_le_fuelMems (ms : List (String × Value)) : 1 ≤ fuelMems ms := by
  cases ms with
  | nil => simp [fuelMems]
  | cons kv ms =>
    obtain ⟨k, v⟩ := kv
    simp [fuelMems]

/-- The fuel needed by the parser is bounded by the length of any token
train of the value (joint statement over values, element tails and member
tails, by strong induction on size). -/
theorem tok_fuel_all : ∀ N : Nat,
    (∀ v : Value, sizeOf v ≤ N → ∀ cs, Tok v cs → fuelV v ≤ cs.length) ∧
    (∀ vs : List Value, sizeOf vs ≤ N → ∀ t, TokElemsTail vs t → fuelElems vs ≤ t.length) ∧
    (∀ ms : List (String × Value), sizeOf ms ≤ N → ∀ t, TokMemsTail ms t → fuelMems ms ≤ t.length) := by
  intro N
  induction N using Nat.strong_induction_on with
  | _ N ih =>
    refine ⟨?_, ?_, ?_⟩
    · intro v hN cs h
      match v with
      | .null =>
        obtain ⟨c, cs2, rfl, -, -, -⟩ := tok_head h
        simp [fuelV]
      | .bool b =>
        obtain ⟨c, cs2, rfl, -, -, -⟩ := tok_head h
        simp [fuelV]
      | .num i =>
        obtain ⟨c, cs2, rfl, -, -, -⟩ := tok_head h
        simp [fuelV]
      | .str s =>
        obtain ⟨c, cs2, rfl, -, -, -⟩ := tok_head h
        simp [fuelV]
      | .arr [] =>
        simp only [Tok] at h
        obtain ⟨w, hw, rfl⟩ := h
        simp [fuelV, fuelElems]
      | .arr (v2 :: vs) =>
        simp only [Tok] at h
        obtain ⟨w, bs, t, hw, hb, ht, rfl⟩ := h
        simp only [Value.arr.sizeOf_spec, List.cons.sizeOf_spec] at hN
        have h1 : fuelV v2 ≤ bs.length := (ih (sizeOf v2) (by omega)).1 v2 le_rfl bs hb
        have h2 : fuelElems vs ≤ t.length := (ih (sizeOf vs) (by omega)).2.1 vs le_rfl t ht
        have h3 : 1 ≤ fuelElems vs := one_le_fuelElems vs
        have h4 : 1 ≤ fuelV v2 := one_le_fuelV v2
        simp only [fuelV, fuelElems, List.length_cons, List.length_append]
        omega
      | .obj [] =>
        simp only [Tok] at h
        obtain ⟨w, hw, rfl⟩ := h
        simp [fuelV, fuelMems]
      | .obj ((k, v2) :: ms) =>
        simp only [Tok] at h
        obtain ⟨w1, w2, w3, bs, t, hw1, hw2, hw3, hb, ht, rfl⟩ := h
        simp only [Value.obj.sizeOf_spec, List.cons.sizeOf_spec, Prod.mk.sizeOf_spec] at hN
        have h1 : fuelV v2 ≤ bs.length := (ih (sizeOf v2) (by omega)).1 v2 le_rfl bs hb
        have h2 : fuelMems ms ≤ t.length := (ih (sizeOf ms) (by omega)).2.2 ms le_rfl t ht
        have h3 : 1 ≤ fuelMems ms := one_le_fuelMems ms
        have h4 : 1 ≤ fuelV v2 := one_le_fuelV v2
        simp only [fuelV, fuelMems, List.length_cons, List.length_append]
        omega
    · intro vs hN t h
      match vs with
      | [] =>
        simp only [TokElemsTail] at h
        obtain ⟨w, hw, rfl⟩ := h
        simp [fuelElems]
      | v2 :: vs2 =>
        simp only [TokElemsTail] at h
        obtain ⟨w, bs, t2, hw, hb, ht, rfl⟩ := h
        simp only [List.cons.sizeOf_spec] at hN
        have h0 : 1 ≤ sizeOf vs2 := by cases vs2 <;> simp_arith
        have h1 : fuelV v2 ≤ bs.length := (ih (sizeOf v2) (by omega)).1 v2 le_rfl bs hb
        have h2 : fuelElems vs2 ≤ t2.length := (ih (sizeOf vs2) (by omega)).2.1 vs2 le_rfl t2 ht
        simp only [fuelElems, List.length_cons, List.length_append]
        omega
    · intro ms hN t h
      match ms with
      | [] =>
        simp only [TokMemsTail] at h
        obtain ⟨w, hw, rfl⟩ := h
        simp [fuelMems]
      | (k, v2) :: ms2 =>
        simp only [TokMemsTail] at h
        obtain ⟨w1, w2, w3, bs, t2, hw1, hw2, hw3, hb, ht, rfl⟩ := h
        simp only [List.cons.sizeOf_spec, Prod.mk.sizeOf_spec] at hN
        have h0 : 1 ≤ sizeOf ms2 := by cases ms2 <;> simp_arith
        have h1 : fuelV v2 ≤ bs.length := (ih (sizeOf v2) (by omega)).1 v2 le_rfl bs hb
        have h2 : fuelMems ms2 ≤ t2.length := (ih (sizeOf ms2) (by omega)).2.2 ms2 le_rfl t2 ht
        simp only [fuelMems, List.length_cons, List.length_append]
        omega

/-- The empty list is whitespace-only. -/
theorem wsOnly_nil : wsOnly [] := fun c hc => absurd hc (List.not_mem_nil c)

/-- An indentation run is whitespace-only. -/
theorem wsOnly_indentPad (n : Nat) : wsOnly (indentPad n) := by
  intro c hc
  rw [indentPad] at hc
  rcases List.eq_of_mem_replicate hc with rfl
  decide

/-- A newline followed by an indentation run is whitespace-only. -/
theorem wsOnly_nl_pad (n : Nat) : wsOnly ('\n' :: indentPad n) := by
  intro c hc
  rcases List.mem_cons.mp hc with rfl | hc
  · decide
  · exact wsOnly_indentPad n c hc

/-- A single space is whitespace-only. -/
theorem wsOnly_space : wsOnly [' '] := by
  intro c hc
  rcases List.mem_singleton.mp hc with rfl
  decide

/-- The compact printer emits a token train (joint statement with the
member and element printers). -/
theorem renderCompact_tok :
    (∀ v, Tok v (renderCompact v)) ∧
    (∀ ms, TokMemsTail ms (renderMembersC ms ++ ['\x7d'])) ∧
    (∀ vs, TokElemsTail vs (renderItemsC vs ++ [']'])) := by
  refine renderCompact.mutual_induct
    (fun v => Tok v (renderCompact v))
    (fun ms => TokMemsTail ms (renderMembersC ms ++ ['\x7d']))
    (fun vs => TokElemsTail vs (renderItemsC vs ++ [']']))
    ?_ ?_ ?_ ?_ ?_ ?_ ?_ ?_ ?_ ?_ ?_ ?_
  · simp [Tok, renderCompact, renderAtom]
  · intro b
    cases b <;> simp [Tok, renderCompact, renderAtom]
  · intro n
    simp [Tok, renderCompact, renderAtom]
  · intro s
    simp [Tok, renderCompact, renderAtom]
  · simp only [renderCompact, Tok]
    exact ⟨[], wsOnly_nil, rfl⟩
  · intro v vs ih1 ih3
    simp only [renderCompact, Tok]
    exact ⟨[], renderCompact v, renderItemsC vs ++ [']'], wsOnly_nil, ih1, ih3, by simp⟩
  · simp only [renderCompact, Tok]
    exact ⟨[], wsOnly_nil, rfl⟩
  · intro k v ms ih1 ih2
    simp only [renderCompact, Tok]
    exact ⟨[], [], [], renderCompact v, renderMembersC ms ++ ['\x7d'],
      wsOnly_nil, wsOnly_nil, wsOnly_nil, ih1, ih2, by simp⟩
  · simp only [renderMembersC, List.nil_append, TokMemsTail]
    exact ⟨[], wsOnly_nil, rfl⟩
  · intro k2 v rest ih1 ih2
    simp only [renderMembersC, TokMemsTail]
    exact ⟨[], [], [], renderCompact v, renderMembersC rest ++ ['\x7d'],
      wsOnly_nil, wsOnly_nil, wsOnly_nil, ih1, ih2, by simp⟩
  · simp only [renderItemsC, List.nil_append, TokElemsTail]
    exact ⟨[], wsOnly_nil, rfl⟩
  · intro v rest ih1 ih3
    simp only [renderItemsC, TokElemsTail]
    exact ⟨[], renderCompact v, renderItemsC rest ++ [']'], wsOnly_nil, ih1, ih3, by simp⟩

/-- The pretty printer emits a token train (joint statement with the member
and element printers; the closing-bracket indentation is arbitrary). -/
theorem renderPretty_tok (iw : Nat) :
    (∀ v d, Tok v (renderPretty iw v d)) ∧
    (∀ ms d e, TokMemsTail ms (renderMembersP iw ms d ++ '\n' :: (indentPad e ++ ['\x7d']))) ∧
    (∀ vs d e, TokElemsTail vs (renderItemsP iw vs d ++ '\n' :: (indentPad e ++ [']']))) := by
  refine renderPretty.mutual_induct iw
    (fun v d => Tok v (renderPretty iw v d))
    (fun ms d => ∀ e, TokMemsTail ms (renderMembersP iw ms d ++ '\n' :: (indentPad e ++ ['\x7d'])))
    (fun vs d => ∀ e, TokElemsTail vs (renderItemsP iw vs d ++ '\n' :: (indentPad e ++ [']'])))
    ?_ ?_ ?_ ?_ ?_ ?_ ?_ ?_ ?_ ?_ ?_ ?_
  · intro x
    simp [Tok, renderPretty, renderAtom]
  · intro b x
    cases b <;> simp [Tok, renderPretty, renderAtom]
  · intro n x
    simp [Tok, renderPretty, renderAtom]
  · intro s x
    simp [Tok, renderPretty, renderAtom]
  · intro x
    simp only [renderPretty, Tok]
    exact ⟨[], wsOnly_nil, rfl⟩
  · intro v vs d ih1 ih3
    simp only [renderPretty, Tok]
    exact ⟨'\n' :: indentPad (iw * (d + 1)), renderPretty iw v (d + 1),
      renderItemsP iw vs (d + 1) ++ '\n' :: (indentPad (iw * d) ++ [']']),
      wsOnly_nl_pad _, ih1, ih3 (iw * d), by simp⟩
  · intro x
    simp only [renderPretty, Tok]
    exact ⟨[], wsOnly_nil, rfl⟩
  · intro k v ms d ih1 ih2
    simp only [renderPretty, Tok]
    exact ⟨'\n' :: indentPad (iw * (d + 1)), [], [' '], renderPretty iw v (d + 1),
      renderMembersP iw ms (d + 1) ++ '\n' :: (indentPad (iw * d) ++ ['\x7d']),
      wsOnly_nl_pad _, wsOnly_nil, wsOnly_space, ih1, ih2 (iw * d), by simp⟩
  · intro x e
    simp only [renderMembersP, List.nil_append, TokMemsTail]
    exact ⟨'\n' :: indentPad e, wsOnly_nl_pad e, by simp⟩
  · intro k v ms d ih1 ih2
    intro e
    simp only [renderMembersP, TokMemsTail]
    exact ⟨'\n' :: indentPad (iw * d), [], [' '], renderPretty iw v d,
      renderMembersP iw ms d ++ '\n' :: (indentPad e ++ ['\x7d']),
      wsOnly_nl_pad _, wsOnly_nil, wsOnly_space, ih1, ih2 e, by simp⟩
  · intro x e
    simp only [renderItemsP, List.nil_append, TokElemsTail]
    exact ⟨'\n' :: indentPad e, wsOnly_nl_pad e, by simp⟩
  · intro v vs d ih1 ih3
    intro e
    simp only [renderItemsP, TokElemsTail]
    exact ⟨'\n' :: indentPad (iw * d), renderPretty iw v d,
      renderItemsP iw vs d ++ '\n' :: (indentPad e ++ [']']),
      wsOnly_nl_pad _, ih1, ih3 e, by simp⟩

/-- The boolean key-distinctness check agrees with list nodup. -/
theorem nodupKeysB_iff : ∀ l : List String, nodupKeysB l = true ↔ l.Nodup := by
  intro l
  induction l with
  | nil => simp [nodupKeysB]
  | cons k ks ih =>
    rw [nodupKeysB, List.nodup_cons, Bool.and_eq_true, ih, Bool.not_eq_true',
      List.contains_eq_any_beq, List.any_eq_false]
    constructor
    · rintro ⟨h1, h2⟩
      exact ⟨fun hm => by simpa using h1 k hm, h2⟩
    · rintro ⟨h1, h2⟩
      refine ⟨fun a ha => ?_, h2⟩
      rw [Bool.not_eq_true, beq_eq_false_iff_ne]
      intro he
      rw [he] at h1
      exact h1 ha

/-- Membership check is false for a non-member key list. -/
theorem contains_eq_false_of_not_mem {l : List String} {k : String} (h : k ∉ l) :
    l.contains k = false := by
  rw [List.contains_eq_any_beq, List.any_eq_false]
  intro a ha
  rw [Bool.not_eq_true, beq_eq_false_iff_ne]
  intro he
  rw [he] at h
  exact h ha

/-- Folding distinct-keyed members onto an accumulator with distinct,
disjoint keys appends them in order. -/
theorem objAssign_foldl :
    ∀ (ms acc : List (String × Value)),
      (acc.map Prod.fst ++ ms.map Prod.fst).Nodup →
      ms.foldl (fun acc kv => objAssignOne acc kv.1 kv.2) acc = acc ++ ms := by
  intro ms
  induction ms with
  | nil =>
    intro acc _
    simp
  | cons kv rest ih =>
    obtain ⟨k, v⟩ := kv
    intro acc h
    have hk : k ∉ acc.map Prod.fst := by
      rw [List.nodup_append] at h
      intro hm
      exact h.2.2 hm (by simp)
    have hstep : objAssignOne acc k v = acc ++ [(k, v)] := by
      rw [objAssignOne, contains_eq_false_of_not_mem hk]
      simp
    rw [List.foldl_cons]
    dsimp only
    rw [hstep, ih (acc ++ [(k, v)]) (by simpa using h)]
    simp

/-- JavaScript object assembly is the identity on distinct-keyed member
lists. -/
theorem buildObj_nodup {ms : List (String × Value)}
    (h : nodupKeysB (ms.map Prod.fst) = true) : buildObj ms = ms := by
  rw [buildObj, objAssign_foldl ms [] (by simpa using (nodupKeysB_iff _).mp h)]
  simp

/-- Every value has positive size. -/
theorem one_le_sizeOf_val (v : Value) : 1 ≤ sizeOf v := by
  cases v <;> simp_arith

/-- Every value list has positive size. -/
theorem one_le_sizeOf_vlist (l : List Value) : 1 ≤ sizeOf l := by
  cases l <;> simp_arith

/-- Every entry list has positive size. -/
theorem one_le_sizeOf_elist (l : List (String × Value)) : 1 ≤ sizeOf l := by
  cases l <;> simp_arith

/-- The descent parser reads back every token train of a well-formed value,
leaving exactly the continuation (joint statement over values, element tails
and member tails, by strong induction on size). -/
theorem parse_tok_all : ∀ N : Nat,
    (∀ v : Value, sizeOf v ≤ N →
      ∀ f w cs rest, fuelV v ≤ f → wsOnly w → Tok v cs → wellFormed v = true → okAfter rest →
        parseVal f (w ++ (cs ++ rest)) = some (v, rest)) ∧
    (∀ (x : Value) (xs : List Value), sizeOf x + sizeOf xs ≤ N →
      ∀ g w bs t rest, 1 + max (fuelV x) (fuelElems xs) ≤ g → wsOnly w → Tok x bs →
        TokElemsTail xs t → wellFormed x = true → wfList xs = true → okAfter rest →
        parseElems g (w ++ (bs ++ (t ++ rest))) = some (x :: xs, rest)) ∧
    (∀ (k : String) (x : Value) (ms : List (String × Value)), sizeOf x + sizeOf ms ≤ N →
      ∀ g w1 w2 w3 bs t rest, 1 + max (fuelV x) (fuelMems ms) ≤ g →
        wsOnly w1 → wsOnly w2 → wsOnly w3 → Tok x bs → TokMemsTail ms t →
        wellFormed x = true → wfEntries ms = true → okAfter rest →
        parseMembers g
          (w1 ++ '"' :: (escChars k.data ++ '"' :: (w2 ++ ':' :: (w3 ++ (bs ++ (t ++ rest)))))) =
          some ((k, x) :: ms, rest)) := by
  intro N
  induction N using Nat.strong_induction_on with
  | _ N ih =>
    refine ⟨?_, ?_, ?_⟩
    · intro v hN f w cs rest hf hw htok hwf hok
      obtain ⟨f2, rfl⟩ : ∃ f2, f = f2 + 1 :=
        ⟨f - 1, by have := one_le_fuelV v; omega⟩
      match v with
      | .null =>
        simp only [Tok] at htok
        subst htok
        exact parseVal_null f2 hw rest
      | .bool true =>
        simp only [Tok] at htok
        subst htok
        exact parseVal_true f2 hw rest
      | .bool false =>
        simp only [Tok] at htok
        subst htok
        exact parseVal_false f2 hw rest
      | .num i =>
        simp only [Tok] at htok
        subst htok
        exact parseVal_num f2 i hw hok
      | .str s =>
        simp only [Tok] at htok
        subst htok
        have he : w ++ (('"' :: (escChars s.data ++ ['"'])) ++ rest) =
            w ++ '"' :: (escChars s.data ++ '"' :: rest) := by simp
        rw [he]
        exact parseVal_str f2 hw s.data rest
      | .arr [] =>
        simp only [Tok] at htok
        obtain ⟨w0, hw0, rfl⟩ := htok
        have he : w ++ (('[' :: (w0 ++ [']'])) ++ rest) =
            w ++ '[' :: (w0 ++ ']' :: rest) := by simp
        rw [he]
        exact parseVal_arrNil f2 hw hw0 rest
      | .arr (x :: xs) =>
        simp only [Tok] at htok
        obtain ⟨w0, bs, t, hw0, hb, ht, rfl⟩ := htok
        simp only [Value.arr.sizeOf_spec, List.cons.sizeOf_spec] at hN
        simp only [fuelV, fuelElems] at hf
        simp only [wellFormed, wfList, Bool.and_eq_true] at hwf
        obtain ⟨b, bs2, rfl, hbws, hbne1, hbne2⟩ := tok_head hb
        have hq : parseElems f2 (w0 ++ ((b :: bs2) ++ (t ++ rest))) = some (x :: xs, rest) :=
          (ih (sizeOf x + sizeOf xs) (by omega)).2.1 x xs le_rfl f2 w0 (b :: bs2) t rest
            (by omega) hw0 hb ht hwf.1 hwf.2 hok
        have he : w ++ (('[' :: (w0 ++ ((b :: bs2) ++ t))) ++ rest) =
            w ++ '[' :: (w0 ++ b :: (bs2 ++ (t ++ rest))) := by simp
        rw [he, parseVal_arrStep f2 hw hw0 hbws hbne1]
        simp only [List.cons_append] at hq
        rw [hq]
        rfl
      | .obj [] =>
        simp only [Tok] at htok
        obtain ⟨w0, hw0, rfl⟩ := htok
        have he : w ++ (('\x7b' :: (w0 ++ ['\x7d'])) ++ rest) =
            w ++ '\x7b' :: (w0 ++ '\x7d' :: rest) := by simp
        rw [he]
        exact parseVal_objNil f2 hw hw0 rest
      | .obj ((k, x) :: ms) =>
        simp only [Tok] at htok
        obtain ⟨w1, w2, w3, bs, t, hw1, hw2, hw3, hb, ht, rfl⟩ := htok
        simp only [Value.obj.sizeOf_spec, List.cons.sizeOf_spec, Prod.mk.sizeOf_spec] at hN
        simp only [fuelV, fuelMems] at hf
        simp only [wellFormed, wfEntries, Bool.and_eq_true] at hwf
        have hr : parseMembers f2
            (w1 ++ '"' :: (escChars k.data ++ '"' ::
              (w2 ++ ':' :: (w3 ++ (bs ++ (t ++ rest)))))) = some ((k, x) :: ms, rest) :=
          (ih (sizeOf x + sizeOf ms) (by omega)).2.2 k x ms le_rfl f2 w1 w2 w3 bs t rest
            (by omega) hw1 hw2 hw3 hb ht hwf.2.1 hwf.2.2 hok
        have he : w ++ (('\x7b' :: (w1 ++ '"' :: (escChars k.data ++ '"' ::
              (w2 ++ ':' :: (w3 ++ (bs ++ t)))))) ++ rest) =
            w ++ '\x7b' :: (w1 ++ '"' :: (escChars k.data ++ '"' ::
              (w2 ++ ':' :: (w3 ++ (bs ++ (t ++ rest)))))) := by simp
        rw [he, parseVal_objStep f2 hw hw1, hr]
        have hb2 : buildObj ((k, x) :: ms) = (k, x) :: ms := buildObj_nodup hwf.1
        simp [hb2]
    · intro x xs hN g w bs t rest hg hw htokx ht hwfx hwfxs hok
      obtain ⟨g2, rfl⟩ : ∃ g2, g = g2 + 1 := ⟨g - 1, by omega⟩
      have h1x : 1 ≤ sizeOf x := one_le_sizeOf_val x
      have h1xs : 1 ≤ sizeOf xs := one_le_sizeOf_vlist xs
      have hokt : okAfter (t ++ rest) := tokElemsTail_okAfter ht rest
      have hpv : parseVal g2 (w ++ (bs ++ (t ++ rest))) = some (x, t ++ rest) :=
        (ih (sizeOf x) (by omega)).1 x le_rfl g2 w bs (t ++ rest)
          (by omega) hw htokx hwfx hokt
      rw [parseElems.eq_def]
      dsimp only
      rw [hpv]
      dsimp only
      cases xs with
      | nil =>
        simp only [TokElemsTail] at ht
        obtain ⟨w2, hw2, rfl⟩ := ht
        have he : (w2 ++ [']']) ++ rest = w2 ++ ']' :: rest := by simp
        rw [he, skipWs_ws hw2, skipWs_cons_not (by decide : isWsChar ']' = false)]
        simp
      | cons x2 xs2 =>
        simp only [TokElemsTail] at ht
        obtain ⟨w2, bs2, t2, hw2, hb2, ht2, rfl⟩ := ht
        simp only [List.cons.sizeOf_spec] at hN
        simp only [fuelElems] at hg
        simp only [wfList, Bool.and_eq_true] at hwfxs
        have hq : parseElems g2 (w2 ++ (bs2 ++ (t2 ++ rest))) = some (x2 :: xs2, rest) :=
          (ih (sizeOf x2 + sizeOf xs2) (by omega)).2.1 x2 xs2 le_rfl g2 w2 bs2 t2 rest
            (by omega) hw2 hb2 ht2 hwfxs.1 hwfxs.2 hok
        have he : (',' :: (w2 ++ (bs2 ++ t2))) ++ rest = ',' :: (w2 ++ (bs2 ++ (t2 ++ rest))) := by
          simp
        rw [he, skipWs_cons_not (by decide : isWsChar ',' = false)]
        simp [hq]
    · intro k x ms hN g w1 w2 w3 bs t rest hg hw1 hw2 hw3 htokx ht hwfx hwfms hok
      obtain ⟨g2, rfl⟩ : ∃ g2, g = g2 + 1 := ⟨g - 1, by omega⟩
      have h1x : 1 ≤ sizeOf x := one_le_sizeOf_val x
      have h1ms : 1 ≤ sizeOf ms := one_le_sizeOf_elist ms
      have hokt : okAfter (t ++ rest) := tokMemsTail_okAfter ht rest
      have hpv : parseVal g2 (w3 ++ (bs ++ (t ++ rest))) = some (x, t ++ rest) :=
        (ih (sizeOf x) (by omega)).1 x le_rfl g2 w3 bs (t ++ rest)
          (by omega) hw3 htokx hwfx hokt
      have hsb : parseStringBody (escChars k.data ++ '"' ::
          (w2 ++ ':' :: (w3 ++ (bs ++ (t ++ rest))))) =
          some (k.data, w2 ++ ':' :: (w3 ++ (bs ++ (t ++ rest)))) :=
        parseStringBody_escChars k.data _
      rw [parseMembers.eq_def]
      dsimp only
      rw [skipWs_ws hw1, skipWs_cons_not (by decide : isWsChar '"' = false)]
      simp only [hsb]
      rw [skipWs_ws hw2, skipWs_cons_not (by decide : isWsChar ':' = false)]
      simp only [hpv]
      cases ms with
      | nil =>
        simp only [TokMemsTail] at ht
        obtain ⟨w4, hw4, rfl⟩ := ht
        have he : (w4 ++ ['\x7d']) ++ rest = w4 ++ '\x7d' :: rest := by simp
        rw [he, skipWs_ws hw4, skipWs_cons_not (by decide : isWsChar '\x7d' = false)]
        simp
      | cons kv ms2 =>
        obtain ⟨k2, x2⟩ := kv
        simp only [TokMemsTail] at ht
        obtain ⟨w5, w6, w7, bs2, t2, hw5, hw6, hw7, hb2, ht2, rfl⟩ := ht
        simp only [List.cons.sizeOf_spec, Prod.mk.sizeOf_spec] at hN
        simp only [fuelMems] at hg
        simp only [wfEntries, Bool.and_eq_true] at hwfms
        have hq : parseMembers g2 (w5 ++ '"' :: (escChars k2.data ++ '"' ::
            (w6 ++ ':' :: (w7 ++ (bs2 ++ (t2 ++ rest)))))) = some ((k2, x2) :: ms2, rest) :=
          (ih (sizeOf x2 + sizeOf ms2) (by omega)).2.2 k2 x2 ms2 le_rfl g2 w5 w6 w7 bs2 t2 rest
            (by omega) hw5 hw6 hw7 hb2 ht2 hwfms.1 hwfms.2 hok
        have he : (',' :: (w5 ++ '"' :: (escChars k2.data ++ '"' ::
              (w6 ++ ':' :: (w7 ++ (bs2 ++ t2)))))) ++ rest =
            ',' :: (w5 ++ '"' :: (escChars k2.data ++ '"' ::
              (w6 ++ ':' :: (w7 ++ (bs2 ++ (t2 ++ rest)))))) := by simp
        rw [he, skipWs_cons_not (by decide : isWsChar ',' = false)]
        simp [hq]

/-- The recursive key sort preserves well-formedness: the sorted key list is
a permutation of the original keys (hence still duplicate-free) and every
rebuilt member value is the sort of a looked-up well-formed value. -/
theorem wf_sortObjectKeys :
    (∀ v : Value, wellFormed v = true → wellFormed (sortObjectKeys v) = true) ∧
    (∀ (ks : List String) (kvs : List (String × Value)), wfEntries kvs = true →
      wfEntries (sortEntryList ks kvs) = true) ∧
    (∀ l : List Value, wfList l = true → wfList (sortValueList l) = true) := by
  refine sortObjectKeys.mutual_induct
    (fun v => wellFormed v = true → wellFormed (sortObjectKeys v) = true)
    (fun ks kvs => wfEntries kvs = true → wfEntries (sortEntryList ks kvs) = true)
    (fun l => wfList l = true → wfList (sortValueList l) = true)
    ?_ ?_ ?_ ?_ ?_ ?_ ?_ ?_ ?_ ?_
  · intro _
    simp [sortObjectKeys, wellFormed]
  · intro b _
    simp [sortObjectKeys, wellFormed]
  · intro n _
    simp [sortObjectKeys, wellFormed]
  · intro s _
    simp [sortObjectKeys, wellFormed]
  · intro l ih hwf
    rw [wellFormed] at hwf
    rw [sortObjectKeys, wellFormed]
    exact ih hwf
  · intro kvs ih hwf
    rw [wellFormed] at hwf
    simp only [Bool.and_eq_true] at hwf
    rw [sortObjectKeys, wellFormed]
    simp only [Bool.and_eq_true]
    refine ⟨?_, ih hwf.2⟩
    rw [sortEntryList_keys]
    exact (nodupKeysB_iff _).mpr
      ((sortStrings_perm _).symm.nodup ((nodupKeysB_iff _).mp hwf.1))
  · intro kvs _
    simp [sortEntryList, wfEntries]
  · intro k ks kvs ih1 ih2 hwf
    rw [sortEntryList, wfEntries]
    split
    · rename_i v hv
      simp [ih1 v hv (wfEntries_lookup hwf hv), ih2 hwf]
    · simp [wellFormed, ih2 hwf]
  · intro _
    simp [sortValueList, wfList]
  · intro v rest ih1 ih2 hwf
    rw [wfList] at hwf
    simp only [Bool.and_eq_true] at hwf
    rw [sortValueList, wfList]
    simp [ih1 hwf.1, ih2 hwf.2]

/-- The rebuilt entry list has one entry per key of the given list. -/
theorem length_sortEntryList (ks : List String) (kvs : List (String × Value)) :
    (sortEntryList ks kvs).length = ks.length := by
  have h := sortEntryList_keys ks kvs
  calc (sortEntryList ks kvs).length
      = ((sortEntryList ks kvs).map Prod.fst).length := by simp
    _ = ks.length := by rw [h]

/-- Looking a key of the key list up in the rebuilt entry list returns the
sort of the original member value. -/
theorem lookupKey_sortEntryList :
    ∀ (ks : List String) (kvs : List (String × Value)) (k : String), k ∈ ks →
      ∀ vv, lookupKey k kvs = some vv →
        lookupKey k (sortEntryList ks kvs) = some (sortObjectKeys vv) := by
  intro ks kvs
  induction ks with
  | nil =>
    intro k h
    cases h
  | cons k2 ks ih =>
    intro k hk vv hlk
    rw [sortEntryList, lookupKey]
    by_cases he : k2 = k
    · rw [if_pos he]
      subst he
      split
      · rename_i v hv
        rw [hv] at hlk
        cases hlk
        rfl
      · rename_i hv
        rw [hv] at hlk
        cases hlk
    · rw [if_neg he]
      rcases List.mem_cons.mp hk with rfl | hk2
      · exact absurd rfl he
      · exact ih k hk2 vv hlk

/-- Every element of a well-formed element list is well-formed. -/
theorem wfList_mem :
    ∀ {l : List Value} {v : Value}, wfList l = true → v ∈ l → wellFormed v = true := by
  intro l
  induction l with
  | nil =>
    intro v _ h
    simp at h
  | cons x rest ih =>
    intro v hwf hm
    rw [wfList] at hwf
    simp only [Bool.and_eq_true] at hwf
    rcases List.mem_cons.mp hm with rfl | hm2
    · exact hwf.1
    · exact ih hwf.2 hm2

/-- Elementwise deep equality against the elementwise key sort. -/
theorem deepEqualList_map_sort :
    ∀ l : List Value, (∀ v ∈ l, deepEqual v (sortObjectKeys v) = true) →
      deepEqualList l (l.map sortObjectKeys) = true := by
  intro l
  induction l with
  | nil =>
    intro _
    simp [deepEqualList]
  | cons v rest ih =>
    intro h
    rw [List.map_cons, deepEqualList]
    simp [h v (List.mem_cons_self _ _), ih (fun x hx => h x (List.mem_cons_of_mem _ hx))]

/-- Entrywise deep equality against a list resolving every key to the sorted
member value. -/
theorem deepEqualEntries_sort :
    ∀ (a b : List (String × Value)),
      (∀ kv ∈ a, lookupKey kv.1 b = some (sortObjectKeys kv.2) ∧
        deepEqual kv.2 (sortObjectKeys kv.2) = true) →
      deepEqualEntries a b = true := by
  intro a b
  induction a with
  | nil =>
    intro _
    simp [deepEqualEntries]
  | cons kv rest ih =>
    obtain ⟨k, v⟩ := kv
    intro h
    have hh := h (k, v) (List.mem_cons_self _ _)
    rw [deepEqualEntries]
    rw [hh.1]
    simp [hh.2, ih (fun x hx => h x (List.mem_cons_of_mem _ hx))]

/-- Every well-formed value is deeply equal to its recursive key sort
(strong induction on size). -/
theorem deepEqual_sort_all :
    ∀ N : Nat, ∀ v : Value, sizeOf v ≤ N → wellFormed v = true →
      deepEqual v (sortObjectKeys v) = true := by
  intro N
  induction N using Nat.strong_induction_on with
  | _ N ih =>
    intro v hN hwf
    match v with
    | .null => simp [sortObjectKeys, deepEqual]
    | .bool b => simp [sortObjectKeys, deepEqual]
    | .num n => simp [sortObjectKeys, deepEqual]
    | .str s => simp [sortObjectKeys, deepEqual]
    | .arr l =>
      rw [wellFormed] at hwf
      rw [sortObjectKeys, sortValueList_eq_map, deepEqual]
      simp only [List.length_map, beq_self_eq_true, Bool.true_and]
      apply deepEqualList_map_sort
      intro x hx
      have hs := List.sizeOf_lt_of_mem hx
      simp only [Value.arr.sizeOf_spec] at hN
      exact ih (sizeOf x) (by omega) x le_rfl (wfList_mem hwf hx)
    | .obj kvs =>
      rw [wellFormed] at hwf
      simp only [Bool.and_eq_true] at hwf
      rw [sortObjectKeys, deepEqual]
      simp only [Bool.and_eq_true]
      constructor
      · rw [length_sortEntryList, (sortStrings_perm _).length_eq, List.length_map]
        exact beq_self_eq_true _
      · apply deepEqualEntries_sort
        intro kv hkv
        obtain ⟨k, v2⟩ := kv
        have hlk : lookupKey k kvs = some v2 := lookupKey_of_mem_nodup hwf.1 hkv
        have hmemks : k ∈ sortStrings (kvs.map Prod.fst) :=
          ((sortStrings_perm _).mem_iff).mpr (List.mem_map_of_mem Prod.fst hkv)
        have hs := List.sizeOf_lt_of_mem hkv
        simp only [Prod.mk.sizeOf_spec] at hs
        simp only [Value.obj.sizeOf_spec] at hN
        refine ⟨lookupKey_sortEntryList _ kvs k hmemks v2 hlk, ?_⟩
        exact ih (sizeOf v2) (by omega) v2 le_rfl (wfEntries_mem hwf.2 hkv)

/-- The key sort of a well-formed value is well-formed. -/
theorem wellFormed_sortObjectKeys (v : Value) (h : wellFormed v = true) :
    wellFormed (sortObjectKeys v) = true :=
  wf_sortObjectKeys.1 v h

/-- Every well-formed value is deeply equal to its recursive key sort. -/
theorem deepEqual_sortObjectKeys (v : Value) (h : wellFormed v = true) :
    deepEqual v (sortObjectKeys v) = true :=
  deepEqual_sort_all (sizeOf v) v le_rfl h

/-- The full parse pipeline reads back any token train of a well-formed
value: generous fuel, no leading whitespace prefix, empty continuation. -/
theorem parseJson_tok {v : Value} (hwf : wellFormed v = true) {cs : List Char}
    (htok : Tok v cs) : parseJson ⟨cs⟩ = some v := by
  have hfuel : fuelV v ≤ cs.length := (tok_fuel_all (sizeOf v)).1 v le_rfl cs htok
  have hp := (parse_tok_all (sizeOf v)).1 v le_rfl (cs.length + 1) [] cs []
    (by omega) wsOnly_nil htok hwf trivial
  simp only [List.nil_append, List.append_nil] at hp
  show (match parseVal (cs.length + 1) cs with
    | some (v, rest) => if skipWs rest = [] then some v else none
    | none => none) = some v
  rw [hp]
  rfl

/-- An entry list all of whose values are well-formed is well-formed. -/
theorem wfEntries_of_forall :
    ∀ l : List (String × Value), (∀ kv ∈ l, wellFormed kv.2 = true) → wfEntries l = true := by
  intro l
  induction l with
  | nil =>
    intro _
    simp [wfEntries]
  | cons kv rest ih =>
    obtain ⟨k, v⟩ := kv
    intro h
    rw [wfEntries]
    simp [h (k, v) (List.mem_cons_self _ _), ih (fun x hx => h x (List.mem_cons_of_mem _ hx))]

/-- Membership check is true for a member key. -/
theorem contains_of_mem {l : List String} {k : String} (h : k ∈ l) :
    l.contains k = true := by
  rw [List.contains_eq_any_beq, List.any_eq_true]
  exact ⟨k, h, by simp⟩

/-- One assignment step either keeps the key list (repeated key) or appends
the new key. -/
theorem objAssignOne_keys (acc : List (String × Value)) (k : String) (v : Value) :
    (objAssignOne acc k v).map Prod.fst =
      if (acc.map Prod.fst).contains k then acc.map Prod.fst
      else acc.map Prod.fst ++ [k] := by
  rw [objAssignOne]
  by_cases hc : (acc.map Prod.fst).contains k = true
  · rw [if_pos hc, if_pos hc, List.map_map]
    apply List.map_congr_left
    intro kv _
    show Prod.fst (if kv.1 = k then (k, v) else kv) = kv.1
    split
    · rename_i he
      exact he.symm
    · rfl
  · rw [if_neg hc, if_neg hc]
    simp

/-- One assignment step preserves key distinctness. -/
theorem objAssignOne_nodup {acc : List (String × Value)} {k : String} {v : Value}
    (h : nodupKeysB (acc.map Prod.fst) = true) :
    nodupKeysB ((objAssignOne acc k v).map Prod.fst) = true := by
  rw [objAssignOne_keys]
  split
  · exact h
  · rename_i hc
    have hk : k ∉ acc.map Prod.fst := fun hm => hc (contains_of_mem hm)
    rw [nodupKeysB_iff, List.nodup_append]
    exact ⟨(nodupKeysB_iff _).mp h, List.nodup_singleton k,
      fun a ha hb => hk (by rwa [List.mem_singleton.mp hb] at ha)⟩

/-- One assignment step preserves value well-formedness. -/
theorem objAssignOne_wf {acc : List (String × Value)} {k : String} {v : Value}
    (ha : wfEntries acc = true) (hv : wellFormed v = true) :
    wfEntries (objAssignOne acc k v) = true := by
  rw [objAssignOne]
  split
  · apply wfEntries_of_forall
    intro kv hm
    obtain ⟨kv0, hm0, rfl⟩ := List.mem_map.mp hm
    show wellFormed (if kv0.1 = k then (k, v) else kv0).2 = true
    split
    · exact hv
    · exact wfEntries_mem ha hm0
  · apply wfEntries_of_forall
    intro kv hm
    rcases List.mem_append.mp hm with hm2 | hm2
    · exact wfEntries_mem ha hm2
    · rw [List.mem_singleton.mp hm2]
      exact hv

/-- Folding members onto a distinct-keyed accumulator keeps keys
distinct. -/
theorem buildObj_foldl_nodup :
    ∀ (ms acc : List (String × Value)), nodupKeysB (acc.map Prod.fst) = true →
      nodupKeysB ((ms.foldl (fun a kv => objAssignOne a kv.1 kv.2) acc).map Prod.fst) = true := by
  intro ms
  induction ms with
  | nil =>
    intro acc h
    exact h
  | cons kv rest ih =>
    intro acc h
    rw [List.foldl_cons]
    exact ih _ (objAssignOne_nodup h)

/-- Folding well-formed members onto a well-formed accumulator keeps every
value well-formed. -/
theorem buildObj_foldl_wf :
    ∀ (ms acc : List (String × Value)), wfEntries acc = true →
      (∀ kv ∈ ms, wellFormed kv.2 = true) →
      wfEntries (ms.foldl (fun a kv => objAssignOne a kv.1 kv.2) acc) = true := by
  intro ms
  induction ms with
  | nil =>
    intro acc h _
    exact h
  | cons kv rest ih =>
    intro acc h hall
    rw [List.foldl_cons]
    exact ih _ (objAssignOne_wf h (hall kv (List.mem_cons_self _ _)))
      (fun x hx => hall x (List.mem_cons_of_mem _ hx))

/-- An object assembled by JavaScript assignment semantics from well-formed
member values is well-formed. -/
theorem wellFormed_buildObj (ms : List (String × Value))
    (h : ∀ kv ∈ ms, wellFormed kv.2 = true) :
    wellFormed (.obj (buildObj ms)) = true := by
  rw [wellFormed, buildObj]
  simp only [Bool.and_eq_true]
  exact ⟨buildObj_foldl_nodup ms [] rfl, buildObj_foldl_wf ms [] (by simp [wfEntries]) h⟩

/-- Everything the parser produces is well-formed: object assembly
deduplicates keys, so parsed objects have pairwise distinct keys at every
nesting level (induction on fuel). -/
theorem parse_wf : ∀ f : Nat,
    (∀ cs p, parseVal f cs = some p → wellFormed p.1 = true) ∧
    (∀ cs p, parseElems f cs = some p → wfList p.1 = true) ∧
    (∀ cs p, parseMembers f cs = some p → wfEntries p.1 = true) := by
  intro f
  induction f with
  | zero =>
    refine ⟨fun cs p h => ?_, fun cs p h => ?_, fun cs p h => ?_⟩
    · simp [parseVal] at h
    · simp [parseElems] at h
    · simp [parseMembers] at h
  | succ f ihf =>
    obtain ⟨ih1, ih2, ih3⟩ := ihf
    refine ⟨fun cs p h => ?_, fun cs p h => ?_, fun cs p h => ?_⟩
    · rw [parseVal.eq_def] at h
      dsimp only at h
      split at h
      · cases h
      · rename_i c rest hsk
        by_cases h1 : c = 'n'
        · rw [if_pos h1] at h
          split at h
          · cases h
            simp [wellFormed]
          · cases h
        · rw [if_neg h1] at h
          by_cases h2 : c = 't'
          · rw [if_pos h2] at h
            split at h
            · cases h
              simp [wellFormed]
            · cases h
          · rw [if_neg h2] at h
            by_cases h3 : c = 'f'
            · rw [if_pos h3] at h
              split at h
              · cases h
                simp [wellFormed]
              · cases h
            · rw [if_neg h3] at h
              by_cases h4 : c = '"'
              · rw [if_pos h4] at h
                rcases hps : parseStringBody rest with _ | q
                · rw [hps] at h
                  cases h
                · rw [hps] at h
                  cases h
                  simp [wellFormed]
              · rw [if_neg h4] at h
                by_cases h5 : c = '['
                · rw [if_pos h5] at h
                  split at h
                  · rcases hpe : parseElems f rest with _ | q
                    · rw [hpe] at h
                      cases h
                    · rw [hpe] at h
                      cases h
                      have hq := ih2 rest q hpe
                      simp [wellFormed, hq]
                  · split at h
                    · cases h
                      simp [wellFormed, wfList]
                    · rcases hpe : parseElems f rest with _ | q
                      · rw [hpe] at h
                        cases h
                      · rw [hpe] at h
                        cases h
                        have hq := ih2 rest q hpe
                        simp [wellFormed, hq]
                · rw [if_neg h5] at h
                  by_cases h6 : c = '\x7b'
                  · rw [if_pos h6] at h
                    split at h
                    · rcases hpm : parseMembers f rest with _ | q
                      · rw [hpm] at h
                        cases h
                      · rw [hpm] at h
                        cases h
                        exact wellFormed_buildObj q.1
                          (fun kv hm => wfEntries_mem (ih3 rest q hpm) hm)
                    · split at h
                      · cases h
                        simp [wellFormed, wfEntries, nodupKeysB]
                      · rcases hpm : parseMembers f rest with _ | q
                        · rw [hpm] at h
                          cases h
                        · rw [hpm] at h
                          cases h
                          exact wellFormed_buildObj q.1
                            (fun kv hm => wfEntries_mem (ih3 rest q hpm) hm)
                  · rw [if_neg h6] at h
                    by_cases h7 : c = '-'
                    · rw [if_pos h7] at h
                      split at h
                      · cases h
                      · cases h
                        simp [wellFormed]
                    · rw [if_neg h7] at h
                      split at h
                      · cases h
                        simp [wellFormed]
                      · cases h
    · rw [parseElems.eq_def] at h
      dsimp only at h
      split at h
      · cases h
      · rename_i v r hpv
        split at h
        · rename_i r2 hsk
          split at h
          · cases h
          · rename_i vs r3 hpe
            cases h
            rw [wfList]
            simp [ih1 cs (v, r) hpv, ih2 r2 (vs, r3) hpe]
        · rename_i r2 hsk
          cases h
          rw [wfList]
          simp [ih1 cs (v, r) hpv, wfList]
        · cases h
    · rw [parseMembers.eq_def] at h
      dsimp only at h
      split at h
      · rename_i r hsk
        split at h
        · cases h
        · rename_i kChars r1 hsb
          split at h
          · rename_i r2 hsk2
            split at h
            · cases h
            · rename_i v r3 hpv
              split at h
              · rename_i r4 hsk3
                split at h
                · cases h
                · rename_i ms r5 hpm
                  cases h
                  rw [wfEntries]
                  simp [ih1 r2 (v, r3) hpv, ih3 r4 (ms, r5) hpm]
              · rename_i r4 hsk3
                cases h
                rw [wfEntries]
                simp [ih1 r2 (v, r3) hpv, wfEntries]
              · cases h
          · cases h
      · cases h

/-- A successfully parsed document is well-formed. -/
theorem parseJson_wellFormed {s : String} {v : Value} (h : parseJson s = some v) :
    wellFormed v = true := by
  rw [parseJson] at h
  split at h
  · rename_i v0 rest hpv
    split at h
    · cases h
      exact (parse_wf _).1 _ _ hpv
    · cases h
  · cases h

/-- C5: for every parsed JSON value and every formatter option combination
(any indent width, sort-keys on or off, compact on or off), parsing the
formatted text succeeds and yields a value deeply equal (up to object key
order) to the original. -/
theorem claim_C5_roundtrip (s : String) (v : Value) (o : FormatOptions)
    (h : parseJson s = some v) :
    ∃ w, parseJson (formatValue v o) = some w ∧ deepEqual v w = true := by
  have hwf : wellFormed v = true := parseJson_wellFormed h
  rw [formatValue]
  by_cases hc : o.compact = true
  · rw [if_pos hc]
    exact ⟨v, parseJson_tok hwf (renderCompact_tok.1 v), deepEqual_refl v hwf⟩
  · rw [if_neg hc]
    by_cases hs : o.sortKeys = true
    · rw [if_pos hs]
      exact ⟨sortObjectKeys v,
        parseJson_tok (wellFormed_sortObjectKeys v hwf)
          ((renderPretty_tok o.indentWidth).1 (sortObjectKeys v) 0),
        deepEqual_sortObjectKeys v hwf⟩
    · rw [if_neg hs]
      exact ⟨v, parseJson_tok hwf ((renderPretty_tok o.indentWidth).1 v 0),
        deepEqual_refl v hwf⟩

/-- C5 witness: the round trip at a concrete parsed document holding a
number and a two-key object inside an array, with indent 2, sort-keys on,
compact off. -/
theorem claim_C5_witness :
    parseJson "[1,\x7b\"b\":2,\"a\":null\x7d]" =
      some (.arr [.num 1, .obj [("b", .num 2), ("a", .null)]]) ∧
    ∃ w, parseJson (formatValue (.arr [.num 1, .obj [("b", .num 2), ("a", .null)]])
        ⟨2, true, false⟩) = some w ∧
      deepEqual (.arr [.num 1, .obj [("b", .num 2), ("a", .null)]]) w = true :=
  ⟨rfl, claim_C5_roundtrip "[1,\x7b\"b\":2,\"a\":null\x7d]"
    (.arr [.num 1, .obj [("b", .num 2), ("a", .null)]]) ⟨2, true, false⟩ rfl⟩

/-- One step of a node address: an object key or an array index. -/
inductive Seg where
  | key (k : String)
  | idx (i : Nat)
deriving DecidableEq

/-- The characters that open a new path segment. -/
def keySepChar (c : Char) : Bool := c = '.' || c = '['

/-- A key over which the path syntax is unambiguous: nonempty and free of
the segment-opening characters. -/
def cleanKey (k : String) : Bool :=
  !k.data.isEmpty && k.data.all (fun c => !keySepChar c)

/-- Segment cleanliness: indices are always clean. -/
def cleanSeg : Seg → Bool
  | .key k => cleanKey k
  | .idx _ => true

/-- Address cleanliness. -/
def cleanSegsL (a : List Seg) : Bool := a.all cleanSeg

/-- Render an address as the path suffix appended below an existing
non-root path: each key contributes a dot and the key, each index
contributes a bracketed decimal. -/
def sufRender : List Seg → List Char
  | [] => []
  | .key k :: r => '.' :: (k.data ++ sufRender r)
  | .idx i :: r => '[' :: (natReprL i ++ ']' :: sufRender r)

/-- Render an address from the root: the first key has no leading dot. -/
def topRender : List Seg → List Char
  | [] => []
  | .key k :: r => k.data ++ sufRender r
  | .idx i :: r => '[' :: (natReprL i ++ ']' :: sufRender r)

/-- The materializer path of the node at address `a` below the row path
`p`. -/
def renderAddrM (p : String) (a : List Seg) : String :=
  if p = "" then ⟨topRender a⟩ else ⟨p.data ++ sufRender a⟩

/-- The diff path of the node at address `a` below the diff path `p`: the
empty address at the root is reported as root. -/
def renderAddrD (p : String) (a : List Seg) : String :=
  match a with
  | [] => orRoot p
  | _ => renderAddrM p a

/-- Decimal renderings are injective. -/
theorem natReprL_inj {i j : Nat} (h : natReprL i = natReprL j) : i = j := by
  have hi := digitsToNat_natReprL i
  have hj := digitsToNat_natReprL j
  rw [← hi, ← hj, h]

/-- Splitting a concatenation at the first bad character is unambiguous:
two good runs followed by bad-headed (or empty) tails that concatenate to
the same list are equal part by part. -/
theorem token_split (bad : Char → Bool) :
    ∀ (u1 u2 t1 t2 : List Char),
      (∀ c ∈ u1, bad c = false) → (∀ c ∈ u2, bad c = false) →
      (∀ c r, t1 = c :: r → bad c = true) → (∀ c r, t2 = c :: r → bad c = true) →
      u1 ++ t1 = u2 ++ t2 → u1 = u2 ∧ t1 = t2 := by
  intro u1
  induction u1 with
  | nil =>
    intro u2 t1 t2 hu1 hu2 ht1 ht2 he
    cases u2 with
    | nil => exact ⟨rfl, he⟩
    | cons c u2' =>
      rw [List.nil_append, List.cons_append] at he
      have hbad := ht1 c _ he
      have hgood := hu2 c (List.mem_cons_self _ _)
      rw [hbad] at hgood
      cases hgood
  | cons c u1' ih =>
    intro u2 t1 t2 hu1 hu2 ht1 ht2 he
    cases u2 with
    | nil =>
      rw [List.nil_append, List.cons_append] at he
      have hbad := ht2 c _ he.symm
      have hgood := hu1 c (List.mem_cons_self _ _)
      rw [hbad] at hgood
      cases hgood
    | cons c2 u2' =>
      simp only [List.cons_append, List.cons.injEq] at he
      obtain ⟨rfl, he2⟩ := he
      obtain ⟨h1, h2⟩ := ih u2' t1 t2 (fun x hx => hu1 x (List.mem_cons_of_mem _ hx))
        (fun x hx => hu2 x (List.mem_cons_of_mem _ hx)) ht1 ht2 he2
      exact ⟨by rw [h1], h2⟩

/-- A nonempty suffix rendering starts with a segment opener. -/
theorem sufRender_head :
    ∀ (a : List Seg) (c : Char) (r : List Char),
      sufRender a = c :: r → keySepChar c = true := by
  intro a c r he
  match a with
  | [] => cases he
  | .key k :: rest =>
    rw [sufRender] at he
    rw [← (List.cons.injEq _ _ _ _).mp he |>.1]
    decide
  | .idx i :: rest =>
    rw [sufRender] at he
    rw [← (List.cons.injEq _ _ _ _).mp he |>.1]
    decide

/-- The digit run of a decimal rendering contains no bad character for the
digit splitter. -/
theorem natReprL_digit_good (i : Nat) :
    ∀ c ∈ natReprL i, (!(48 ≤ c.toNat && c.toNat ≤ 57)) = false := by
  intro c hc
  have h := natReprL_digits i c hc
  simp only [Bool.not_eq_false', Bool.and_eq_true, decide_eq_true_eq]
  omega

/-- Suffix renderings of clean addresses are injective. -/
theorem sufRender_inj :
    ∀ (a b : List Seg), cleanSegsL a = true → cleanSegsL b = true →
      sufRender a = sufRender b → a = b := by
  intro a
  induction a with
  | nil =>
    intro b _ _ he
    cases b with
    | nil => rfl
    | cons s r => cases s <;> simp [sufRender] at he
  | cons s r ih =>
    intro b hcla hclb he
    simp only [cleanSegsL, List.all_cons, Bool.and_eq_true] at hcla
    cases b with
    | nil => cases s <;> simp [sufRender] at he
    | cons s2 r2 =>
      simp only [cleanSegsL, List.all_cons, Bool.and_eq_true] at hclb
      cases s with
      | key k1 =>
        cases s2 with
        | key k2 =>
          rw [sufRender, sufRender] at he
          simp only [List.cons.injEq, true_and] at he
          have hk1 : cleanKey k1 = true := hcla.1
          have hk2 : cleanKey k2 = true := hclb.1
          rw [cleanKey, Bool.and_eq_true, List.all_eq_true] at hk1 hk2
          have hsp := token_split keySepChar k1.data k2.data (sufRender r) (sufRender r2)
            (fun c hc => by simpa using hk1.2 c hc)
            (fun c hc => by simpa using hk2.2 c hc)
            (sufRender_head r) (sufRender_head r2) he
          have hk : k1 = k2 := by
            cases k1
            cases k2
            exact congrArg String.mk hsp.1
          rw [hk, ih r2 hcla.2 hclb.2 hsp.2]
        | idx i2 => simp [sufRender] at he
      | idx i1 =>
        cases s2 with
        | key k2 => simp [sufRender] at he
        | idx i2 =>
          rw [sufRender, sufRender] at he
          simp only [List.cons.injEq, true_and] at he
          have hsp := token_split (fun c => !(48 ≤ c.toNat && c.toNat ≤ 57))
            (natReprL i1) (natReprL i2) (']' :: sufRender r) (']' :: sufRender r2)
            (natReprL_digit_good i1) (natReprL_digit_good i2)
            (fun c rr hcr => by rw [← (List.cons.injEq _ _ _ _).mp hcr |>.1]; decide)
            (fun c rr hcr => by rw [← (List.cons.injEq _ _ _ _).mp hcr |>.1]; decide) he
          have hi : i1 = i2 := natReprL_inj hsp.1
          have ht : sufRender r = sufRender r2 := by
            have := hsp.2
            simpa using this
          rw [hi, ih r2 hcla.2 hclb.2 ht]

/-- Top renderings of clean addresses are injective. -/
theorem topRender_inj :
    ∀ (a b : List Seg), cleanSegsL a = true → cleanSegsL b = true →
      topRender a = topRender b → a = b := by
  intro a b hcla hclb he
  match a, b with
  | [], [] => rfl
  | [], .key k2 :: r2 =>
    exfalso
    rw [topRender, topRender] at he
    simp only [cleanSegsL, List.all_cons, Bool.and_eq_true] at hclb
    have hk2 : cleanKey k2 = true := hclb.1
    rw [cleanKey, Bool.and_eq_true] at hk2
    rcases hd : k2.data with _ | ⟨c, cs⟩
    · rw [hd] at hk2
      simp at hk2
    · rw [hd] at he
      cases he
  | [], .idx i2 :: r2 =>
    rw [topRender, topRender] at he
    cases he
  | .key k1 :: r1, [] =>
    exfalso
    rw [topRender, topRender] at he
    simp only [cleanSegsL, List.all_cons, Bool.and_eq_true] at hcla
    have hk1 : cleanKey k1 = true := hcla.1
    rw [cleanKey, Bool.and_eq_true] at hk1
    rcases hd : k1.data with _ | ⟨c, cs⟩
    · rw [hd] at hk1
      simp at hk1
    · rw [hd] at he
      cases he
  | .idx i1 :: r1, [] =>
    rw [topRender, topRender] at he
    cases he
  | .key k1 :: r1, .key k2 :: r2 =>
    rw [topRender, topRender] at he
    simp only [cleanSegsL, List.all_cons, Bool.and_eq_true] at hcla hclb
    have hk1 : cleanKey k1 = true := hcla.1
    have hk2 : cleanKey k2 = true := hclb.1
    rw [cleanKey, Bool.and_eq_true, List.all_eq_true] at hk1 hk2
    have hsp := token_split keySepChar k1.data k2.data (sufRender r1) (sufRender r2)
      (fun c hc => by simpa using hk1.2 c hc)
      (fun c hc => by simpa using hk2.2 c hc)
      (sufRender_head r1) (sufRender_head r2) he
    have hk : k1 = k2 := by
      cases k1
      cases k2
      exact congrArg String.mk hsp.1
    rw [hk, sufRender_inj r1 r2 hcla.2 hclb.2 hsp.2]
  | .key k1 :: r1, .idx i2 :: r2 =>
    exfalso
    rw [topRender, topRender] at he
    simp only [cleanSegsL, List.all_cons, Bool.and_eq_true] at hcla
    have hk1 : cleanKey k1 = true := hcla.1
    rw [cleanKey, Bool.and_eq_true, List.all_eq_true] at hk1
    rcases hd : k1.data with _ | ⟨c, cs⟩
    · rw [hd] at hk1
      simp at hk1
    · rw [hd, List.cons_append] at he
      have hc := hk1.2 c (by rw [hd]; exact List.mem_cons_self _ _)
      rw [(List.cons.injEq _ _ _ _).mp he |>.1] at hc
      simp [keySepChar] at hc
  | .idx i1 :: r1, .key k2 :: r2 =>
    exfalso
    rw [topRender, topRender] at he
    simp only [cleanSegsL, List.all_cons, Bool.and_eq_true] at hclb
    have hk2 : cleanKey k2 = true := hclb.1
    rw [cleanKey, Bool.and_eq_true, List.all_eq_true] at hk2
    rcases hd : k2.data with _ | ⟨c, cs⟩
    · rw [hd] at hk2
      simp at hk2
    · rw [hd, List.cons_append] at he
      have hc := hk2.2 c (by rw [hd]; exact List.mem_cons_self _ _)
      rw [← (List.cons.injEq _ _ _ _).mp he |>.1] at hc
      simp [keySepChar] at hc
  | .idx i1 :: r1, .idx i2 :: r2 =>
    rw [topRender, topRender] at he
    simp only [List.cons.injEq, true_and] at he
    simp only [cleanSegsL, List.all_cons, Bool.and_eq_true] at hcla hclb
    have hsp := token_split (fun c => !(48 ≤ c.toNat && c.toNat ≤ 57))
      (natReprL i1) (natReprL i2) (']' :: sufRender r1) (']' :: sufRender r2)
      (natReprL_digit_good i1) (natReprL_digit_good i2)
      (fun c rr hcr => by rw [← (List.cons.injEq _ _ _ _).mp hcr |>.1]; decide)
      (fun c rr hcr => by rw [← (List.cons.injEq _ _ _ _).mp hcr |>.1]; decide) he
    have hi : i1 = i2 := natReprL_inj hsp.1
    have ht : sufRender r1 = sufRender r2 := by
      have := hsp.2
      simpa using this
    rw [hi, sufRender_inj r1 r2 hcla.2 hclb.2 ht]

/-- Materializer address rendering is injective on clean addresses. -/
theorem renderAddrM_inj {p : String} {a b : List Seg} (ha : cleanSegsL a = true)
    (hb : cleanSegsL b = true) (he : renderAddrM p a = renderAddrM p b) : a = b := by
  rw [renderAddrM, renderAddrM] at he
  split at he
  · exact topRender_inj a b ha hb (congrArg String.data he)
  · have h2 : p.data ++ sufRender a = p.data ++ sufRender b := congrArg String.data he
    exact sufRender_inj a b ha hb (List.append_cancel_left h2)

mutual

/-- Every object key in the value is clean: nonempty and free of the
path-syntax characters dot and opening bracket. -/
def cleanKeysV : Value → Bool
  | .arr l => cleanKeysL l
  | .obj kvs => (kvs.map Prod.fst).all cleanKey && cleanKeysE kvs
  | _ => true
termination_by v => sizeOf v

/-- Clean keys in every element. -/
def cleanKeysL : List Value → Bool
  | [] => true
  | v :: rest => cleanKeysV v && cleanKeysL rest
termination_by l => sizeOf l

/-- Clean keys in every entry value. -/
def cleanKeysE : List (String × Value) → Bool
  | [] => true
  | (_, v) :: rest => cleanKeysV v && cleanKeysE rest
termination_by l => sizeOf l

end

mutual

/-- The addresses of the non-container (leaf) nodes of a value, in document
order, relative to the value itself. -/
def leafAddrs : Value → List (List Seg)
  | .arr l => leafAddrsItems l 0
  | .obj kvs => leafAddrsEntries kvs
  | _ => [[]]
termination_by v => sizeOf v

/-- Leaf addresses of the elements from running index `i` on. -/
def leafAddrsItems : List Value → Nat → List (List Seg)
  | [], _ => []
  | v :: rest, i => (leafAddrs v).map (fun a => Seg.idx i :: a) ++ leafAddrsItems rest (i + 1)
termination_by l _ => sizeOf l

/-- Leaf addresses of the entries. -/
def leafAddrsEntries : List (String × Value) → List (List Seg)
  | [] => []
  | (k, v) :: rest => (leafAddrs v).map (fun a => Seg.key k :: a) ++ leafAddrsEntries rest
termination_by l => sizeOf l

end

/-- The leaf addresses the object loop of the diff engine visits: one block
per key in order, each block the leaf addresses of the looked-up member. -/
def leafAddrsOfKeys : List String → List (String × Value) → List (List Seg)
  | [], _ => []
  | k :: ks, kvs =>
    (match lookupKey k kvs with
     | some v => (leafAddrs v).map (fun a => Seg.key k :: a)
     | none => []) ++ leafAddrsOfKeys ks kvs

/-- A scalar has exactly the empty address. -/
theorem leafAddrs_scalar {v : Value} (h : v.isScalar = true) : leafAddrs v = [[]] := by
  cases v <;> first
    | (rw [leafAddrs.eq_def]; done)
    | simp [Value.isScalar] at h

/-- A string is empty iff its character list is. -/
theorem str_eq_empty_iff (s : String) : s = "" ↔ s.data = [] := by
  cases s
  exact ⟨fun h => congrArg String.data h, fun h => congrArg String.mk h⟩

/-- A clean key is nonempty. -/
theorem cleanKey_ne_empty {k : String} (h : cleanKey k = true) : k ≠ "" := by
  rw [cleanKey, Bool.and_eq_true] at h
  intro he
  rw [(str_eq_empty_iff k).mp he] at h
  simp at h

/-- The character list of a dotted child path. -/
theorem childPath_data_ne {p : String} (hp : p ≠ "") (k : String) :
    (childPath p k).data = p.data ++ '.' :: k.data := by
  rw [childPath, if_neg hp]
  simp [String.data_append]

/-- A dotted or root-level child path under a nonempty key is nonempty. -/
theorem childPath_ne_empty {k : String} (hk : k ≠ "") (p : String) : childPath p k ≠ "" := by
  rw [childPath]
  split
  · exact hk
  · intro he
    have h2 := congrArg String.data he
    simp [String.data_append] at h2

/-- The character list of an indexed item path. -/
theorem itemPath_data (p : String) (i : Nat) :
    (itemPath p i).data = p.data ++ '[' :: (natReprL i ++ [']']) := by
  rw [itemPath]
  simp [String.data_append, natRepr]

/-- The empty address renders as the base path itself. -/
theorem renderAddrM_nil (p : String) : renderAddrM p [] = p := by
  rw [renderAddrM]
  split
  · rename_i hp
    rw [hp]
    rfl
  · rw [sufRender, List.append_nil]

/-- Rendering below a path commutes with stepping into an object member. -/
theorem renderAddrM_key (p : String) {k : String} (hk : k ≠ "") (a : List Seg) :
    renderAddrM p (.key k :: a) = renderAddrM (childPath p k) a := by
  by_cases hp : p = ""
  · subst hp
    rw [childPath, if_pos rfl, renderAddrM, if_pos rfl, renderAddrM, if_neg hk, topRender]
  · have hne : childPath p k ≠ "" := childPath_ne_empty hk p
    rw [renderAddrM, if_neg hp, renderAddrM, if_neg hne]
    apply congrArg String.mk
    rw [sufRender, childPath_data_ne hp]
    simp

/-- Rendering below a path commutes with stepping into an array item. -/
theorem renderAddrM_idx (p : String) (i : Nat) (a : List Seg) :
    renderAddrM p (.idx i :: a) = renderAddrM (itemPath p i) a := by
  have hne : itemPath p i ≠ "" := itemPath_ne_empty p i
  by_cases hp : p = ""
  · subst hp
    rw [renderAddrM, if_pos rfl, renderAddrM, if_neg hne, topRender]
    apply congrArg String.mk
    rw [itemPath_data]
    simp
  · rw [renderAddrM, if_neg hp, renderAddrM, if_neg hne]
    apply congrArg String.mk
    rw [sufRender, itemPath_data]
    simp

/-- Diff rendering of the empty address is the root-defaulted path. -/
theorem renderAddrD_nil (p : String) : renderAddrD p [] = orRoot p := by
  rw [renderAddrD]

/-- Diff rendering commutes with stepping into an object member. -/
theorem renderAddrD_key (p : String) {k : String} (hk : k ≠ "") (a : List Seg) :
    renderAddrD p (.key k :: a) = renderAddrD (childPath p k) a := by
  cases a with
  | nil =>
    show renderAddrM p [.key k] = orRoot (childPath p k)
    rw [renderAddrM_key p hk [], renderAddrM_nil, orRoot, if_neg (childPath_ne_empty hk p)]
  | cons s r =>
    show renderAddrM p (.key k :: s :: r) = renderAddrM (childPath p k) (s :: r)
    exact renderAddrM_key p hk (s :: r)

/-- Diff rendering commutes with stepping into an array item. -/
theorem renderAddrD_idx (p : String) (i : Nat) (a : List Seg) :
    renderAddrD p (.idx i :: a) = renderAddrD (itemPath p i) a := by
  cases a with
  | nil =>
    show renderAddrM p [.idx i] = orRoot (itemPath p i)
    rw [renderAddrM_idx p i [], renderAddrM_nil, orRoot, if_neg (itemPath_ne_empty p i)]
  | cons s r =>
    show renderAddrM p (.idx i :: s :: r) = renderAddrM (itemPath p i) (s :: r)
    exact renderAddrM_idx p i (s :: r)

/-- A successful lookup means the key occurs in the key list. -/
theorem lookupKey_mem_keys :
    ∀ {l : List (String × Value)} {k : String} {v : Value},
      lookupKey k l = some v → k ∈ l.map Prod.fst := by
  intro l
  induction l with
  | nil =>
    intro k v h
    simp [lookupKey] at h
  | cons kv rest ih =>
    obtain ⟨k2, w⟩ := kv
    intro k v h
    rw [lookupKey] at h
    split at h
    · rename_i he
      rw [List.map_cons, he]
      exact List.mem_cons_self _ _
    · exact List.mem_cons_of_mem _ (ih h)

/-- A successful lookup in a clean entry list yields a clean value. -/
theorem cleanKeysE_lookup :
    ∀ {l : List (String × Value)} {k : String} {v : Value},
      cleanKeysE l = true → lookupKey k l = some v → cleanKeysV v = true := by
  intro l
  induction l with
  | nil =>
    intro k v _ h
    simp [lookupKey] at h
  | cons kv rest ih =>
    obtain ⟨k2, w⟩ := kv
    intro k v hcl hl
    rw [cleanKeysE] at hcl
    simp only [Bool.and_eq_true] at hcl
    rw [lookupKey] at hl
    split at hl
    · cases hl
      exact hcl.1
    · exact ih hcl.2 hl

/-- Every member value of a clean entry list is clean. -/
theorem cleanKeysE_mem :
    ∀ {l : List (String × Value)} {kv : String × Value},
      cleanKeysE l = true → kv ∈ l → cleanKeysV kv.2 = true := by
  intro l
  induction l with
  | nil =>
    intro kv _ h
    simp at h
  | cons hd rest ih =>
    obtain ⟨k2, w⟩ := hd
    intro kv hcl hm
    rw [cleanKeysE] at hcl
    simp only [Bool.and_eq_true] at hcl
    rcases List.mem_cons.mp hm with rfl | hm2
    · exact hcl.1
    · exact ih hcl.2 hm2

/-- Every element of a clean element list is clean. -/
theorem cleanKeysL_mem :
    ∀ {l : List Value} {v : Value}, cleanKeysL l = true → v ∈ l → cleanKeysV v = true := by
  intro l
  induction l with
  | nil =>
    intro v _ h
    simp at h
  | cons x rest ih =>
    intro v hcl hm
    rw [cleanKeysL] at hcl
    simp only [Bool.and_eq_true] at hcl
    rcases List.mem_cons.mp hm with rfl | hm2
    · exact hcl.1
    · exact ih hcl.2 hm2

/-- Unfolding of leaf addresses on an array. -/
theorem leafAddrs_arr (l : List Value) : leafAddrs (.arr l) = leafAddrsItems l 0 := by
  rw [leafAddrs.eq_def]

/-- Unfolding of leaf addresses on an object. -/
theorem leafAddrs_obj (kvs : List (String × Value)) :
    leafAddrs (.obj kvs) = leafAddrsEntries kvs := by
  rw [leafAddrs.eq_def]

/-- Unfolding of key cleanliness on an array. -/
theorem cleanKeysV_arr (l : List Value) : cleanKeysV (.arr l) = cleanKeysL l := by
  rw [cleanKeysV.eq_def]

/-- Unfolding of key cleanliness on an object. -/
theorem cleanKeysV_obj (kvs : List (String × Value)) :
    cleanKeysV (.obj kvs) = ((kvs.map Prod.fst).all cleanKey && cleanKeysE kvs) := by
  rw [cleanKeysV.eq_def]

/-- Every address of an element block starts with an index at least the
running index. -/
theorem leafAddrsItems_shape :
    ∀ (l : List Value) (i : Nat) (a : List Seg), a ∈ leafAddrsItems l i →
      ∃ j a2, i ≤ j ∧ a = .idx j :: a2 := by
  intro l
  induction l with
  | nil =>
    intro i a h
    rw [leafAddrsItems] at h
    cases h
  | cons v rest ih =>
    intro i a h
    rw [leafAddrsItems] at h
    rcases List.mem_append.mp h with h2 | h2
    · obtain ⟨a2, _, rfl⟩ := List.mem_map.mp h2
      exact ⟨i, a2, le_rfl, rfl⟩
    · obtain ⟨j, a2, hj, rfl⟩ := ih (i + 1) a h2
      exact ⟨j, a2, by omega, rfl⟩

/-- Every address of an entry block starts with one of the keys. -/
theorem leafAddrsEntries_shape :
    ∀ (kvs : List (String × Value)) (a : List Seg), a ∈ leafAddrsEntries kvs →
      ∃ k a2, k ∈ kvs.map Prod.fst ∧ a = .key k :: a2 := by
  intro kvs
  induction kvs with
  | nil =>
    intro a h
    rw [leafAddrsEntries] at h
    cases h
  | cons kv rest ih =>
    obtain ⟨k0, v0⟩ := kv
    intro a h
    rw [leafAddrsEntries] at h
    rcases List.mem_append.mp h with h2 | h2
    · obtain ⟨a2, _, rfl⟩ := List.mem_map.mp h2
      exact ⟨k0, a2, List.mem_cons_self _ _, rfl⟩
    · obtain ⟨k, a2, hk, rfl⟩ := ih a h2
      exact ⟨k, a2, List.mem_cons_of_mem _ hk, rfl⟩

/-- Every leaf address of a container is nonempty. -/
theorem leafAddrs_nonempty {v : Value} (hs : v.isScalar = false) :
    ∀ a ∈ leafAddrs v, a ≠ [] := by
  intro a ha
  cases v with
  | arr l =>
    rw [leafAddrs_arr] at ha
    obtain ⟨j, a2, _, rfl⟩ := leafAddrsItems_shape l 0 a ha
    simp
  | obj kvs =>
    rw [leafAddrs_obj] at ha
    obtain ⟨k, a2, _, rfl⟩ := leafAddrsEntries_shape kvs a ha
    simp
  | null => simp [Value.isScalar] at hs
  | bool b => simp [Value.isScalar] at hs
  | num n => simp [Value.isScalar] at hs
  | str s => simp [Value.isScalar] at hs

/-- Leaf addresses of a well-formed clean value are clean and pairwise
distinct (joint statement, strong induction on size). -/
theorem leafAddrs_props : ∀ N : Nat,
    (∀ v, sizeOf v ≤ N → wellFormed v = true → cleanKeysV v = true →
      (∀ a ∈ leafAddrs v, cleanSegsL a = true) ∧ (leafAddrs v).Nodup) ∧
    (∀ l : List Value, sizeOf l ≤ N → wfList l = true → cleanKeysL l = true → ∀ i,
      (∀ a ∈ leafAddrsItems l i, cleanSegsL a = true) ∧ (leafAddrsItems l i).Nodup) ∧
    (∀ kvs : List (String × Value), sizeOf kvs ≤ N → wfEntries kvs = true →
      nodupKeysB (kvs.map Prod.fst) = true →
      (kvs.map Prod.fst).all cleanKey = true → cleanKeysE kvs = true →
      (∀ a ∈ leafAddrsEntries kvs, cleanSegsL a = true) ∧ (leafAddrsEntries kvs).Nodup) := by
  intro N
  induction N using Nat.strong_induction_on with
  | _ N ih =>
    refine ⟨?_, ?_, ?_⟩
    · intro v hN hwf hcl
      match v with
      | .null | .bool _ | .num _ | .str _ =>
        rw [leafAddrs_scalar (by rfl)]
        exact ⟨fun a ha => by rcases List.mem_singleton.mp ha with rfl; rfl,
          List.nodup_singleton _⟩
      | .arr l =>
        rw [leafAddrs_arr]
        rw [wellFormed] at hwf
        rw [cleanKeysV_arr] at hcl
        simp only [Value.arr.sizeOf_spec] at hN
        exact (ih (sizeOf l) (by omega)).2.1 l le_rfl hwf hcl 0
      | .obj kvs =>
        rw [leafAddrs_obj]
        rw [wellFormed] at hwf
        rw [cleanKeysV_obj] at hcl
        simp only [Bool.and_eq_true] at hwf hcl
        simp only [Value.obj.sizeOf_spec] at hN
        exact (ih (sizeOf kvs) (by omega)).2.2 kvs le_rfl hwf.2 hwf.1 hcl.1 hcl.2
    · intro l hN hwf hcl i
      match l with
      | [] =>
        rw [leafAddrsItems]
        exact ⟨fun a ha => absurd ha (List.not_mem_nil a), List.nodup_nil⟩
      | v :: rest =>
        rw [leafAddrsItems]
        rw [wfList] at hwf
        rw [cleanKeysL] at hcl
        simp only [Bool.and_eq_true] at hwf hcl
        simp only [List.cons.sizeOf_spec] at hN
        have hv := (ih (sizeOf v) (by have := one_le_sizeOf_vlist rest; omega)).1 v le_rfl
          hwf.1 hcl.1
        have hr := (ih (sizeOf rest) (by have := one_le_sizeOf_val v; omega)).2.1 rest le_rfl
          hwf.2 hcl.2 (i + 1)
        constructor
        · intro a ha
          rcases List.mem_append.mp ha with h2 | h2
          · obtain ⟨a2, ha2, rfl⟩ := List.mem_map.mp h2
            have := hv.1 a2 ha2
            simp [cleanSegsL, cleanSeg] at this ⊢
            exact this
          · exact hr.1 a h2
        · refine List.Nodup.append ?_ hr.2 ?_
          · exact hv.2.map (fun a1 a2 h12 => by injection h12)
          · intro a h1 h2
            obtain ⟨a2, _, rfl⟩ := List.mem_map.mp h1
            obtain ⟨j, a3, hj, he⟩ := leafAddrsItems_shape rest (i + 1) _ h2
            injection he with e1 _
            injection e1 with e2
            omega
    · intro kvs hN hwf hnd hkc hcl
      match kvs with
      | [] =>
        rw [leafAddrsEntries]
        exact ⟨fun a ha => absurd ha (List.not_mem_nil a), List.nodup_nil⟩
      | (k0, v0) :: rest =>
        rw [leafAddrsEntries]
        rw [wfEntries] at hwf
        rw [cleanKeysE] at hcl
        simp only [List.map_cons, List.all_cons, nodupKeysB, Bool.and_eq_true,
          Bool.not_eq_true'] at hwf hcl hkc hnd
        simp only [List.cons.sizeOf_spec, Prod.mk.sizeOf_spec] at hN
        have hv := (ih (sizeOf v0) (by have := one_le_sizeOf_elist rest; omega)).1 v0 le_rfl
          hwf.1 hcl.1
        have hr := (ih (sizeOf rest) (by have := one_le_sizeOf_val v0; omega)).2.2 rest le_rfl
          hwf.2 hnd.2 hkc.2 hcl.2
        have hk0 : k0 ∉ rest.map Prod.fst := fun hm => by
          rw [contains_of_mem hm] at hnd
          cases hnd.1
        constructor
        · intro a ha
          rcases List.mem_append.mp ha with h2 | h2
          · obtain ⟨a2, ha2, rfl⟩ := List.mem_map.mp h2
            have := hv.1 a2 ha2
            simp [cleanSegsL, cleanSeg] at this ⊢
            exact ⟨hkc.1, this⟩
          · exact hr.1 a h2
        · refine List.Nodup.append ?_ hr.2 ?_
          · exact hv.2.map (fun a1 a2 h12 => by injection h12)
          · intro a h1 h2
            obtain ⟨a2, _, rfl⟩ := List.mem_map.mp h1
            obtain ⟨k, a3, hk, he⟩ := leafAddrsEntries_shape rest _ h2
            injection he with e1 _
            injection e1 with e2
            rw [e2] at hk0
            exact hk0 hk

/-- The keywise address list only depends on the lookups of its keys. -/
theorem leafAddrsOfKeys_congr :
    ∀ (ks : List String) (kvs1 kvs2 : List (String × Value)),
      (∀ k ∈ ks, lookupKey k kvs1 = lookupKey k kvs2) →
      leafAddrsOfKeys ks kvs1 = leafAddrsOfKeys ks kvs2 := by
  intro ks
  induction ks with
  | nil =>
    intro _ _ _
    rfl
  | cons k ks ih =>
    intro kvs1 kvs2 h
    rw [leafAddrsOfKeys, leafAddrsOfKeys, h k (List.mem_cons_self _ _),
      ih kvs1 kvs2 (fun x hx => h x (List.mem_cons_of_mem _ hx))]

/-- Visiting a distinct-keyed object's own keys collects exactly the
entrywise leaf addresses. -/
theorem leafAddrsOfKeys_self :
    ∀ {kvs : List (String × Value)}, nodupKeysB (kvs.map Prod.fst) = true →
      leafAddrsOfKeys (kvs.map Prod.fst) kvs = leafAddrsEntries kvs := by
  intro kvs
  induction kvs with
  | nil =>
    intro _
    rw [leafAddrsEntries]
    rfl
  | cons kv rest ih =>
    obtain ⟨k0, v0⟩ := kv
    intro hnd
    simp only [List.map_cons, nodupKeysB, Bool.and_eq_true, Bool.not_eq_true'] at hnd
    have hl : lookupKey k0 ((k0, v0) :: rest) = some v0 := by
      rw [lookupKey]
      simp
    have hcong : leafAddrsOfKeys (rest.map Prod.fst) ((k0, v0) :: rest) =
        leafAddrsOfKeys (rest.map Prod.fst) rest := by
      apply leafAddrsOfKeys_congr
      intro k hk
      refine lookupKey_cons_ne (fun he => ?_)
      rw [← he] at hk
      rw [contains_of_mem hk] at hnd
      cases hnd.1
    rw [List.map_cons, leafAddrsOfKeys, hl, leafAddrsEntries, hcong, ih hnd.2]

/-- The paths of the records of a self-diff are exactly the rendered leaf
addresses, in order (joint statement over the diff engine's four mutually
recursive functions). -/
theorem diff_self_paths :
    (∀ (left right : Value) (path : String), left = right → wellFormed left = true →
      cleanKeysV left = true →
      (generateSmartJsonDiff left right path).map DiffRecord.path =
        (leafAddrs left).map (renderAddrD path)) ∧
    (∀ (ks : List String) (lkvs rkvs : List (String × Value)) (path : String),
      lkvs = rkvs → wfEntries lkvs = true → (lkvs.map Prod.fst).all cleanKey = true →
      cleanKeysE lkvs = true →
      (diffObjectKeys ks lkvs rkvs path).map DiffRecord.path =
        (leafAddrsOfKeys ks lkvs).map (renderAddrD path)) ∧
    (∀ (lkvs rkvs : List (String × Value)) (path k : String),
      lkvs = rkvs → wfEntries lkvs = true → (lkvs.map Prod.fst).all cleanKey = true →
      cleanKeysE lkvs = true →
      (objectDiffStep lkvs rkvs path k).map DiffRecord.path =
        (match lookupKey k lkvs with
         | some v => (leafAddrs v).map (fun a => Seg.key k :: a)
         | none => []).map (renderAddrD path)) ∧
    (∀ (ls rs : List Value) (path : String) (i : Nat),
      ls = rs → wfList ls = true → cleanKeysL ls = true →
      (diffArrayItems ls rs path i).map DiffRecord.path =
        (leafAddrsItems ls i).map (renderAddrD path)) := by
  refine generateSmartJsonDiff.mutual_induct
    (fun left right path => left = right → wellFormed left = true →
      cleanKeysV left = true →
      (generateSmartJsonDiff left right path).map DiffRecord.path =
        (leafAddrs left).map (renderAddrD path))
    (fun ks lkvs rkvs path => lkvs = rkvs → wfEntries lkvs = true →
      (lkvs.map Prod.fst).all cleanKey = true → cleanKeysE lkvs = true →
      (diffObjectKeys ks lkvs rkvs path).map DiffRecord.path =
        (leafAddrsOfKeys ks lkvs).map (renderAddrD path))
    (fun lkvs rkvs path k => lkvs = rkvs → wfEntries lkvs = true →
      (lkvs.map Prod.fst).all cleanKey = true → cleanKeysE lkvs = true →
      (objectDiffStep lkvs rkvs path k).map DiffRecord.path =
        (match lookupKey k lkvs with
         | some v => (leafAddrs v).map (fun a => Seg.key k :: a)
         | none => []).map (renderAddrD path))
    (fun ls rs path i => ls = rs → wfList ls = true → cleanKeysL ls = true →
      (diffArrayItems ls rs path i).map DiffRecord.path =
        (leafAddrsItems ls i).map (renderAddrD path))
    ?_ ?_ ?_ ?_ ?_ ?_ ?_ ?_ ?_ ?_ ?_ ?_ ?_ ?_ ?_
  · intro left right path hsc hde heq hwf hcl
    rw [generateSmartJsonDiff.eq_def, if_pos hsc, if_pos hde]
    subst heq
    rw [Bool.or_self] at hsc
    rw [leafAddrs_scalar hsc]
    simp [renderAddrD_nil]
  · intro left right path hsc hde heq hwf hcl
    subst heq
    exact absurd (deepEqual_refl _ hwf) hde
  · intro path ls rs hns ih heq hwf hcl
    injection heq with h2
    subst h2
    rw [wellFormed] at hwf
    rw [cleanKeysV_arr] at hcl
    rw [gen_arr_arr, leafAddrs_arr]
    exact ih rfl hwf hcl
  · intro path lkvs rkvs hns ih heq hwf hcl
    injection heq with h2
    subst h2
    rw [wellFormed] at hwf
    rw [cleanKeysV_obj] at hcl
    simp only [Bool.and_eq_true] at hwf hcl
    have hkeys : dedupFirst (lkvs.map Prod.fst ++ lkvs.map Prod.fst) = lkvs.map Prod.fst := by
      rw [dedupFirst_append_self, dedupFirst_eq_self hwf.1]
    have ih2 := ih rfl hwf.2 hcl.1 hcl.2
    rw [hkeys] at ih2
    rw [gen_obj_obj, hkeys, leafAddrs_obj, ← leafAddrsOfKeys_self hwf.1]
    exact ih2
  · intro path left right harr hobj hns heq hwf hcl
    subst heq
    cases left with
    | null => simp [Value.isScalar] at hns
    | bool b => simp [Value.isScalar] at hns
    | num n => simp [Value.isScalar] at hns
    | str s => simp [Value.isScalar] at hns
    | arr l => exact (harr l l rfl rfl).elim
    | obj kvs => exact (hobj kvs kvs rfl rfl).elim
  · intro lkvs rkvs path _ _ _ _
    rw [diffObjectKeys]
    rfl
  · intro k ks lkvs rkvs path ih3 ih2 heq hwf hkc hcl
    have h3 := ih3 heq hwf hkc hcl
    have h2 := ih2 heq hwf hkc hcl
    rw [diffObjectKeys, leafAddrsOfKeys]
    simp only [List.map_append]
    rw [h3, h2]
  · intro lkvs rkvs path k lv rv h1 h2 ih1 heq hwf hkc hcl
    subst heq
    rw [h1] at h2
    injection h2 with h3
    subst h3
    have hwl := wfEntries_lookup hwf h1
    have hcll := cleanKeysE_lookup hcl h1
    have hkclean : cleanKey k = true := by
      rw [List.all_eq_true] at hkc
      exact hkc k (lookupKey_mem_keys h1)
    have hk : k ≠ "" := cleanKey_ne_empty hkclean
    rw [objectDiffStep_both h1 h1, h1]
    rw [ih1 rfl hwl hcll, List.map_map]
    apply List.map_congr_left
    intro a ha
    exact (renderAddrD_key path hk a).symm
  · intro lkvs rkvs path k lv h1 h2 heq hwf hkc hcl
    subst heq
    rw [h1] at h2
    exact absurd h2 (by simp)
  · intro lkvs rkvs path k rv h1 h2 heq hwf hkc hcl
    subst heq
    rw [h1] at h2
    exact absurd h2 (by simp)
  · intro lkvs rkvs path k h1 h2 heq hwf hkc hcl
    rw [objectDiffStep_none h1 h2, h1]
    rfl
  · intro path i _ _ _
    rw [diffArrayItems, leafAddrsItems]
    rfl
  · intro r rs path i _ih heq
    exact absurd heq (by simp)
  · intro l ls path i _ih heq
    exact absurd heq (by simp)
  · intro l ls r rs path i ih1 ih4 heq hwf hcl
    injection heq with e1 e2
    subst e1
    subst e2
    rw [wfList] at hwf
    rw [cleanKeysL] at hcl
    simp only [Bool.and_eq_true] at hwf hcl
    rw [diffArrayItems, leafAddrsItems]
    simp only [List.map_append]
    rw [ih1 rfl hwf.1 hcl.1, ih4 rfl hwf.2 hcl.2, List.map_map]
    congr 1
    apply List.map_congr_left
    intro a ha
    exact (renderAddrD_idx path i a).symm

/-- Cleanliness of a key-extended address. -/
theorem cleanSegsL_key_cons {k : String} {a : List Seg} (hk : cleanKey k = true)
    (ha : cleanSegsL a = true) : cleanSegsL (.key k :: a) = true := by
  simp only [cleanSegsL, List.all_cons, Bool.and_eq_true]
  exact ⟨hk, ha⟩

/-- Cleanliness of an index-extended address. -/
theorem cleanSegsL_idx_cons {i : Nat} {a : List Seg} (ha : cleanSegsL a = true) :
    cleanSegsL (.idx i :: a) = true := by
  simp only [cleanSegsL, List.all_cons, Bool.and_eq_true]
  exact ⟨rfl, ha⟩

/-- The self-diff of a well-formed clean value assigns pairwise distinct
paths to its records. -/
theorem diff_self_paths_nodup (v : Value) (hwf : wellFormed v = true)
    (hcl : cleanKeysV v = true) :
    ((generateSmartJsonDiff v v "").map DiffRecord.path).Nodup := by
  rw [diff_self_paths.1 v v "" rfl hwf hcl]
  rcases hs : v.isScalar with _ | _
  · have hprops := (leafAddrs_props (sizeOf v)).1 v le_rfl hwf hcl
    apply List.Nodup.map_on ?_ hprops.2
    intro a ha b hb he
    have hane := leafAddrs_nonempty hs a ha
    have hbne := leafAddrs_nonempty hs b hb
    have hea : renderAddrD "" a = renderAddrM "" a := by
      cases a with
      | nil => exact absurd rfl hane
      | cons s r => rfl
    have heb : renderAddrD "" b = renderAddrM "" b := by
      cases b with
      | nil => exact absurd rfl hbne
      | cons s r => rfl
    exact renderAddrM_inj (hprops.1 a ha) (hprops.1 b hb) (by rw [← hea, ← heb]; exact he)
  · rw [leafAddrs_scalar hs]
    exact List.nodup_singleton _

/-- The materializer assigns every emitted row a path that renders a clean
address below the row's base path, and distinct rows get distinct paths
(joint statement over the materializer's three mutually recursive
functions, for every expanded-path set). -/
theorem nodes_paths_nodup (E : List String) :
    (∀ (v : Value) (p : String) (l : Nat), wellFormed v = true → cleanKeysV v = true →
      ((parseJsonToNodes E v p l).map JsonNode.path).Nodup ∧
      (∀ q ∈ (parseJsonToNodes E v p l).map JsonNode.path,
        ∃ a, cleanSegsL a = true ∧ q = renderAddrM p a)) ∧
    (∀ (kvs : List (String × Value)) (p : String) (l : Nat),
      wfEntries kvs = true → nodupKeysB (kvs.map Prod.fst) = true →
      (kvs.map Prod.fst).all cleanKey = true → cleanKeysE kvs = true →
      ((objChildNodes E kvs p l).map JsonNode.path).Nodup ∧
      (∀ q ∈ (objChildNodes E kvs p l).map JsonNode.path,
        ∃ k a, k ∈ kvs.map Prod.fst ∧ cleanSegsL a = true ∧
          q = renderAddrM p (.key k :: a))) ∧
    (∀ (vs : List Value) (p : String) (l i : Nat),
      wfList vs = true → cleanKeysL vs = true →
      ((arrChildNodes E vs p l i).map JsonNode.path).Nodup ∧
      (∀ q ∈ (arrChildNodes E vs p l i).map JsonNode.path,
        ∃ j a, i ≤ j ∧ cleanSegsL a = true ∧ q = renderAddrM p (.idx j :: a))) := by
  refine parseJsonToNodes.mutual_induct E
    (fun v p l => wellFormed v = true → cleanKeysV v = true →
      ((parseJsonToNodes E v p l).map JsonNode.path).Nodup ∧
      (∀ q ∈ (parseJsonToNodes E v p l).map JsonNode.path,
        ∃ a, cleanSegsL a = true ∧ q = renderAddrM p a))
    (fun kvs p l => wfEntries kvs = true → nodupKeysB (kvs.map Prod.fst) = true →
      (kvs.map Prod.fst).all cleanKey = true → cleanKeysE kvs = true →
      ((objChildNodes E kvs p l).map JsonNode.path).Nodup ∧
      (∀ q ∈ (objChildNodes E kvs p l).map JsonNode.path,
        ∃ k a, k ∈ kvs.map Prod.fst ∧ cleanSegsL a = true ∧
          q = renderAddrM p (.key k :: a)))
    (fun vs p l i => wfList vs = true → cleanKeysL vs = true →
      ((arrChildNodes E vs p l i).map JsonNode.path).Nodup ∧
      (∀ q ∈ (arrChildNodes E vs p l i).map JsonNode.path,
        ∃ j a, i ≤ j ∧ cleanSegsL a = true ∧ q = renderAddrM p (.idx j :: a)))
    ?_ ?_ ?_ ?_ ?_ ?_ ?_ ?_ ?_ ?_
  · intro p l _ _
    rw [parseJsonToNodes]
    refine ⟨List.nodup_singleton _, fun q hq => ?_⟩
    rcases List.mem_singleton.mp hq with rfl
    exact ⟨[], rfl, (renderAddrM_nil _).symm⟩
  · intro b p l _ _
    rw [parseJsonToNodes]
    refine ⟨List.nodup_singleton _, fun q hq => ?_⟩
    rcases List.mem_singleton.mp hq with rfl
    exact ⟨[], rfl, (renderAddrM_nil _).symm⟩
  · intro n p l _ _
    rw [parseJsonToNodes]
    refine ⟨List.nodup_singleton _, fun q hq => ?_⟩
    rcases List.mem_singleton.mp hq with rfl
    exact ⟨[], rfl, (renderAddrM_nil _).symm⟩
  · intro s p l _ _
    rw [parseJsonToNodes]
    refine ⟨List.nodup_singleton _, fun q hq => ?_⟩
    rcases List.mem_singleton.mp hq with rfl
    exact ⟨[], rfl, (renderAddrM_nil _).symm⟩
  · intro elems p l ih hwf hcl
    rw [parseJsonToNodes]
    rw [wellFormed] at hwf
    rw [cleanKeysV_arr] at hcl
    by_cases hE : E.contains p = true
    · rw [if_pos hE]
      have ihh := ih hwf hcl
      simp only [List.map_cons]
      constructor
      · rw [List.nodup_cons]
        refine ⟨fun hmem => ?_, ihh.1⟩
        obtain ⟨j, a, hj, hca, he⟩ := ihh.2 p hmem
        have h0 : renderAddrM p [] = renderAddrM p (.idx j :: a) := by
          rw [renderAddrM_nil]
          exact he
        have h1 := renderAddrM_inj (show cleanSegsL [] = true from rfl) (cleanSegsL_idx_cons hca) h0
        exact absurd h1 (by simp)
      · intro q hq
        rcases List.mem_cons.mp hq with rfl | hq2
        · exact ⟨[], rfl, (renderAddrM_nil _).symm⟩
        · obtain ⟨j, a, hj, hca, he⟩ := ihh.2 q hq2
          exact ⟨.idx j :: a, cleanSegsL_idx_cons hca, he⟩
    · rw [if_neg hE]
      simp only [List.map_cons, List.map_nil]
      refine ⟨List.nodup_singleton _, fun q hq => ?_⟩
      rcases List.mem_singleton.mp hq with rfl
      exact ⟨[], rfl, (renderAddrM_nil _).symm⟩
  · intro kvs p l ih hwf hcl
    rw [parseJsonToNodes]
    rw [wellFormed] at hwf
    rw [cleanKeysV_obj] at hcl
    simp only [Bool.and_eq_true] at hwf hcl
    by_cases hE : E.contains p = true
    · rw [if_pos hE]
      have ihh := ih hwf.2 hwf.1 hcl.1 hcl.2
      simp only [List.map_cons]
      constructor
      · rw [List.nodup_cons]
        refine ⟨fun hmem => ?_, ihh.1⟩
        obtain ⟨k, a, hk, hca, he⟩ := ihh.2 p hmem
        have hkclean : cleanKey k = true := by
          rw [List.all_eq_true] at hcl
          exact hcl.1 k hk
        have h0 : renderAddrM p [] = renderAddrM p (.key k :: a) := by
          rw [renderAddrM_nil]
          exact he
        have h1 := renderAddrM_inj (show cleanSegsL [] = true from rfl) (cleanSegsL_key_cons hkclean hca) h0
        exact absurd h1 (by simp)
      · intro q hq
        rcases List.mem_cons.mp hq with rfl | hq2
        · exact ⟨[], rfl, (renderAddrM_nil _).symm⟩
        · obtain ⟨k, a, hk, hca, he⟩ := ihh.2 q hq2
          have hkclean : cleanKey k = true := by
            rw [List.all_eq_true] at hcl
            exact hcl.1 k hk
          exact ⟨.key k :: a, cleanSegsL_key_cons hkclean hca, he⟩
    · rw [if_neg hE]
      simp only [List.map_cons, List.map_nil]
      refine ⟨List.nodup_singleton _, fun q hq => ?_⟩
      rcases List.mem_singleton.mp hq with rfl
      exact ⟨[], rfl, (renderAddrM_nil _).symm⟩
  · intro p l _ _ _ _
    rw [objChildNodes]
    exact ⟨List.nodup_nil, fun q hq => absurd hq (List.not_mem_nil q)⟩
  · intro k v rest p l ih1 ih2 hwf hnd hkc hcl
    rw [objChildNodes]
    rw [wfEntries] at hwf
    rw [cleanKeysE] at hcl
    simp only [List.map_cons, List.all_cons, nodupKeysB, Bool.and_eq_true,
      Bool.not_eq_true'] at hwf hnd hkc hcl
    have hk : k ≠ "" := cleanKey_ne_empty hkc.1
    have hh := ih1 hwf.1 hcl.1
    have hr := ih2 hwf.2 hnd.2 hkc.2 hcl.2
    simp only [List.map_append]
    constructor
    · refine List.Nodup.append hh.1 hr.1 ?_
      intro q h1 h2
      obtain ⟨a, hca, he⟩ := hh.2 q h1
      obtain ⟨k2, a2, hk2, hca2, he2⟩ := hr.2 q h2
      have heq : renderAddrM p (.key k :: a) = renderAddrM p (.key k2 :: a2) := by
        rw [renderAddrM_key p hk a, ← he, he2]
      have h3 := renderAddrM_inj (cleanSegsL_key_cons hkc.1 hca)
        (cleanSegsL_key_cons (by rw [List.all_eq_true] at hkc; exact hkc.2 k2 hk2) hca2) heq
      injection h3 with e1 _
      injection e1 with e2
      rw [e2] at hnd
      rw [contains_of_mem hk2] at hnd
      cases hnd.1
    · intro q hq
      simp only [List.map_cons]
      rcases List.mem_append.mp hq with h1 | h2
      · obtain ⟨a, hca, he⟩ := hh.2 q h1
        refine ⟨k, a, List.mem_cons_self _ _, hca, ?_⟩
        rw [he]
        exact (renderAddrM_key p hk a).symm
      · obtain ⟨k2, a2, hk2, hca2, he2⟩ := hr.2 q h2
        exact ⟨k2, a2, List.mem_cons_of_mem _ hk2, hca2, he2⟩
  · intro p l i _ _
    rw [arrChildNodes]
    exact ⟨List.nodup_nil, fun q hq => absurd hq (List.not_mem_nil q)⟩
  · intro item rest p l i ih1 ih3 hwf hcl
    rw [arrChildNodes]
    rw [wfList] at hwf
    rw [cleanKeysL] at hcl
    simp only [Bool.and_eq_true] at hwf hcl
    have hh := ih1 hwf.1 hcl.1
    have hr := ih3 hwf.2 hcl.2
    simp only [List.map_append]
    constructor
    · refine List.Nodup.append hh.1 hr.1 ?_
      intro q h1 h2
      obtain ⟨a, hca, he⟩ := hh.2 q h1
      obtain ⟨j, a2, hj, hca2, he2⟩ := hr.2 q h2
      have heq : renderAddrM p (.idx i :: a) = renderAddrM p (.idx j :: a2) := by
        rw [renderAddrM_idx p i a, ← he, he2]
      have h3 := renderAddrM_inj (cleanSegsL_idx_cons hca) (cleanSegsL_idx_cons hca2) heq
      injection h3 with e1 _
      injection e1 with e2
      omega
    · intro q hq
      rcases List.mem_append.mp hq with h1 | h2
      · obtain ⟨a, hca, he⟩ := hh.2 q h1
        refine ⟨i, a, le_rfl, hca, ?_⟩
        rw [he]
        exact (renderAddrM_idx p i a).symm
      · obtain ⟨j, a2, hj, hca2, he2⟩ := hr.2 q h2
        exact ⟨j, a2, by omega, hca2, he2⟩

/-- Scalars have no keys, hence clean keys. -/
theorem cleanKeysV_scalar {v : Value} (h : v.isScalar = true) : cleanKeysV v = true := by
  cases v <;> first
    | (rw [cleanKeysV.eq_def]; done)
    | simp [Value.isScalar] at h

/-- Key cleanliness of the null literal. -/
theorem cleanKeysV_null : cleanKeysV .null = true := cleanKeysV_scalar rfl

/-- Key cleanliness of a boolean. -/
theorem cleanKeysV_bool (b : Bool) : cleanKeysV (.bool b) = true := cleanKeysV_scalar rfl

/-- Key cleanliness of a number. -/
theorem cleanKeysV_num (n : Int) : cleanKeysV (.num n) = true := cleanKeysV_scalar rfl

/-- Key cleanliness of a string. -/
theorem cleanKeysV_str (s : String) : cleanKeysV (.str s) = true := cleanKeysV_scalar rfl

/-- C8 counterexample: in the document with the keys a (holding an object
with key b) and the literal key a.b, the nested leaf and the top-level
member both render the path a.b — both in the self-diff's records and in
the fully expanded materializer rows — so path strings do not uniquely
address nodes once keys may contain a dot. -/
theorem claim_C8_cex :
    ¬ (((generateSmartJsonDiff (.obj [("a", .obj [("b", .num 1)]), ("a.b", .num 2)])
          (.obj [("a", .obj [("b", .num 1)]), ("a.b", .num 2)]) "").map
            DiffRecord.path).Nodup) ∧
    ¬ (((parseJsonToNodes ["", "a"] (.obj [("a", .obj [("b", .num 1)]), ("a.b", .num 2)])
          "" 0).map JsonNode.path).Nodup) := by
  constructor
  · have h : (generateSmartJsonDiff (.obj [("a", .obj [("b", .num 1)]), ("a.b", .num 2)])
        (.obj [("a", .obj [("b", .num 1)]), ("a.b", .num 2)]) "").map DiffRecord.path =
        ["a.b", "a.b"] := by
      simp [generateSmartJsonDiff, diffObjectKeys, objectDiffStep, diffArrayItems, dedupFirst,
        lookupKey, deepEqual, childPath, orRoot, Value.isScalar]
    rw [h]
    decide
  · have h : ((parseJsonToNodes ["", "a"]
        (.obj [("a", .obj [("b", .num 1)]), ("a.b", .num 2)]) "" 0).map JsonNode.path) =
        ["", "a", "a.b", "a.b"] := by
      simp [parseJsonToNodes, objChildNodes, arrChildNodes, childPath, natRepr, natReprL,
        digitChar]
    rw [h]
    decide

/-- C8 amended: for every well-formed value all of whose object keys are
nonempty and free of dot and opening-bracket characters, path strings do
uniquely address nodes: the self-diff's records carry pairwise distinct
paths, and the materializer's rows carry pairwise distinct paths for every
expanded-path set. -/
theorem claim_C8_amended (v : Value) (hwf : wellFormed v = true)
    (hcl : cleanKeysV v = true) :
    ((generateSmartJsonDiff v v "").map DiffRecord.path).Nodup ∧
    ∀ (E : List String) (l : Nat),
      ((parseJsonToNodes E v "" l).map JsonNode.path).Nodup :=
  ⟨diff_self_paths_nodup v hwf hcl,
   fun E l => ((nodes_paths_nodup E).1 v "" l hwf hcl).1⟩

/-- C8 witness: the amended statement at a concrete clean document holding
a nested object and an array with an object inside. -/
theorem claim_C8_witness :
    wellFormed (.obj [("a", .obj [("b", .num 1)]),
      ("c", .arr [.num 1, .obj [("d", .bool true)]])]) = true ∧
    cleanKeysV (.obj [("a", .obj [("b", .num 1)]),
      ("c", .arr [.num 1, .obj [("d", .bool true)]])]) = true ∧
    (((generateSmartJsonDiff
        (.obj [("a", .obj [("b", .num 1)]), ("c", .arr [.num 1, .obj [("d", .bool true)]])])
        (.obj [("a", .obj [("b", .num 1)]), ("c", .arr [.num 1, .obj [("d", .bool true)]])])
        "").map DiffRecord.path).Nodup ∧
     ∀ (E : List String) (l : Nat),
       ((parseJsonToNodes E
          (.obj [("a", .obj [("b", .num 1)]), ("c", .arr [.num 1, .obj [("d", .bool true)]])])
          "" l).map JsonNode.path).Nodup) :=
  ⟨by simp [wellFormed, wfEntries, wfList, nodupKeysB],
   by simp [cleanKeysV_obj, cleanKeysV_arr, cleanKeysE, cleanKeysL, cleanKeysV_null,
     cleanKeysV_bool, cleanKeysV_num, cleanKeysV_str, cleanKey, keySepChar],
   claim_C8_amended _
     (by simp [wellFormed, wfEntries, wfList, nodupKeysB])
     (by simp [cleanKeysV_obj, cleanKeysV_arr, cleanKeysE, cleanKeysL, cleanKeysV_null,
       cleanKeysV_bool, cleanKeysV_num, cleanKeysV_str, cleanKey, keySepChar])⟩

/-- JavaScript truthiness of a parsed document, as tested by the `nodes`
memo's guard `!parsedJson`: null, false, the number zero and the empty
string are falsy; every other value, containers included, is truthy. -/
def isFalsyJS : Value → Bool
  | .null => true
  | .bool b => !b
  | .num n => n == 0
  | .str s => s == ""
  | .arr _ => false
  | .obj _ => false

/-- The source's `parsedJson` state after the input handler ran on the
current text: null (here: none) for blank input and on parse failure,
otherwise the parsed document. -/
def parsedJsonState (input : String) : Option Value :=
  if isBlank input then none else parseJson input

/-- The source's `nodes` memo: the guard `if (!parsedJson) return []`
empties the row list whenever `parsedJson` is JavaScript-falsy — which
conflates the absent document with the successfully parsed falsy documents —
and otherwise runs the materializer from the root path at level 0. -/
def nodesMemo (E : List String) (input : String) : List JsonNode :=
  match parsedJsonState input with
  | none => []
  | some v => if isFalsyJS v then [] else parseJsonToNodes E v "" 0

/-- C4: code bug.  The documents null, false, 0 and "" parse successfully,
yet the row list of the `nodes` memo is empty for them, because the guard
`if (!parsedJson) return []` treats the JavaScript-falsy parsed documents
like the absent one; for every successfully parsed truthy document the memo
does emit exactly one row at nesting level 0 (the root's row), whatever the
expanded-path set.  So the claimed single root row fails exactly on the
four documents the claim names. -/
theorem claim_C4_falsy_empty_rows :
    (∀ E : List String,
      (parseJson "null" = some .null ∧ nodesMemo E "null" = []) ∧
      (parseJson "false" = some (.bool false) ∧ nodesMemo E "false" = []) ∧
      (parseJson "0" = some (.num 0) ∧ nodesMemo E "0" = []) ∧
      (parseJson "\"\"" = some (.str "") ∧ nodesMemo E "\"\"" = [])) ∧
    (∀ (E : List String) (input : String) (v : Value),
      parsedJsonState input = some v → isFalsyJS v = false →
      (nodesMemo E input).countP (fun r => r.level == 0) = 1) := by
  constructor
  · intro E
    exact ⟨⟨rfl, rfl⟩, ⟨rfl, rfl⟩, ⟨rfl, rfl⟩, ⟨rfl, rfl⟩⟩
  · intro E input v hp hf
    rw [nodesMemo, hp]
    dsimp only
    rw [if_neg (by simp [hf])]
    exact parseJsonToNodes_single_root_row E v
